import Mathlib

/-!
Verification development for the `ckan-sync` repository (`src/sync.py`).

The Python program synchronizes organizations, packages and resources
between two CKAN catalog instances.  This file gives a shallow embedding
of its reconciliation core:

* the entity normalizers `Organization` and `PackageMetadata`,
* the resource wrapper `Resource` with its embedded-marker parsing
  (`parse_hash`, `create_hash`, `same_as_source`, `for_upload`),
* the reconciler `CkanSync.sync_package_resources`, `sync_package`,
  `sync_org`, `sync_full` and the change-detection branch of `sync`.

Side effects (HTTP writes, file downloads and removals) are modelled as an
event trace; the CKAN target instance is modelled as an explicit state
updated by each write event.  A failure oracle on events models HTTP
failures (a failed POST raises in Python, aborting the current pass), and
an error marker models uncaught Python exceptions such as the
`AttributeError` raised by `parse_hash` on an absent hash field.
-/

namespace CkanSync

/-! ## Python string primitives used by the code -/

/-- Characters counted as whitespace by Python's `str.strip()`
(the ASCII ones that can occur in CKAN string fields). -/
def pyWS (c : Char) : Bool :=
  c = ' ' ∨ c = '\t' ∨ c = '\n' ∨ c = '\r'

/-- Drop leading whitespace characters, as Python `str.lstrip()`. -/
def lstripChars (l : List Char) : List Char :=
  l.dropWhile pyWS

/-- Drop trailing whitespace characters, as Python `str.rstrip()`. -/
def rstripChars (l : List Char) : List Char :=
  ((l.reverse.dropWhile pyWS)).reverse

/-- Python `str.strip()`: drop leading and trailing whitespace. -/
def pyStrip (s : String) : String :=
  ⟨rstripChars (lstripChars s.data)⟩

/-- Python `s.split(sep, 1)` restricted to the information the code uses:
`some (before, after)` when `sep` occurs in `s` (split at the first
occurrence), `none` when it does not occur (in which case the two-element
unpacking in `parse_hash` raises `ValueError`). -/
def splitOnce (s : String) (sep : Char) : Option (String × String) :=
  if s.data.contains sep then
    some (⟨s.data.takeWhile (fun c => !(c = sep))⟩,
          ⟨(s.data.dropWhile (fun c => !(c = sep))).tail⟩)
  else
    none

/-- Python `os.path.basename`: the part of the path after the last `/`. -/
def basenameOf (s : String) : String :=
  ⟨(s.data.reverse.takeWhile (fun c => !(c = '/'))).reverse⟩

/-- The regex substitution in `Organization.image_name`:
`re.sub(r'^[\d-]+\.\d{6}', '', filename)` removes a leading run of digits
and dashes followed by a dot and exactly six digits, when present. -/
def dropUploadStamp (l : List Char) : List Char :=
  let pre := l.takeWhile (fun c => c.isDigit || c = '-')
  let rest := l.drop pre.length
  if pre.length > 0 then
    match rest with
    | '.' :: r =>
        if (r.take 6).length = 6 ∧ (r.take 6).all Char.isDigit then
          r.drop 6
        else l
    | _ => l
  else l

/-- `Organization.image_name`: basename of the image URL with the CKAN
upload timestamp stripped. -/
def imageNameOf (url : String) : String :=
  ⟨dropUploadStamp (basenameOf url).data⟩

/-- Python truthiness of an optional string (`None` and `''` are falsy). -/
def pyTruthy : Option String → Bool
  | none => false
  | some s => !(s = "")

/-! ## Raw entity representations

Raw entities model the JSON dicts returned by the CKAN API.  Scalar
fields are stored as an association list of present keys (`dict.get`
returning `none` both for an absent key and for a JSON `null` value);
the nested lists `extras`, `tags`, `resources` and the fields that the
code accesses with `[...]` (which CKAN always includes) are explicit. -/

/-- Raw extras entry; the code projects `key`, `value` (and for
organizations `state`) out of it. -/
structure RawExtra where
  key : String
  value : String
  state : String
deriving DecidableEq, Repr

/-- Package extras projection `{k: ed.get(k) for k in ['key', 'value']}`. -/
structure PkgExtra where
  key : String
  value : String
deriving DecidableEq, Repr

/-- Raw tag entry; the code projects exactly
`['display_name', 'state', 'name']` out of it. -/
structure RawTag where
  display_name : String
  state : String
  name : String
deriving DecidableEq, Repr

/-- Raw CKAN organization dict: scalar fields accessed via `.get`, the
`extras` list, and `image_display_url` (kept outside the comparison dict
as the `_image_url` attribute). -/
structure RawOrg where
  scalars : List (String × Option String)
  extras : List RawExtra
  image_display_url : String
deriving DecidableEq, Repr

/-- Python `org_dict.get(k)` over the scalar part. -/
def RawOrg.get (o : RawOrg) (k : String) : Option String :=
  (o.scalars.lookup k).getD none

/-- Raw CKAN resource dict.  The fields the code accesses with `[...]`
(`id`, `url`, `url_type`, `revision_id`, `last_modified`) are total;
`hash` is optional because `parse_hash` calls `.split` on `.get('hash')`,
which raises `AttributeError` when the key is absent; the remaining
fields are only read through `.get` in `for_upload`. -/
structure RawResource where
  id : String
  url : String
  url_type : String
  hash : Option String
  revision_id : String
  last_modified : String
  name : Option String
  description : Option String
  format : Option String
  describedBy : Option String
  describedByType : Option String
  license_link : Option String
  position : Option String
  temporal_start : Option String
  temporal_end : Option String
deriving DecidableEq, Repr

/-- Raw CKAN package dict: scalar metadata via `.get`, the `extras` and
`tags` lists, the owning organization's name
(`package_dict['organization']['name']`), and the `resources` list. -/
structure RawPackage where
  scalars : List (String × Option String)
  extras : List RawExtra
  tags : List RawTag
  organization_name : String
  resources : List RawResource
deriving DecidableEq, Repr

/-- Python `package_dict.get(k)` over the scalar part. -/
def RawPackage.get (p : RawPackage) (k : String) : Option String :=
  (p.scalars.lookup k).getD none

/-! ## Entity normalizers -/

/-- Sort key order on extras entries (`sorted(extras, key=lambda x: x['key'])`).
Python's `sorted` is a stable sort; `List.insertionSort` with `≤` on the
key is the same stable sort. -/
def extraLe (a b : RawExtra) : Prop := a.key ≤ b.key

instance : DecidableRel extraLe := fun a b =>
  inferInstanceAs (Decidable (a.key ≤ b.key))

instance : IsTotal RawExtra extraLe := ⟨fun a b => le_total a.key b.key⟩

instance : IsTrans RawExtra extraLe := ⟨fun _ _ _ h h' => le_trans h h'⟩

/-- Sort key order on projected package extras. -/
def pkgExtraLe (a b : PkgExtra) : Prop := a.key ≤ b.key

instance : DecidableRel pkgExtraLe := fun a b =>
  inferInstanceAs (Decidable (a.key ≤ b.key))

instance : IsTotal PkgExtra pkgExtraLe := ⟨fun a b => le_total a.key b.key⟩

instance : IsTrans PkgExtra pkgExtraLe := ⟨fun _ _ _ h h' => le_trans h h'⟩

/-- Sort key order on tags (`sorted(tags, key=lambda x: x['display_name'])`). -/
def tagLe (a b : RawTag) : Prop := a.display_name ≤ b.display_name

instance : DecidableRel tagLe := fun a b =>
  inferInstanceAs (Decidable (a.display_name ≤ b.display_name))

instance : IsTotal RawTag tagLe := ⟨fun a b => le_total a.display_name b.display_name⟩

instance : IsTrans RawTag tagLe := ⟨fun _ _ _ h h' => le_trans h h'⟩

/-- The scalar key allowlist of `Organization.__init__`. -/
def orgKeys : List String :=
  ["approval_status", "description", "display_name", "name", "state", "title", "type"]

/-- Canonical organization: the comparison dict built by
`Organization.__init__` (the `_image_url` attribute is an instance
attribute, not a dict entry, so it does not take part in `==`). -/
structure Organization where
  scalars : List (String × Option String)
  extras : List RawExtra
deriving DecidableEq, Repr

/-- `Organization.__init__`: project the scalar allowlist, project each
extras entry to `{key, value, state}` (identity on our raw extras model)
and sort the extras by `key`. -/
def Organization.ofRaw (o : RawOrg) : Organization :=
  { scalars := orgKeys.map fun k => (k, o.get k)
    extras := List.insertionSort extraLe o.extras }

/-- The scalar key allowlist of `PackageMetadata.__init__`. -/
def packageKeys : List String :=
  ["author", "author_email", "frequency", "license_id", "license_link",
   "license_title", "license_url", "maintainer", "maintainer_email", "name",
   "notes", "publisher_name", "publisher_uri", "ruian_code", "ruian_type",
   "schema", "spatial_uri", "state", "temporal_start", "temporal_end",
   "theme", "title", "url", "version"]

/-- Canonical package metadata: the comparison dict built by
`PackageMetadata.__init__`. -/
structure PackageMetadata where
  scalars : List (String × Option String)
  extras : List PkgExtra
  tags : List RawTag
  owner_org : String
deriving DecidableEq, Repr

/-- `PackageMetadata.__init__`: project the scalar allowlist, project and
sort `extras` (by `key`) and `tags` (by `display_name`), take
`owner_org` from `package_dict['organization']['name']`, then strip
whitespace from every string value (the lists are not strings, so only
the scalar values and `owner_org` are stripped; absent values are `None`
and are left alone). -/
def PackageMetadata.ofRaw (p : RawPackage) : PackageMetadata :=
  { scalars := packageKeys.map fun k => (k, (p.get k).map pyStrip)
    extras := List.insertionSort pkgExtraLe
      (p.extras.map fun e => { key := e.key, value := e.value })
    tags := List.insertionSort tagLe p.tags
    owner_org := pyStrip p.organization_name }

/-- Lookup of a scalar value in a canonical dict (`meta['state']` etc.). -/
def scalarGet (l : List (String × Option String)) (k : String) : Option String :=
  (l.lookup k).getD none

/-! ## The Resource wrapper -/

/-- `Resource.parse_hash`: split the `hash` field on the first `:`.
An absent field is `None` in Python, so `.split` raises
`AttributeError` (only `ValueError` is caught), modelled as `none`.
A present field with no separator raises `ValueError` during the
two-element unpacking, which the code catches and turns into
`('', '')`. -/
def parse_hash (hash : Option String) : Option (String × String) :=
  match hash with
  | none => none
  | some s =>
      match splitOnce s ':' with
      | some (oid, orev) => some (oid, orev)
      | none => some ("", "")

/-- `Resource.__init__`: the raw dict plus `package_id` and the parsed
`original_id` / `original_revision` marker fields.  `none` when
`parse_hash` raises. -/
structure Resource where
  raw : RawResource
  package_id : String
  original_id : String
  original_revision : String
deriving DecidableEq, Repr

/-- Build a `Resource` from a raw dict, as `Resource(resource_dict, package_name)`. -/
def Resource.ofRaw (rd : RawResource) (package_name : String) : Option Resource :=
  (parse_hash rd.hash).map fun pr =>
    { raw := rd
      package_id := package_name
      original_id := pr.1
      original_revision := pr.2 }

/-- `Resource.create_hash`: `'%s:%s' % (self['id'], self['revision_id'])`. -/
def Resource.create_hash (r : Resource) : String :=
  r.raw.id ++ ":" ++ r.raw.revision_id

/-- `Resource.create_filename`: `'%s-%s' % (self['id'], os.path.basename(self['url']))`. -/
def Resource.create_filename (r : Resource) : String :=
  r.raw.id ++ "-" ++ basenameOf r.raw.url

/-- `Resource.same_as_source`: same original id, and the recorded
original revision equals either the source's `revision_id` or its
`last_modified`. -/
def Resource.same_as_source (t : Resource) (s : Resource) : Bool :=
  t.original_id = s.raw.id ∧
    (t.original_revision = s.raw.revision_id ∨
     t.original_revision = s.raw.last_modified)

/-- The payload built by `Resource.for_upload`. -/
structure UploadDict where
  describedBy : Option String
  describedByType : Option String
  description : Option String
  format : Option String
  license_link : Option String
  name : Option String
  package_id : Option String
  position : Option String
  temporal_start : Option String
  temporal_end : Option String
  url : String
  hash : String
  id : Option String
deriving DecidableEq, Repr

/-- `Resource.for_upload`: project the upload allowlist out of the
resource dict, blank the `url` for uploaded files, and store the
re-created marker in `hash`.  The `id` entry is absent here; the update
path adds it afterwards. -/
def Resource.for_upload (r : Resource) : UploadDict :=
  { describedBy := r.raw.describedBy
    describedByType := r.raw.describedByType
    description := r.raw.description
    format := r.raw.format
    license_link := r.raw.license_link
    name := r.raw.name
    package_id := some r.package_id
    position := r.raw.position
    temporal_start := r.raw.temporal_start
    temporal_end := r.raw.temporal_end
    url := if r.raw.url_type = "upload" then "" else r.raw.url
    hash := r.create_hash
    id := none }

/-! ## The two catalog instances

The source CKAN instance is read-only for the program: it is a map from
names to raw entities.  The target CKAN instance is mutable: its state is
updated by every successful write call.  The write semantics below model
the CKAN action API as the spec describes it (create stores the submitted
payload under its `name`, patch overwrites the submitted fields, purge
removes the package, `resource_create` appends the payload to the named
package under a server-assigned id, `resource_update`/`resource_delete`
address a resource by its server-assigned unique id, and an image upload
stores the file under a timestamped name whose `image_name` round-trips). -/

/-- The source catalog: `organization_list` / `package_list` return the
names in order, `organization_show` / `package_show` look an entity up by
name. -/
structure SourceCatalog where
  orgs : List (String × RawOrg)
  packages : List (String × RawPackage)
deriving DecidableEq, Repr

def SourceCatalog.orgNames (s : SourceCatalog) : List String := s.orgs.map (·.1)

def SourceCatalog.packageNames (s : SourceCatalog) : List String := s.packages.map (·.1)

def SourceCatalog.getOrg (s : SourceCatalog) (n : String) : Option RawOrg :=
  (s.orgs.find? fun p => p.1 = n).map (·.2)

def SourceCatalog.getPackage (s : SourceCatalog) (n : String) : Option RawPackage :=
  (s.packages.find? fun p => p.1 = n).map (·.2)

/-- A stored target organization: its canonical metadata (what the sync
tool wrote, or whatever was there before) plus the filename of its
uploaded image. -/
structure TargetOrg where
  meta : Organization
  imageName : String
deriving DecidableEq, Repr

/-- The timestamp prefix CKAN puts in front of an uploaded file name; it
matches the regex `^[\d-]+\.\d{6}` that `image_name` strips. -/
def uploadStamp : String := "1.123456"

/-- The raw dict `organization_show` returns for a stored target org. -/
def TargetOrg.toRaw (t : TargetOrg) : RawOrg :=
  { scalars := t.meta.scalars
    extras := t.meta.extras
    image_display_url := "uploads/" ++ uploadStamp ++ t.imageName }

/-- A stored target package: its canonical metadata plus its resources. -/
structure TargetPackage where
  meta : PackageMetadata
  resources : List RawResource
deriving DecidableEq, Repr

/-- The raw dict `package_show` returns for a stored target package. -/
def TargetPackage.toRaw (t : TargetPackage) : RawPackage :=
  { scalars := t.meta.scalars
    extras := t.meta.extras.map fun e => { key := e.key, value := e.value, state := "active" }
    tags := t.meta.tags
    organization_name := t.meta.owner_org
    resources := t.resources }

/-- The mutable state of the target CKAN instance.  `nextId` feeds the
server-assigned ids of created resources. -/
structure TargetState where
  orgs : List (String × TargetOrg)
  packages : List (String × TargetPackage)
  nextId : Nat
deriving DecidableEq, Repr

def TargetState.getOrg (st : TargetState) (n : String) : Option TargetOrg :=
  (st.orgs.find? fun p => p.1 = n).map (·.2)

def TargetState.getPackage (st : TargetState) (n : String) : Option TargetPackage :=
  (st.packages.find? fun p => p.1 = n).map (·.2)

def TargetState.packageNames (st : TargetState) : List String := st.packages.map (·.1)

/-- The server-assigned id of the `n`-th created resource. -/
def freshId (n : Nat) : String := ⟨'#' :: List.replicate n 'i'⟩

/-- The raw resource CKAN stores for a create/update payload.  Only `id`
and `hash` are ever read back by the sync logic; the remaining fields are
carried over from the payload (with server-side fields blank). -/
def rawOfUpload (u : UploadDict) (rid : String) : RawResource :=
  { id := rid
    url := u.url
    url_type := ""
    hash := some u.hash
    revision_id := ""
    last_modified := ""
    name := u.name
    description := u.description
    format := u.format
    describedBy := u.describedBy
    describedByType := u.describedByType
    license_link := u.license_link
    position := u.position
    temporal_start := u.temporal_start
    temporal_end := u.temporal_end }

/-! ## Events, failures and the run state -/

/-- One observable side effect of the program: an API write call, a file
download, or a local file removal. -/
inductive Event where
  | orgCreate (o : Organization)
  | orgPatchMeta (o : Organization)
  | orgPatchImage (name : String) (filename : String)
  | packageCreate (m : PackageMetadata)
  | packagePatch (m : PackageMetadata)
  | packagePurge (name : String)
  | resourceCreate (payload : UploadDict) (hasFiles : Bool)
  | resourceUpdate (payload : UploadDict) (hasFiles : Bool)
  | resourceDelete (id : String)
  | download (filename : String)
  | fileRemove (filename : String)
deriving DecidableEq, Repr

/-- Which events are write calls against the target API. -/
def Event.isWrite : Event → Bool
  | .download _ => false
  | .fileRemove _ => false
  | _ => true

abbrev Trace := List Event

/-- Uncaught Python exceptions that abort the current sync pass. -/
inductive Err where
  /-- A POST whose response is not a success (`raise_for_status` or the
  explicit `Exception('POST request failed')`). -/
  | apiFail
  /-- `AttributeError` from `parse_hash` on an absent `hash` field, or a
  missing source entity passed to a normalizer. -/
  | attrError
  /-- `KeyError` (unreachable in the modelled flows). -/
  | keyError
deriving DecidableEq, Repr

/-- The failure oracle: which API write calls fail.  Reads never fail in
the model. -/
structure Env where
  fails : Event → Bool

/-- The environment in which every call succeeds. -/
def noFail : Env := ⟨fun _ => false⟩

/-- Interpreter state: the target instance, the emitted trace, and the
pending exception (once set, all following steps are skipped, modelling
exception propagation). -/
structure RunState where
  st : TargetState
  tr : Trace
  err : Option Err
deriving DecidableEq, Repr

def initRS (st : TargetState) : RunState := ⟨st, [], none⟩

/-- Replace the entry at a key of a name-keyed association list. -/
def updateAt {α : Type} (l : List (String × α)) (k : String) (f : α → α) :
    List (String × α) :=
  l.map fun p => if p.1 = k then (p.1, f p.2) else p

/-- The effect of a successful write event on the target instance. -/
def applyEffect (e : Event) (st : TargetState) : TargetState :=
  match e with
  | .orgCreate o =>
      { st with orgs :=
          st.orgs ++ [((scalarGet o.scalars "name").getD "", ⟨o, ""⟩)] }
  | .orgPatchMeta o =>
      let n := (scalarGet o.scalars "name").getD ""
      { st with orgs := updateAt st.orgs n (fun t => { t with meta := o }) }
  | .orgPatchImage n fname =>
      { st with orgs := updateAt st.orgs n (fun t => { t with imageName := fname }) }
  | .packageCreate m =>
      { st with packages :=
          st.packages ++ [((scalarGet m.scalars "name").getD "", ⟨m, []⟩)] }
  | .packagePatch m =>
      let n := (scalarGet m.scalars "name").getD ""
      { st with packages := updateAt st.packages n (fun t => { t with meta := m }) }
  | .packagePurge n =>
      { st with packages := st.packages.filter fun p => !(p.1 = n) }
  | .resourceCreate u _ =>
      let add := fun (t : TargetPackage) =>
        { t with resources := t.resources ++ [rawOfUpload u (freshId st.nextId)] }
      { st with
          packages := updateAt st.packages (u.package_id.getD "") add
          nextId := st.nextId + 1 }
  | .resourceUpdate u _ =>
      { st with packages :=
          st.packages.map fun p =>
            (p.1, { p.2 with resources :=
              p.2.resources.map fun rd =>
                if rd.id = u.id.getD "" then rawOfUpload u rd.id else rd }) }
  | .resourceDelete rid =>
      { st with packages :=
          st.packages.map fun p =>
            (p.1, { p.2 with resources := p.2.resources.filter fun rd => !(rd.id = rid) }) }
  | .download _ => st
  | .fileRemove _ => st

/-- Emit an event: skipped entirely when an exception is propagating;
otherwise the call is issued (it enters the trace), and either fails
(setting the exception, with no state effect) or succeeds (updating the
target state). -/
def emit (env : Env) (e : Event) (rs : RunState) : RunState :=
  if rs.err.isSome then rs
  else if env.fails e then { rs with tr := rs.tr ++ [e], err := some .apiFail }
  else { rs with tr := rs.tr ++ [e], st := applyEffect e rs.st }

/-- Raise an uncaught exception. -/
def raiseErr (er : Err) (rs : RunState) : RunState :=
  if rs.err.isSome then rs else { rs with err := some er }

/-! ## The Python dict of target resources keyed by original id

`t_resources_by_oid` is a Python dict: insertion order is preserved,
overwriting a key keeps its position, `pop` removes the entry, and
`values()` iterates in that order. -/

abbrev PyDict := List (String × Resource)

def dictLookup (d : PyDict) (k : String) : Option Resource :=
  (d.find? fun p => p.1 = k).map (·.2)

/-- `d[k] = v`: replace in place when the key exists, else append. -/
def dictInsert (d : PyDict) (k : String) (v : Resource) : PyDict :=
  if d.any fun p => p.1 = k then
    d.map fun p => if p.1 = k then (k, v) else p
  else d ++ [(k, v)]

/-- `d.pop(k)` leaves the remaining entries in order. -/
def dictRemove (d : PyDict) (k : String) : PyDict :=
  d.filter fun p => !(p.1 = k)

def dictValues (d : PyDict) : List Resource := d.map (·.2)

/-! ## CkanSync.sync_package_resources -/

/-- Step 1 of `sync_package_resources`: walk the target resources,
delete every resource whose parsed `original_id` is empty, and key the
rest by `original_id` in a Python dict.  A target resource with an
absent `hash` makes `Resource.__init__` raise. -/
def phase1 (env : Env) (pname : String) :
    List RawResource → PyDict → RunState → PyDict × RunState
  | [], d, rs => (d, rs)
  | rd :: rest, d, rs =>
      if rs.err.isSome then (d, rs)
      else
        match Resource.ofRaw rd pname with
        | none => (d, raiseErr .attrError rs)
        | some res =>
            if res.original_id = "" then
              phase1 env pname rest d (emit env (.resourceDelete rd.id) rs)
            else
              phase1 env pname rest (dictInsert d res.original_id res) rs

/-- Step 2 of `sync_package_resources`: walk the source resources.
Unknown original id ⇒ create (downloading the payload first for
`url_type == 'upload'`); known id ⇒ pop it and update unless
`same_as_source`; the temporary file is removed after the API call
returns (so not when the call raises). -/
def phase2 (env : Env) (pname : String) :
    List RawResource → PyDict → RunState → PyDict × RunState
  | [], d, rs => (d, rs)
  | srd :: rest, d, rs =>
      if rs.err.isSome then (d, rs)
      else
        match Resource.ofRaw srd pname with
        | none => (d, raiseErr .attrError rs)
        | some s_res =>
            if (dictLookup d s_res.raw.id).isNone then
              let hasFiles := s_res.raw.url_type = "upload"
              let rs := if hasFiles then
                  emit env (.download s_res.create_filename) rs else rs
              let rs := emit env (.resourceCreate s_res.for_upload hasFiles) rs
              let rs := if hasFiles then
                  emit env (.fileRemove s_res.create_filename) rs else rs
              phase2 env pname rest d rs
            else
              match dictLookup d s_res.raw.id with
              | none => (d, raiseErr .keyError rs)
              | some t_res =>
                  let d := dictRemove d s_res.raw.id
                  if t_res.same_as_source s_res then
                    phase2 env pname rest d rs
                  else
                    let hasFiles := s_res.raw.url_type = "upload"
                    let rs := if hasFiles then
                        emit env (.download s_res.create_filename) rs else rs
                    let payload := { s_res.for_upload with id := some t_res.raw.id }
                    let rs := emit env (.resourceUpdate payload hasFiles) rs
                    let rs := if hasFiles then
                        emit env (.fileRemove s_res.create_filename) rs else rs
                    phase2 env pname rest d rs

/-- Step 3 of `sync_package_resources`: delete the target resources left
in the dict (their source counterparts are gone). -/
def phase3 (env : Env) : List Resource → RunState → RunState
  | [], rs => rs
  | t :: rest, rs => phase3 env rest (emit env (.resourceDelete t.raw.id) rs)

/-- `CkanSync.sync_package_resources`. -/
def sync_package_resources (env : Env) (source_reslist target_reslist : List RawResource)
    (package_name : String) (rs : RunState) : RunState :=
  let p1 := phase1 env package_name target_reslist [] rs
  let p2 := phase2 env package_name source_reslist p1.1 p1.2
  phase3 env (dictValues p2.1) p2.2

/-! ## CkanSync.sync_package and sync_org -/

/-- `CkanSync.sync_package` (called with a package name, as the full and
revision-based sync paths do).  Reads the package from both instances;
present on both sides with differing canonical metadata ⇒ purge-and-stop
when the source state is `deleted`, else patch; missing on the target ⇒
create; missing on the source ⇒ purge an existing target package.  All
paths that keep the package reconcile its resources. -/
def sync_package (env : Env) (src : SourceCatalog) (package_name : String)
    (rs : RunState) : RunState :=
  if rs.err.isSome then rs
  else
    let t_pack := rs.st.getPackage package_name
    match src.getPackage package_name with
    | some s_pack =>
        let s_meta := PackageMetadata.ofRaw s_pack
        match t_pack with
        | none =>
            let rs := emit env (.packageCreate s_meta) rs
            sync_package_resources env s_pack.resources [] package_name rs
        | some tp =>
            if s_meta = PackageMetadata.ofRaw tp.toRaw then
              sync_package_resources env s_pack.resources tp.resources package_name rs
            else if scalarGet s_meta.scalars "state" = some "deleted" then
              emit env (.packagePurge package_name) rs
            else
              let rs := emit env (.packagePatch s_meta) rs
              sync_package_resources env s_pack.resources tp.resources package_name rs
    | none =>
        match t_pack with
        | some _ => emit env (.packagePurge package_name) rs
        | none => rs

/-- The inner `sync_image` of `CkanSync.sync_org`: download the source
image, patch the target organization with the file attached, then remove
the local file (the removal is skipped when the patch raises). -/
def sync_image (env : Env) (org_name : String) (s_org_image : String)
    (rs : RunState) : RunState :=
  let fname := imageNameOf s_org_image
  let rs := emit env (.download fname) rs
  let rs := emit env (.orgPatchImage org_name fname) rs
  emit env (.fileRemove fname) rs

/-- `CkanSync.sync_org`: create the target organization (then upload its
image in a separate call) when it is missing; otherwise patch it when the
canonical forms differ and re-upload the image when the image names
differ. -/
def sync_org (env : Env) (src : SourceCatalog) (org_name : String)
    (rs : RunState) : RunState :=
  if rs.err.isSome then rs
  else
    match src.getOrg org_name with
    | none => raiseErr .attrError rs
    | some so =>
        let s_org := Organization.ofRaw so
        match rs.st.getOrg org_name with
        | none =>
            let rs := emit env (.orgCreate s_org) rs
            sync_image env org_name so.image_display_url rs
        | some to_ =>
            let t_org := Organization.ofRaw to_.toRaw
            let rs := if s_org = t_org then rs else emit env (.orgPatchMeta s_org) rs
            if imageNameOf so.image_display_url = imageNameOf to_.toRaw.image_display_url then
              rs
            else
              sync_image env org_name so.image_display_url rs

/-- `CkanSync.sync_orgs_and_packages`. -/
def sync_orgs_and_packages (env : Env) (src : SourceCatalog)
    (orgs packages : List String) (rs : RunState) : RunState :=
  let rs := orgs.foldl (fun rs n => sync_org env src n rs) rs
  packages.foldl (fun rs n => sync_package env src n rs) rs

/-- `CkanSync.sync_full`: reconcile every source organization and
package, then purge every target package whose name is not in the source
package list. -/
def sync_full (env : Env) (src : SourceCatalog) (rs : RunState) : RunState :=
  let source_packages := src.packageNames
  let rs := sync_orgs_and_packages env src src.orgNames source_packages rs
  let tnames := rs.st.packageNames
  tnames.foldl
    (fun rs n => if source_packages.contains n then rs
                 else emit env (.packagePurge n) rs) rs

/-! ## The change-detection branch of CkanSync.sync

`sync` first falls back to a full sync when neither watermark is set;
otherwise it collects the revision log since the watermark (an API read,
modelled as the parameter `revisions`) and dispatches on its length. -/

inductive SyncChoice where
  /-- `sync_full()` is run. -/
  | full
  /-- Nothing is reconciled (`return` after the empty-revisions log line). -/
  | nothing
  /-- `collect_changes_from_revisions` + `sync_orgs_and_packages`. -/
  | perRevision
deriving DecidableEq, Repr

/-- The branch structure of `CkanSync.sync` (lines 472-488). -/
def sync_decision (since_id since_time : Option String)
    (revisions : List String) : SyncChoice :=
  if !(pyTruthy since_id || pyTruthy since_time) then .full
  else if revisions.length = 0 then .nothing
  else if revisions.length > 200 then .full
  else .perRevision

/-! ## Event classification helpers -/

/-- A `resource_delete` call. -/
def Event.isResDelete : Event → Bool
  | .resourceDelete _ => true
  | _ => false

/-- Events that `sync_package_resources` can emit: resource API calls and
local file traffic, never organization or package calls. -/
def Event.isResourceOp : Event → Bool
  | .resourceCreate _ _ => true
  | .resourceUpdate _ _ => true
  | .resourceDelete _ => true
  | .download _ => true
  | .fileRemove _ => true
  | _ => false

/-! ## Basic interpreter lemmas -/

theorem emit_tr_of_err_none (env : Env) (e : Event) (rs : RunState)
    (h : rs.err = none) : (emit env e rs).tr = rs.tr ++ [e] := by
  unfold emit
  simp only [h, Option.isSome_none, Bool.false_eq_true, if_false]
  split <;> rfl

theorem emit_of_err_some (env : Env) (e : Event) (rs : RunState)
    (h : rs.err.isSome) : emit env e rs = rs := by
  unfold emit
  simp [h]

theorem raiseErr_tr (er : Err) (rs : RunState) : (raiseErr er rs).tr = rs.tr := by
  unfold raiseErr
  split <;> rfl

/-- The trace only grows, and `emit` appends at most the emitted event. -/
theorem emit_tr_ext (env : Env) (e : Event) (rs : RunState) :
    ∃ ext, (emit env e rs).tr = rs.tr ++ ext ∧ ∀ x ∈ ext, x = e := by
  unfold emit
  split
  · exact ⟨[], by simp⟩
  · split
    · exact ⟨[e], rfl, by simp⟩
    · exact ⟨[e], rfl, by simp⟩

/-- Once an exception is propagating, nothing more is emitted. -/
theorem phase1_of_err_some (env : Env) (p : String) (tl : List RawResource)
    (d : PyDict) (rs : RunState) (h : rs.err.isSome) :
    phase1 env p tl d rs = (d, rs) := by
  cases tl with
  | nil => rfl
  | cons rd rest => simp [phase1, h]

theorem phase2_of_err_some (env : Env) (p : String) (sl : List RawResource)
    (d : PyDict) (rs : RunState) (h : rs.err.isSome) :
    phase2 env p sl d rs = (d, rs) := by
  cases sl with
  | nil => rfl
  | cons rd rest => simp [phase2, h]

theorem phase3_of_err_some (env : Env) (vs : List Resource)
    (rs : RunState) (h : rs.err.isSome) :
    phase3 env vs rs = rs := by
  induction vs with
  | nil => rfl
  | cons v rest ih =>
      simp only [phase3]
      rw [emit_of_err_some env _ rs h]
      exact ih

/-! Step equations for the three phases, one per control-flow branch of
the Python loop body. -/

theorem phase1_cons_raise (env : Env) (p : String) (rd : RawResource)
    (rest : List RawResource) (d : PyDict) (rs : RunState)
    (herr : rs.err = none) (hp : Resource.ofRaw rd p = none) :
    phase1 env p (rd :: rest) d rs = (d, raiseErr .attrError rs) := by
  simp [phase1, herr, hp]

theorem phase1_cons_del (env : Env) (p : String) (rd : RawResource)
    (rest : List RawResource) (d : PyDict) (rs : RunState)
    (herr : rs.err = none) (res : Resource) (hp : Resource.ofRaw rd p = some res)
    (hoid : res.original_id = "") :
    phase1 env p (rd :: rest) d rs =
      phase1 env p rest d (emit env (.resourceDelete rd.id) rs) := by
  simp [phase1, herr, hp, hoid]

theorem phase1_cons_ins (env : Env) (p : String) (rd : RawResource)
    (rest : List RawResource) (d : PyDict) (rs : RunState)
    (herr : rs.err = none) (res : Resource) (hp : Resource.ofRaw rd p = some res)
    (hoid : ¬ res.original_id = "") :
    phase1 env p (rd :: rest) d rs =
      phase1 env p rest (dictInsert d res.original_id res) rs := by
  simp [phase1, herr, hp, hoid]

theorem phase2_cons_raise (env : Env) (p : String) (srd : RawResource)
    (rest : List RawResource) (d : PyDict) (rs : RunState)
    (herr : rs.err = none) (hp : Resource.ofRaw srd p = none) :
    phase2 env p (srd :: rest) d rs = (d, raiseErr .attrError rs) := by
  simp [phase2, herr, hp]

theorem phase2_cons_create_up (env : Env) (p : String) (srd : RawResource)
    (rest : List RawResource) (d : PyDict) (rs : RunState)
    (herr : rs.err = none) (s_res : Resource) (hp : Resource.ofRaw srd p = some s_res)
    (habs : dictLookup d s_res.raw.id = none)
    (hup : s_res.raw.url_type = "upload") :
    phase2 env p (srd :: rest) d rs =
      phase2 env p rest d
        (emit env (.fileRemove s_res.create_filename)
          (emit env (.resourceCreate s_res.for_upload true)
            (emit env (.download s_res.create_filename) rs))) := by
  simp [phase2, herr, hp, habs, hup]

theorem phase2_cons_create_link (env : Env) (p : String) (srd : RawResource)
    (rest : List RawResource) (d : PyDict) (rs : RunState)
    (herr : rs.err = none) (s_res : Resource) (hp : Resource.ofRaw srd p = some s_res)
    (habs : dictLookup d s_res.raw.id = none)
    (hup : ¬ s_res.raw.url_type = "upload") :
    phase2 env p (srd :: rest) d rs =
      phase2 env p rest d (emit env (.resourceCreate s_res.for_upload false) rs) := by
  simp [phase2, herr, hp, habs, hup]

theorem phase2_cons_same (env : Env) (p : String) (srd : RawResource)
    (rest : List RawResource) (d : PyDict) (rs : RunState)
    (herr : rs.err = none) (s_res : Resource) (hp : Resource.ofRaw srd p = some s_res)
    (t_res : Resource) (hl : dictLookup d s_res.raw.id = some t_res)
    (hsame : t_res.same_as_source s_res = true) :
    phase2 env p (srd :: rest) d rs =
      phase2 env p rest (dictRemove d s_res.raw.id) rs := by
  simp [phase2, herr, hp, hl, hsame]

theorem phase2_cons_update_up (env : Env) (p : String) (srd : RawResource)
    (rest : List RawResource) (d : PyDict) (rs : RunState)
    (herr : rs.err = none) (s_res : Resource) (hp : Resource.ofRaw srd p = some s_res)
    (t_res : Resource) (hl : dictLookup d s_res.raw.id = some t_res)
    (hsame : ¬ t_res.same_as_source s_res = true)
    (hup : s_res.raw.url_type = "upload") :
    phase2 env p (srd :: rest) d rs =
      phase2 env p rest (dictRemove d s_res.raw.id)
        (emit env (.fileRemove s_res.create_filename)
          (emit env (.resourceUpdate { s_res.for_upload with id := some t_res.raw.id } true)
            (emit env (.download s_res.create_filename) rs))) := by
  simp [phase2, herr, hp, hl, hsame, hup]

theorem phase2_cons_update_link (env : Env) (p : String) (srd : RawResource)
    (rest : List RawResource) (d : PyDict) (rs : RunState)
    (herr : rs.err = none) (s_res : Resource) (hp : Resource.ofRaw srd p = some s_res)
    (t_res : Resource) (hl : dictLookup d s_res.raw.id = some t_res)
    (hsame : ¬ t_res.same_as_source s_res = true)
    (hup : ¬ s_res.raw.url_type = "upload") :
    phase2 env p (srd :: rest) d rs =
      phase2 env p rest (dictRemove d s_res.raw.id)
        (emit env (.resourceUpdate { s_res.for_upload with id := some t_res.raw.id } false) rs) := by
  simp [phase2, herr, hp, hl, hsame, hup]

/-- Composition of two trace extensions. -/
theorem tr_ext_trans {rs₁ rs₂ rs₃ : RunState} {a b : Trace}
    (h₁ : rs₂.tr = rs₁.tr ++ a) (h₂ : rs₃.tr = rs₂.tr ++ b) :
    rs₃.tr = rs₁.tr ++ (a ++ b) := by
  rw [h₂, h₁, List.append_assoc]

/-- Step 1 appends only `resource_delete` events to the trace. -/
theorem phase1_tr (env : Env) (p : String) :
    ∀ (tl : List RawResource) (d : PyDict) (rs : RunState),
    ∃ ext, (phase1 env p tl d rs).2.tr = rs.tr ++ ext ∧
      ∀ e ∈ ext, e.isResDelete := by
  intro tl
  induction tl with
  | nil => intro d rs; exact ⟨[], by simp [phase1]⟩
  | cons rd rest ih =>
      intro d rs
      match herr : rs.err with
      | some er =>
          exact ⟨[], by simp [phase1_of_err_some env p _ d rs (by simp [herr])]⟩
      | none =>
          match hp : Resource.ofRaw rd p with
          | none =>
              refine ⟨[], ?_, by simp⟩
              rw [phase1_cons_raise env p rd rest d rs herr hp]
              simp [raiseErr_tr]
          | some res =>
              by_cases hoid : res.original_id = ""
              · rw [phase1_cons_del env p rd rest d rs herr res hp hoid]
                obtain ⟨ext, hext, hall⟩ := ih d (emit env (.resourceDelete rd.id) rs)
                obtain ⟨e0, he0, hon⟩ := emit_tr_ext env (.resourceDelete rd.id) rs
                refine ⟨e0 ++ ext, tr_ext_trans he0 hext, ?_⟩
                intro e he
                rcases List.mem_append.mp he with h | h
                · rw [hon e h]; rfl
                · exact hall e h
              · rw [phase1_cons_ins env p rd rest d rs herr res hp hoid]
                exact ih _ rs

/-- Trace extension of three emits bracketing a create or update. -/
theorem emit3_tr (env : Env) (e₁ e₂ e₃ : Event) (rs : RunState) :
    ∃ ext, (emit env e₃ (emit env e₂ (emit env e₁ rs))).tr = rs.tr ++ ext ∧
      ∀ x ∈ ext, x = e₁ ∨ x = e₂ ∨ x = e₃ := by
  obtain ⟨a, ha, hoa⟩ := emit_tr_ext env e₁ rs
  obtain ⟨b, hb, hob⟩ := emit_tr_ext env e₂ (emit env e₁ rs)
  obtain ⟨c, hc, hoc⟩ := emit_tr_ext env e₃ (emit env e₂ (emit env e₁ rs))
  refine ⟨a ++ b ++ c, ?_, ?_⟩
  · rw [hc, hb, ha]; simp [List.append_assoc]
  · intro x hx
    rcases List.mem_append.mp hx with h | h
    · rcases List.mem_append.mp h with h' | h'
      · exact Or.inl (hoa x h')
      · exact Or.inr (Or.inl (hob x h'))
    · exact Or.inr (Or.inr (hoc x h))

/-- Step 2 appends only creates, updates and file traffic, never a
`resource_delete`. -/
theorem phase2_tr (env : Env) (p : String) :
    ∀ (sl : List RawResource) (d : PyDict) (rs : RunState),
    ∃ ext, (phase2 env p sl d rs).2.tr = rs.tr ++ ext ∧
      ∀ e ∈ ext, e.isResourceOp ∧ ¬ e.isResDelete := by
  intro sl
  induction sl with
  | nil => intro d rs; exact ⟨[], by simp [phase2]⟩
  | cons srd rest ih =>
      intro d rs
      match herr : rs.err with
      | some er =>
          exact ⟨[], by simp [phase2_of_err_some env p _ d rs (by simp [herr])]⟩
      | none =>
          match hp : Resource.ofRaw srd p with
          | none =>
              refine ⟨[], ?_, by simp⟩
              rw [phase2_cons_raise env p srd rest d rs herr hp]
              simp [raiseErr_tr]
          | some s_res =>
              match hl : dictLookup d s_res.raw.id with
              | none =>
                  by_cases hup : s_res.raw.url_type = "upload"
                  · rw [phase2_cons_create_up env p srd rest d rs herr s_res hp hl hup]
                    obtain ⟨a, ha, hoa⟩ := emit3_tr env (.download s_res.create_filename)
                      (.resourceCreate s_res.for_upload true)
                      (.fileRemove s_res.create_filename) rs
                    obtain ⟨ext, hext, hall⟩ := ih d _
                    refine ⟨a ++ ext, tr_ext_trans ha hext, ?_⟩
                    intro e he
                    rcases List.mem_append.mp he with h | h
                    · rcases hoa e h with h' | h' | h' <;> subst h' <;>
                        exact ⟨rfl, by simp [Event.isResDelete]⟩
                    · exact hall e h
                  · rw [phase2_cons_create_link env p srd rest d rs herr s_res hp hl hup]
                    obtain ⟨a, ha, hoa⟩ := emit_tr_ext env (.resourceCreate s_res.for_upload false) rs
                    obtain ⟨ext, hext, hall⟩ := ih d _
                    refine ⟨a ++ ext, tr_ext_trans ha hext, ?_⟩
                    intro e he
                    rcases List.mem_append.mp he with h | h
                    · rw [hoa e h]; exact ⟨rfl, by simp [Event.isResDelete]⟩
                    · exact hall e h
              | some t_res =>
                  by_cases hsame : t_res.same_as_source s_res = true
                  · rw [phase2_cons_same env p srd rest d rs herr s_res hp t_res hl hsame]
                    exact ih _ rs
                  · by_cases hup : s_res.raw.url_type = "upload"
                    · rw [phase2_cons_update_up env p srd rest d rs herr s_res hp t_res hl hsame hup]
                      obtain ⟨a, ha, hoa⟩ := emit3_tr env (.download s_res.create_filename)
                        (.resourceUpdate { s_res.for_upload with id := some t_res.raw.id } true)
                        (.fileRemove s_res.create_filename) rs
                      obtain ⟨ext, hext, hall⟩ := ih (dictRemove d s_res.raw.id) _
                      refine ⟨a ++ ext, tr_ext_trans ha hext, ?_⟩
                      intro e he
                      rcases List.mem_append.mp he with h | h
                      · rcases hoa e h with h' | h' | h' <;> subst h' <;>
                          exact ⟨rfl, by simp [Event.isResDelete]⟩
                      · exact hall e h
                    · rw [phase2_cons_update_link env p srd rest d rs herr s_res hp t_res hl hsame hup]
                      obtain ⟨a, ha, hoa⟩ := emit_tr_ext env
                        (.resourceUpdate { s_res.for_upload with id := some t_res.raw.id } false) rs
                      obtain ⟨ext, hext, hall⟩ := ih (dictRemove d s_res.raw.id) _
                      refine ⟨a ++ ext, tr_ext_trans ha hext, ?_⟩
                      intro e he
                      rcases List.mem_append.mp he with h | h
                      · rw [hoa e h]; exact ⟨rfl, by simp [Event.isResDelete]⟩
                      · exact hall e h

/-- Step 3 appends only `resource_delete` events. -/
theorem phase3_tr (env : Env) :
    ∀ (vs : List Resource) (rs : RunState),
    ∃ ext, (phase3 env vs rs).tr = rs.tr ++ ext ∧
      ∀ e ∈ ext, e.isResDelete := by
  intro vs
  induction vs with
  | nil => intro rs; exact ⟨[], by simp [phase3]⟩
  | cons v rest ih =>
      intro rs
      simp only [phase3]
      obtain ⟨ext, hext, hall⟩ := ih (emit env (.resourceDelete v.raw.id) rs)
      obtain ⟨e0, he0, hon⟩ := emit_tr_ext env (.resourceDelete v.raw.id) rs
      refine ⟨e0 ++ ext, ?_, ?_⟩
      · rw [hext, he0, List.append_assoc]
      · intro e he
        rcases List.mem_append.mp he with h | h
        · rw [hon e h]; rfl
        · exact hall e h

/-- The trace of one resource reconciliation decomposes into
unmatchable-marker deletions, then creates/updates/file traffic, then
deletions of source-removed resources. -/
theorem sync_package_resources_tr (env : Env) (sl tl : List RawResource)
    (p : String) (rs : RunState) :
    ∃ t1 t2 t3, (sync_package_resources env sl tl p rs).tr = rs.tr ++ t1 ++ t2 ++ t3 ∧
      (∀ e ∈ t1, e.isResDelete) ∧
      (∀ e ∈ t2, e.isResourceOp ∧ ¬ e.isResDelete) ∧
      (∀ e ∈ t3, e.isResDelete) := by
  obtain ⟨t1, h1, ha1⟩ := phase1_tr env p tl [] rs
  obtain ⟨t2, h2, ha2⟩ := phase2_tr env p sl (phase1 env p tl [] rs).1 (phase1 env p tl [] rs).2
  obtain ⟨t3, h3, ha3⟩ :=
    phase3_tr env (dictValues (phase2 env p sl (phase1 env p tl [] rs).1 (phase1 env p tl [] rs).2).1)
      (phase2 env p sl (phase1 env p tl [] rs).1 (phase1 env p tl [] rs).2).2
  refine ⟨t1, t2, t3, ?_, ha1, ha2, ha3⟩
  unfold sync_package_resources
  rw [h3, h2, h1]

/-- Trace membership is preserved by a trace extension. -/
theorem mem_tr_of_ext {rs rs' : RunState} (h : ∃ ext, rs'.tr = rs.tr ++ ext)
    {e : Event} (he : e ∈ rs.tr) : e ∈ rs'.tr := by
  obtain ⟨ext, hext⟩ := h
  rw [hext]
  exact List.mem_append_left _ he

theorem emit_err_none_noFail (e : Event) (rs : RunState) (h : rs.err = none) :
    (emit noFail e rs).err = none := by
  simp [emit, h, noFail]

/-- Under `noFail`, step 1 deletes every target resource whose parsed
original id is empty (when nothing raised before it). -/
theorem phase1_emits_del (p : String) :
    ∀ (tl : List RawResource) (d : PyDict) (rs : RunState),
    rs.err = none →
    (∀ r ∈ tl, (parse_hash r.hash).isSome) →
    ∀ rd ∈ tl, ∀ x, parse_hash rd.hash = some ("", x) →
    Event.resourceDelete rd.id ∈ (phase1 noFail p tl d rs).2.tr := by
  intro tl
  induction tl with
  | nil => intro d rs _ _ rd hrd; cases hrd
  | cons rd' rest ih =>
      intro d rs herr hall rd hrd x hx
      rcases List.mem_cons.mp hrd with heq | htail
      · subst heq
        have hres : Resource.ofRaw rd p =
            some { raw := rd, package_id := p, original_id := "", original_revision := x } := by
          unfold Resource.ofRaw
          rw [hx]
          rfl
        rw [phase1_cons_del noFail p rd rest d rs herr _ hres rfl]
        apply mem_tr_of_ext
          ⟨(phase1_tr noFail p rest d (emit noFail (.resourceDelete rd.id) rs)).choose,
           (phase1_tr noFail p rest d (emit noFail (.resourceDelete rd.id) rs)).choose_spec.1⟩
        rw [emit_tr_of_err_none noFail _ rs herr]
        simp
      · have hps : (parse_hash rd'.hash).isSome := hall rd' (by simp)
        match hp' : parse_hash rd'.hash with
        | none => rw [hp'] at hps; cases hps
        | some pr =>
            have hres : Resource.ofRaw rd' p =
                some { raw := rd', package_id := p, original_id := pr.1,
                       original_revision := pr.2 } := by
              unfold Resource.ofRaw
              rw [hp']
              rfl
            by_cases hoid : pr.1 = ""
            · rw [phase1_cons_del noFail p rd' rest d rs herr _ hres hoid]
              exact ih d (emit noFail (.resourceDelete rd'.id) rs)
                (emit_err_none_noFail _ rs herr)
                (fun r hr => hall r (by simp [hr])) rd htail x hx
            · rw [phase1_cons_ins noFail p rd' rest d rs herr _ hres hoid]
              exact ih _ rs herr (fun r hr => hall r (by simp [hr])) rd htail x hx

/-! ## Concrete scenarios -/

/-- A raw resource with every optional field blank; the scenarios below
override the fields they care about. -/
def baseRes : RawResource :=
  { id := "", url := "", url_type := "link", hash := some "",
    revision_id := "", last_modified := "",
    name := none, description := none, format := none,
    describedBy := none, describedByType := none, license_link := none,
    position := none, temporal_start := none, temporal_end := none }

/-- An empty target instance. -/
def stEmpty : TargetState := { orgs := [], packages := [], nextId := 0 }

namespace ScenRes

/-- Target resource carrying the marker `A:1`. -/
def tA : RawResource := { baseRes with id := "ta", hash := some "A:1" }

/-- Target resource carrying the marker `B:2`. -/
def tB : RawResource := { baseRes with id := "tb", hash := some "B:2" }

/-- Target resource with an empty (unparseable) marker. -/
def tE : RawResource := { baseRes with id := "te", hash := some "" }

/-- Source resource `A` at revision `1`. -/
def sA : RawResource := { baseRes with id := "A", revision_id := "1" }

/-- Source resource `C` at revision `1`. -/
def sC : RawResource := { baseRes with id := "C", revision_id := "1" }

/-- Source resource with an empty id. -/
def sE : RawResource := { baseRes with id := "", revision_id := "1" }

/-- Source resource of `url_type` `upload`. -/
def sUp : RawResource :=
  { baseRes with
      id := "U"
      revision_id := "1"
      url_type := "upload"
      url := "http://src/dir/f.txt" }

/-- A failure oracle under which every `resource_create` call fails. -/
def createFails : Env :=
  ⟨fun e => match e with | .resourceCreate _ _ => true | _ => false⟩

/-- First target resource with duplicated embedded id `X`. -/
def tDup1 : RawResource := { baseRes with id := "t1", hash := some "X:1" }

/-- Second target resource with duplicated embedded id `X`. -/
def tDup2 : RawResource := { baseRes with id := "t2", hash := some "X:2" }

end ScenRes

/-- C1: with target markers `A:1`, `B:2` and source resources
`{id: A, revision: 1}`, `{id: C, revision: 1}`, the reconciliation emits
no write for `A`, exactly one `resource_delete` for the `B:2` resource,
exactly one `resource_create` for `C`, and nothing else. -/
theorem claim_C1 :
    (sync_package_resources noFail [ScenRes.sA, ScenRes.sC] [ScenRes.tA, ScenRes.tB]
        "p" (initRS stEmpty)).tr.countP
        (fun e => match e with | .resourceDelete i => i = "tb" | _ => false) = 1 ∧
    (sync_package_resources noFail [ScenRes.sA, ScenRes.sC] [ScenRes.tA, ScenRes.tB]
        "p" (initRS stEmpty)).tr.countP
        (fun e => match e with | .resourceCreate u _ => u.hash = "C:1" | _ => false) = 1 ∧
    (sync_package_resources noFail [ScenRes.sA, ScenRes.sC] [ScenRes.tA, ScenRes.tB]
        "p" (initRS stEmpty)).tr.countP
        (fun e => match e with
          | .resourceDelete i => i = "ta"
          | .resourceUpdate u _ => u.id = some "ta"
          | .resourceCreate u _ => u.hash = "A:1"
          | _ => false) = 0 ∧
    (sync_package_resources noFail [ScenRes.sA, ScenRes.sC] [ScenRes.tA, ScenRes.tB]
        "p" (initRS stEmpty)).tr.length = 2 := by
  decide

/-- C3 counterexample: an absent marker field does not resolve to
`("", "")` — `parse_hash` calls `.split` on `None`, raising an uncaught
`AttributeError`, so `Resource.__init__` fails instead of returning a
resource marked unmatchable. -/
theorem counterexample_C3 :
    parse_hash none = none ∧
    ¬ parse_hash none = some ("", "") ∧
    Resource.ofRaw { baseRes with hash := none } "p" = none := by
  decide

/-- C3 (amended): for a marker field that is present but malformed (no
separator, in particular the empty string), `parse_hash` resolves to
`("", "")`; an absent field raises instead.  A target resource whose
parsed original id is empty is deleted unconditionally, whatever the
source resources are — even if a source resource with an empty id
exists. -/
theorem claim_C3 (s : String) (hs : s.data.contains ':' = false)
    (sl tl : List RawResource) (p : String) (rs : RunState) (rd : RawResource)
    (herr : rs.err = none)
    (hall : ∀ r ∈ tl, (parse_hash r.hash).isSome)
    (hmem : rd ∈ tl) (x : String) (hx : parse_hash rd.hash = some ("", x)) :
    parse_hash (some s) = some ("", "") ∧
    parse_hash none = none ∧
    Event.resourceDelete rd.id ∈ (sync_package_resources noFail sl tl p rs).tr := by
  refine ⟨?_, rfl, ?_⟩
  · have h1 : splitOnce s ':' = none := by
      unfold splitOnce
      simp only [hs]
      rfl
    simp [parse_hash, h1]
  · unfold sync_package_resources
    apply mem_tr_of_ext ⟨(phase3_tr noFail _ _).choose, (phase3_tr noFail _ _).choose_spec.1⟩
    apply mem_tr_of_ext ⟨(phase2_tr noFail p _ _ _).choose, (phase2_tr noFail p _ _ _).choose_spec.1⟩
    exact phase1_emits_del p tl [] rs herr hall rd hmem x hx

/-- C3 witness instance: the empty marker on target resource `te` is
deleted even though a source resource with empty id is present. -/
theorem claim_C3_witness :
    parse_hash (some "abc") = some ("", "") ∧
    parse_hash none = none ∧
    Event.resourceDelete "te" ∈
      (sync_package_resources noFail [ScenRes.sE] [ScenRes.tE] "p" (initRS stEmpty)).tr := by
  have h := claim_C3 "abc" (by decide) [ScenRes.sE] [ScenRes.tE] "p" (initRS stEmpty)
    ScenRes.tE rfl (by decide) (by decide) "" (by decide)
  exact h

/-- C4 counterexample: a target resource with an unmatchable (empty)
marker is deleted in step 1, before the create of a new source resource
in step 2 — so not every `resource_delete` follows all creates/updates. -/
theorem counterexample_C4 :
    ((sync_package_resources noFail [ScenRes.sC] [ScenRes.tE] "p" (initRS stEmpty)).tr[0]?).any
        Event.isResDelete = true ∧
    ((sync_package_resources noFail [ScenRes.sC] [ScenRes.tE] "p" (initRS stEmpty)).tr[1]?).any
        (fun e => match e with | .resourceCreate _ _ => true | _ => false) = true := by
  decide

/-- C4 (amended): within one package's resource reconciliation the trace
decomposes as: deletions of unmatchable-marker target resources first,
then all creates/updates (and their file traffic), then all deletions of
target resources whose source counterpart is gone.  So every
`resource_delete` for a source-removed resource is issued after all
creates and updates, while unmatchable-marker deletions precede them. -/
theorem claim_C4 (env : Env) (sl tl : List RawResource) (p : String) (rs : RunState) :
    ∃ t1 t2 t3, (sync_package_resources env sl tl p rs).tr = rs.tr ++ t1 ++ t2 ++ t3 ∧
      (∀ e ∈ t1, e.isResDelete) ∧
      (∀ e ∈ t2, e.isResourceOp ∧ ¬ e.isResDelete) ∧
      (∀ e ∈ t3, e.isResDelete) :=
  sync_package_resources_tr env sl tl p rs

/-- C5: with a watermark set, more than 200 collected revisions make
`sync` fall back to a full sync, and an empty revision list makes it do
nothing. -/
theorem claim_C5 (since_id since_time : Option String)
    (hw : (pyTruthy since_id || pyTruthy since_time) = true)
    (revisions : List String) :
    (200 < revisions.length → sync_decision since_id since_time revisions = .full) ∧
    (revisions = [] → sync_decision since_id since_time revisions = .nothing) := by
  constructor
  · intro hlen
    unfold sync_decision
    rw [hw]
    have h0 : ¬ revisions.length = 0 := by omega
    simp [h0, hlen]
  · intro hnil
    subst hnil
    unfold sync_decision
    rw [hw]
    simp

/-- C5 witness instance: a 250-entry revision log since `since_id` picks
the full sync, and an empty log does nothing. -/
theorem claim_C5_witness :
    sync_decision (some "rev7") none (List.replicate 250 "r") = .full ∧
    sync_decision (some "rev7") none [] = .nothing :=
  ⟨(claim_C5 (some "rev7") none (by decide) (List.replicate 250 "r")).1
      (by rw [List.length_replicate]; norm_num),
   (claim_C5 (some "rev7") none (by decide) []).2 rfl⟩

/-- C8: when the `resource_create` upload call fails, the exception
propagates before `os.remove`, so the downloaded temporary file is never
removed — the code does not release the file on the failure exit path. -/
theorem claim_C8 :
    Event.download "U-f.txt" ∈
      (sync_package_resources ScenRes.createFails [ScenRes.sUp] [] "p" (initRS stEmpty)).tr ∧
    Event.fileRemove "U-f.txt" ∉
      (sync_package_resources ScenRes.createFails [ScenRes.sUp] [] "p" (initRS stEmpty)).tr ∧
    (sync_package_resources ScenRes.createFails [ScenRes.sUp] [] "p" (initRS stEmpty)).err
      = some .apiFail ∧
    (sync_package_resources ScenRes.createFails [ScenRes.sUp] [] "p" (initRS stEmpty)).tr.countP
      (fun e => match e with | .resourceCreate _ _ => true | _ => false) = 1 := by
  decide

/-! ## Step equations for sync_package -/

theorem sync_package_create (env : Env) (src : SourceCatalog) (pname : String)
    (rs : RunState) (sp : RawPackage) (herr : rs.err = none)
    (hs : src.getPackage pname = some sp)
    (ht : rs.st.getPackage pname = none) :
    sync_package env src pname rs =
      sync_package_resources env sp.resources [] pname
        (emit env (.packageCreate (PackageMetadata.ofRaw sp)) rs) := by
  unfold sync_package
  simp [herr, hs, ht]

theorem sync_package_equal (env : Env) (src : SourceCatalog) (pname : String)
    (rs : RunState) (sp : RawPackage) (tp : TargetPackage) (herr : rs.err = none)
    (hs : src.getPackage pname = some sp)
    (ht : rs.st.getPackage pname = some tp)
    (heq : PackageMetadata.ofRaw sp = PackageMetadata.ofRaw tp.toRaw) :
    sync_package env src pname rs =
      sync_package_resources env sp.resources tp.resources pname rs := by
  unfold sync_package
  simp [herr, hs, ht, heq]

theorem sync_package_purge_deleted (env : Env) (src : SourceCatalog) (pname : String)
    (rs : RunState) (sp : RawPackage) (tp : TargetPackage) (herr : rs.err = none)
    (hs : src.getPackage pname = some sp)
    (ht : rs.st.getPackage pname = some tp)
    (hdiff : ¬ PackageMetadata.ofRaw sp = PackageMetadata.ofRaw tp.toRaw)
    (hstate : scalarGet (PackageMetadata.ofRaw sp).scalars "state" = some "deleted") :
    sync_package env src pname rs = emit env (.packagePurge pname) rs := by
  unfold sync_package
  simp [herr, hs, ht, hdiff, hstate]

theorem sync_package_patch (env : Env) (src : SourceCatalog) (pname : String)
    (rs : RunState) (sp : RawPackage) (tp : TargetPackage) (herr : rs.err = none)
    (hs : src.getPackage pname = some sp)
    (ht : rs.st.getPackage pname = some tp)
    (hdiff : ¬ PackageMetadata.ofRaw sp = PackageMetadata.ofRaw tp.toRaw)
    (hstate : ¬ scalarGet (PackageMetadata.ofRaw sp).scalars "state" = some "deleted") :
    sync_package env src pname rs =
      sync_package_resources env sp.resources tp.resources pname
        (emit env (.packagePatch (PackageMetadata.ofRaw sp)) rs) := by
  unfold sync_package
  simp [herr, hs, ht, hdiff, hstate]

theorem sync_package_gone (env : Env) (src : SourceCatalog) (pname : String)
    (rs : RunState) (tp : TargetPackage) (herr : rs.err = none)
    (hs : src.getPackage pname = none)
    (ht : rs.st.getPackage pname = some tp) :
    sync_package env src pname rs = emit env (.packagePurge pname) rs := by
  unfold sync_package
  simp [herr, hs, ht]

theorem sync_package_absent (env : Env) (src : SourceCatalog) (pname : String)
    (rs : RunState) (herr : rs.err = none)
    (hs : src.getPackage pname = none)
    (ht : rs.st.getPackage pname = none) :
    sync_package env src pname rs = rs := by
  unfold sync_package
  simp [herr, hs, ht]

/-! ## Concrete package scenarios -/

namespace ScenPkg

/-- A source package in state `deleted` owning one resource. -/
def pD : RawPackage :=
  { scalars := [("name", some "pkg-d"), ("title", some "T"), ("state", some "deleted")]
    extras := []
    tags := []
    organization_name := "org1"
    resources := [ScenRes.sC] }

/-- A source catalog holding only `pkg-d`. -/
def srcD : SourceCatalog := { orgs := [], packages := [("pkg-d", pD)] }

/-- A stored target package whose canonical metadata coincides with the
source's. -/
def tpSame : TargetPackage := { meta := PackageMetadata.ofRaw pD, resources := [] }

/-- A stored target package whose canonical metadata differs (other title). -/
def tpDiff : TargetPackage :=
  { meta := PackageMetadata.ofRaw
      { pD with scalars := [("name", some "pkg-d"), ("title", some "Old"), ("state", some "active")] }
    resources := [] }

/-- Target instance where `pkg-d` exists with identical canonical metadata. -/
def stSame : TargetState := { orgs := [], packages := [("pkg-d", tpSame)], nextId := 0 }

/-- Target instance where `pkg-d` exists with differing canonical metadata. -/
def stDiff : TargetState := { orgs := [], packages := [("pkg-d", tpDiff)], nextId := 0 }

end ScenPkg

/-- C2 counterexample: a source package in state `deleted` that exists in
the target with an identical canonical form is not purged — the state
check sits inside the `forms differ` branch — and its resources are
still reconciled (a `resource_create` is issued for the source resource). -/
theorem counterexample_C2 :
    (sync_package noFail ScenPkg.srcD "pkg-d" (initRS ScenPkg.stSame)).tr.countP
        (fun e => match e with | .packagePurge _ => true | _ => false) = 0 ∧
    (sync_package noFail ScenPkg.srcD "pkg-d" (initRS ScenPkg.stSame)).tr.countP
        (fun e => match e with | .resourceCreate _ _ => true | _ => false) = 1 := by
  decide

/-- C2 (amended): for every package whose source state is `deleted`,
which exists in the target, and whose canonical forms differ,
`sync_package` purges the target package and performs no resource sync
(the purge is the only emitted call). -/
theorem claim_C2 (env : Env) (src : SourceCatalog) (pname : String)
    (rs : RunState) (sp : RawPackage) (tp : TargetPackage) (herr : rs.err = none)
    (hs : src.getPackage pname = some sp)
    (ht : rs.st.getPackage pname = some tp)
    (hstate : scalarGet (PackageMetadata.ofRaw sp).scalars "state" = some "deleted")
    (hdiff : ¬ PackageMetadata.ofRaw sp = PackageMetadata.ofRaw tp.toRaw) :
    sync_package env src pname rs = emit env (.packagePurge pname) rs ∧
    (sync_package env src pname rs).tr = rs.tr ++ [.packagePurge pname] := by
  have h := sync_package_purge_deleted env src pname rs sp tp herr hs ht hdiff hstate
  exact ⟨h, by rw [h, emit_tr_of_err_none env _ rs herr]⟩

/-- C2 witness instance: `pkg-d` is deleted on the source and differs on
the target, so the run is exactly one `dataset_purge`. -/
theorem claim_C2_witness :
    sync_package noFail ScenPkg.srcD "pkg-d" (initRS ScenPkg.stDiff)
      = emit noFail (.packagePurge "pkg-d") (initRS ScenPkg.stDiff) ∧
    (sync_package noFail ScenPkg.srcD "pkg-d" (initRS ScenPkg.stDiff)).tr
      = [.packagePurge "pkg-d"] :=
  claim_C2 noFail ScenPkg.srcD "pkg-d" (initRS ScenPkg.stDiff) ScenPkg.pD ScenPkg.tpDiff
    rfl (by decide) (by decide) (by decide) (by decide)

/-- C10: a source package in state `deleted` with no target counterpart
is created in the target (its canonical metadata, `deleted` state
included) and its resources are then reconciled; no purge is issued on
this path — the deleted-state purge check lives only in the
target-present, forms-differ branch. -/
theorem claim_C10 (env : Env) (src : SourceCatalog) (pname : String)
    (rs : RunState) (sp : RawPackage) (herr : rs.err = none)
    (hs : src.getPackage pname = some sp)
    (ht : rs.st.getPackage pname = none)
    (hstate : scalarGet (PackageMetadata.ofRaw sp).scalars "state" = some "deleted") :
    sync_package env src pname rs
      = sync_package_resources env sp.resources [] pname
          (emit env (.packageCreate (PackageMetadata.ofRaw sp)) rs) ∧
    scalarGet (PackageMetadata.ofRaw sp).scalars "state" = some "deleted" ∧
    ∃ ext, (sync_package env src pname rs).tr
        = rs.tr ++ Event.packageCreate (PackageMetadata.ofRaw sp) :: ext ∧
      ∀ n, Event.packagePurge n ∉ ext := by
  have hc := sync_package_create env src pname rs sp herr hs ht
  refine ⟨hc, hstate, ?_⟩
  obtain ⟨t1, t2, t3, htr, ha1, ha2, ha3⟩ :=
    sync_package_resources_tr env sp.resources [] pname
      (emit env (.packageCreate (PackageMetadata.ofRaw sp)) rs)
  refine ⟨t1 ++ t2 ++ t3, ?_, ?_⟩
  · rw [hc, htr, emit_tr_of_err_none env _ rs herr]
    simp [List.append_assoc]
  · intro n hn
    simp only [List.append_assoc, List.mem_append] at hn
    rcases hn with h | h | h
    · have := ha1 _ h
      simp [Event.isResDelete] at this
    · have := (ha2 _ h).1
      simp [Event.isResourceOp] at this
    · have := ha3 _ h
      simp [Event.isResDelete] at this

/-- C10 witness instance: the deleted `pkg-d` is absent from the target,
so it is created and its resource `C` is then created; no purge occurs. -/
theorem claim_C10_witness :
    sync_package noFail ScenPkg.srcD "pkg-d" (initRS stEmpty)
      = sync_package_resources noFail ScenPkg.pD.resources [] "pkg-d"
          (emit noFail (.packageCreate (PackageMetadata.ofRaw ScenPkg.pD)) (initRS stEmpty)) ∧
    scalarGet (PackageMetadata.ofRaw ScenPkg.pD).scalars "state" = some "deleted" ∧
    ∃ ext, (sync_package noFail ScenPkg.srcD "pkg-d" (initRS stEmpty)).tr
        = [] ++ Event.packageCreate (PackageMetadata.ofRaw ScenPkg.pD) :: ext ∧
      ∀ n, Event.packagePurge n ∉ ext :=
  claim_C10 noFail ScenPkg.srcD "pkg-d" (initRS stEmpty) ScenPkg.pD
    rfl (by decide) (by decide) (by decide)

/-! ## Stability of the normalizers under input list order (C6) -/

/-- A stable sort by a string key maps any two permutations of a list
with pairwise-distinct keys to the same output. -/
theorem sort_unique {α : Type} (r : α → α → Prop) [DecidableRel r]
    [IsTotal α r] [IsTrans α r] (key : α → String)
    (hr : ∀ a b, r a b ↔ key a ≤ key b)
    {l₁ l₂ : List α} (hp : List.Perm l₂ l₁)
    (hnd : l₁.Pairwise fun a b => key a ≠ key b) :
    List.insertionSort r l₂ = List.insertionSort r l₁ := by
  have hsymm : ∀ {x y : α}, key x ≠ key y → key y ≠ key x := fun h h' => h h'.symm
  have hperm : List.Perm (List.insertionSort r l₂) (List.insertionSort r l₁) :=
    ((List.perm_insertionSort r l₂).trans hp).trans (List.perm_insertionSort r l₁).symm
  have hnd₁ : (List.insertionSort r l₁).Pairwise fun a b => key a ≠ key b :=
    ((List.perm_insertionSort r l₁).pairwise_iff hsymm).mpr hnd
  have hnd₂ : (List.insertionSort r l₂).Pairwise fun a b => key a ≠ key b :=
    (hperm.pairwise_iff hsymm).mpr hnd₁
  have hstrict : ∀ {l : List α}, List.Sorted r l →
      (l.Pairwise fun a b => key a ≠ key b) →
      l.Pairwise fun a b => key a < key b := by
    intro l hs hn
    exact (List.Pairwise.and hs hn).imp
      (fun h => lt_of_le_of_ne ((hr _ _).mp h.1) h.2)
  have hanti : IsAntisymm α fun a b => key a < key b :=
    ⟨fun a b h h' => absurd h (lt_asymm h')⟩
  exact @List.eq_of_perm_of_sorted α (fun a b => key a < key b) hanti _ _
    hperm
    (hstrict (List.sorted_insertionSort r l₂) hnd₂)
    (hstrict (List.sorted_insertionSort r l₁) hnd₁)

/-- Two organization extras entries with the same key and different
values: their stable sort depends on the input order. -/
def dupE1 : RawExtra := { key := "k", value := "1", state := "active" }

/-- The second duplicate-key entry. -/
def dupE2 : RawExtra := { key := "k", value := "2", state := "active" }

/-- A raw organization whose extras carry a duplicated key. -/
def orgDup : RawOrg :=
  { scalars := [("name", some "o1")], extras := [dupE1, dupE2],
    image_display_url := "" }

/-- The same raw organization with the extras list permuted. -/
def orgDupPerm : RawOrg := { orgDup with extras := [dupE2, dupE1] }

/-- C6 counterexample: permuting the extras list of a raw organization
with a duplicated extras key changes the canonical form — the stable
sort keeps equal-key entries in input order, so normalization is not
invariant under every permutation. -/
theorem counterexample_C6 :
    List.Perm orgDupPerm.extras orgDup.extras ∧
    orgDupPerm.scalars = orgDup.scalars ∧
    ¬ Organization.ofRaw orgDupPerm = Organization.ofRaw orgDup := by
  have hle : extraLe dupE1 dupE2 := le_refl "k"
  have hle' : extraLe dupE2 dupE1 := le_refl "k"
  have hs1 : List.insertionSort extraLe [dupE1, dupE2] = [dupE1, dupE2] := by
    simp [List.insertionSort, List.orderedInsert, hle]
  have hs2 : List.insertionSort extraLe [dupE2, dupE1] = [dupE2, dupE1] := by
    simp [List.insertionSort, List.orderedInsert, hle']
  refine ⟨List.Perm.swap dupE1 dupE2 [], rfl, ?_⟩
  intro h
  have hx := congrArg Organization.extras h
  simp only [Organization.ofRaw] at hx
  have hx' : List.insertionSort extraLe [dupE2, dupE1]
      = List.insertionSort extraLe [dupE1, dupE2] := hx
  rw [hs1, hs2] at hx'
  simp [dupE1, dupE2] at hx'

/-- C6 (amended): normalization of organizations and packages is
invariant under permutations of the `extras` and `tags` lists provided
the sort keys are pairwise distinct (extras keys, tag display names) —
which CKAN guarantees, extras keys being unique per entity.  With a
duplicated sort key the stable sort preserves input order and the
canonical forms can differ. -/
theorem claim_C6 (o₁ o₂ : RawOrg) (p₁ p₂ : RawPackage)
    (hos : o₂.scalars = o₁.scalars)
    (hoe : List.Perm o₂.extras o₁.extras)
    (hok : o₁.extras.Pairwise fun a b => a.key ≠ b.key)
    (hps : p₂.scalars = p₁.scalars)
    (hporg : p₂.organization_name = p₁.organization_name)
    (hpe : List.Perm p₂.extras p₁.extras)
    (hpk : p₁.extras.Pairwise fun a b => a.key ≠ b.key)
    (hpt : List.Perm p₂.tags p₁.tags)
    (hptk : p₁.tags.Pairwise fun a b => a.display_name ≠ b.display_name) :
    Organization.ofRaw o₂ = Organization.ofRaw o₁ ∧
    PackageMetadata.ofRaw p₂ = PackageMetadata.ofRaw p₁ := by
  have hgo : ∀ k, o₂.get k = o₁.get k := fun k => by
    unfold RawOrg.get
    rw [hos]
  have hgp : ∀ k, p₂.get k = p₁.get k := fun k => by
    unfold RawPackage.get
    rw [hps]
  constructor
  · unfold Organization.ofRaw
    rw [sort_unique extraLe RawExtra.key (fun a b => Iff.rfl) hoe hok]
    simp [hgo]
  · unfold PackageMetadata.ofRaw
    rw [sort_unique tagLe RawTag.display_name (fun a b => Iff.rfl) hpt hptk]
    rw [sort_unique pkgExtraLe PkgExtra.key (fun a b => Iff.rfl)
      (hpe.map fun e => ({ key := e.key, value := e.value } : PkgExtra))
      ((List.pairwise_map).mpr hpk)]
    simp [hgp, hporg]

/-- C6 witness instance: with distinct extras keys and distinct tag
display names, permuting the lists leaves the canonical forms
unchanged. -/
theorem claim_C6_witness :
    Organization.ofRaw
        { scalars := [("name", some "o1")]
          extras := [{ key := "b", value := "2", state := "active" },
                     { key := "a", value := "1", state := "active" }]
          image_display_url := "" }
      = Organization.ofRaw
        { scalars := [("name", some "o1")]
          extras := [{ key := "a", value := "1", state := "active" },
                     { key := "b", value := "2", state := "active" }]
          image_display_url := "" } ∧
    PackageMetadata.ofRaw
        { scalars := [("name", some "p1")]
          extras := [{ key := "y", value := "2", state := "" },
                     { key := "x", value := "1", state := "" }]
          tags := [{ display_name := "T2", state := "active", name := "t2" },
                   { display_name := "T1", state := "active", name := "t1" }]
          organization_name := "o1"
          resources := [] }
      = PackageMetadata.ofRaw
        { scalars := [("name", some "p1")]
          extras := [{ key := "x", value := "1", state := "" },
                     { key := "y", value := "2", state := "" }]
          tags := [{ display_name := "T1", state := "active", name := "t1" },
                   { display_name := "T2", state := "active", name := "t2" }]
          organization_name := "o1"
          resources := [] } :=
  claim_C6 _ _ _ _ rfl (List.Perm.swap _ _ []) (by decide)
    rfl rfl (List.Perm.swap _ _ []) (by decide) (List.Perm.swap _ _ []) (by decide)

/-! ## Dict and phase lemmas for the duplicate-marker analysis (C9) -/

/-- Unfolding of `sync_package_resources` into its three phases. -/
theorem sync_package_resources_def (env : Env) (sl tl : List RawResource)
    (p : String) (rs : RunState) :
    sync_package_resources env sl tl p rs =
      phase3 env
        (dictValues (phase2 env p sl (phase1 env p tl [] rs).1 (phase1 env p tl [] rs).2).1)
        (phase2 env p sl (phase1 env p tl [] rs).1 (phase1 env p tl [] rs).2).2 := rfl

theorem ofRaw_inv {rd : RawResource} {p : String} {res : Resource}
    (h : Resource.ofRaw rd p = some res) :
    parse_hash rd.hash = some (res.original_id, res.original_revision) ∧
    res.raw = rd := by
  unfold Resource.ofRaw at h
  match hp : parse_hash rd.hash with
  | none => rw [hp] at h; cases h
  | some pr =>
      rw [hp] at h
      simp only [Option.map_some', Option.some.injEq] at h
      subst h
      exact ⟨rfl, rfl⟩

theorem lookup_mem {d : PyDict} {k : String} {v : Resource}
    (h : dictLookup d k = some v) : (k, v) ∈ d := by
  unfold dictLookup at h
  match hf : d.find? fun p => p.1 = k with
  | none => rw [hf] at h; cases h
  | some kv =>
      rw [hf] at h
      simp only [Option.map_some', Option.some.injEq] at h
      have hm := List.mem_of_find?_eq_some hf
      have hk : kv.1 = k := by
        have := List.find?_some hf
        simpa using this
      rw [← h, ← hk]
      exact hm

theorem mem_dictInsert {d : PyDict} {k : String} {v : Resource} {kv : String × Resource}
    (h : kv ∈ dictInsert d k v) : kv = (k, v) ∨ (kv ∈ d ∧ ¬ kv.1 = k) := by
  unfold dictInsert at h
  by_cases hc : d.any fun p => p.1 = k
  · rw [if_pos hc] at h
    obtain ⟨p, hp, hpe⟩ := List.mem_map.mp h
    by_cases hk : p.1 = k
    · left
      rw [← hpe]
      simp [hk]
    · right
      rw [← hpe, if_neg hk]
      exact ⟨hp, hk⟩
  · rw [if_neg hc] at h
    rcases List.mem_append.mp h with h' | h'
    · right
      refine ⟨h', ?_⟩
      intro hk
      apply hc
      exact List.any_eq_true.mpr ⟨kv, h', by simp [hk]⟩
    · left
      simpa using h'

theorem mem_dictInsert_key {d : PyDict} {k : String} {v : Resource}
    {kv : String × Resource} (h : kv ∈ dictInsert d k v) (hk : kv.1 = k) :
    kv.2 = v := by
  rcases mem_dictInsert h with h' | h'
  · rw [h']
  · exact absurd hk h'.2

theorem mem_dictRemove {d : PyDict} {k : String} {kv : String × Resource}
    (h : kv ∈ dictRemove d k) : kv ∈ d :=
  List.mem_of_mem_filter h

/-- Processing a concatenation of target lists is processing them in
sequence. -/
theorem phase1_append (env : Env) (p : String) :
    ∀ (l₁ l₂ : List RawResource) (d : PyDict) (rs : RunState),
    phase1 env p (l₁ ++ l₂) d rs =
      phase1 env p l₂ (phase1 env p l₁ d rs).1 (phase1 env p l₁ d rs).2 := by
  intro l₁
  induction l₁ with
  | nil => intro l₂ d rs; rfl
  | cons rd rest ih =>
      intro l₂ d rs
      by_cases herr : rs.err.isSome
      · rw [phase1_of_err_some env p _ d rs herr, phase1_of_err_some env p _ d rs herr]
        exact (phase1_of_err_some env p l₂ d rs herr).symm
      · have herr' : rs.err = none := by
          cases h : rs.err
          · rfl
          · rw [h] at herr; simp at herr
        match hp : Resource.ofRaw rd p with
        | none =>
            rw [show ((rd :: rest) ++ l₂) = rd :: (rest ++ l₂) from rfl]
            rw [phase1_cons_raise env p rd (rest ++ l₂) d rs herr' hp,
                phase1_cons_raise env p rd rest d rs herr' hp]
            exact (phase1_of_err_some env p l₂ d (raiseErr .attrError rs)
              (by simp [raiseErr, herr'])).symm
        | some res =>
            by_cases hoid : res.original_id = ""
            · rw [show ((rd :: rest) ++ l₂) = rd :: (rest ++ l₂) from rfl]
              rw [phase1_cons_del env p rd (rest ++ l₂) d rs herr' res hp hoid,
                  phase1_cons_del env p rd rest d rs herr' res hp hoid]
              exact ih l₂ d (emit env (.resourceDelete rd.id) rs)
            · rw [show ((rd :: rest) ++ l₂) = rd :: (rest ++ l₂) from rfl]
              rw [phase1_cons_ins env p rd (rest ++ l₂) d rs herr' res hp hoid,
                  phase1_cons_ins env p rd rest d rs herr' res hp hoid]
              exact ih l₂ _ rs

theorem phase1_err_mono (env : Env) (p : String) (tl : List RawResource)
    (d : PyDict) (rs : RunState) (h : rs.err.isSome) :
    (phase1 env p tl d rs).2.err.isSome := by
  rw [phase1_of_err_some env p tl d rs h]
  exact h

/-- Every event step 1 appends is the deletion of a target-list member
whose parsed original id is empty. -/
theorem phase1_tr_strong (env : Env) (p : String) :
    ∀ (tl : List RawResource) (d : PyDict) (rs : RunState),
    ∃ ext, (phase1 env p tl d rs).2.tr = rs.tr ++ ext ∧
      ∀ e ∈ ext, ∃ rd ∈ tl, e = Event.resourceDelete rd.id ∧
        ∃ xx, parse_hash rd.hash = some ("", xx) := by
  intro tl
  induction tl with
  | nil => intro d rs; exact ⟨[], by simp [phase1]⟩
  | cons rd rest ih =>
      intro d rs
      match herr : rs.err with
      | some er =>
          exact ⟨[], by simp [phase1_of_err_some env p _ d rs (by simp [herr])]⟩
      | none =>
          match hp : Resource.ofRaw rd p with
          | none =>
              refine ⟨[], ?_, by simp⟩
              rw [phase1_cons_raise env p rd rest d rs herr hp]
              simp [raiseErr_tr]
          | some res =>
              by_cases hoid : res.original_id = ""
              · rw [phase1_cons_del env p rd rest d rs herr res hp hoid]
                obtain ⟨ext, hext, hall⟩ := ih d (emit env (.resourceDelete rd.id) rs)
                obtain ⟨e0, he0, hon⟩ := emit_tr_ext env (.resourceDelete rd.id) rs
                refine ⟨e0 ++ ext, tr_ext_trans he0 hext, ?_⟩
                intro e he
                rcases List.mem_append.mp he with h | h
                · refine ⟨rd, by simp, by rw [hon e h], res.original_revision, ?_⟩
                  have := (ofRaw_inv hp).1
                  rwa [hoid] at this
                · obtain ⟨rd', hrd', hrest⟩ := hall e h
                  exact ⟨rd', by simp [hrd'], hrest⟩
              · rw [phase1_cons_ins env p rd rest d rs herr res hp hoid]
                obtain ⟨ext, hext, hall⟩ := ih (dictInsert d res.original_id res) rs
                refine ⟨ext, hext, ?_⟩
                intro e he
                obtain ⟨rd', hrd', hrest⟩ := hall e he
                exact ⟨rd', by simp [hrd'], hrest⟩

/-- Every entry of the dict built by step 1 is a seed entry or comes
from a target-list member, keyed by its parsed original id. -/
theorem phase1_dict_mem (env : Env) (p : String) :
    ∀ (tl : List RawResource) (d : PyDict) (rs : RunState)
      (kv : String × Resource), kv ∈ (phase1 env p tl d rs).1 →
    kv ∈ d ∨ ∃ rd ∈ tl, Resource.ofRaw rd p = some kv.2 ∧ kv.1 = kv.2.original_id := by
  intro tl
  induction tl with
  | nil => intro d rs kv h; exact Or.inl h
  | cons rd rest ih =>
      intro d rs kv h
      match herr : rs.err with
      | some er =>
          rw [phase1_of_err_some env p _ d rs (by simp [herr])] at h
          exact Or.inl h
      | none =>
          match hp : Resource.ofRaw rd p with
          | none =>
              rw [phase1_cons_raise env p rd rest d rs herr hp] at h
              exact Or.inl h
          | some res =>
              by_cases hoid : res.original_id = ""
              · rw [phase1_cons_del env p rd rest d rs herr res hp hoid] at h
                rcases ih d _ kv h with h' | ⟨rd', hrd', hrest⟩
                · exact Or.inl h'
                · exact Or.inr ⟨rd', by simp [hrd'], hrest⟩
              · rw [phase1_cons_ins env p rd rest d rs herr res hp hoid] at h
                rcases ih _ rs kv h with h' | ⟨rd', hrd', hrest⟩
                · rcases mem_dictInsert h' with h'' | h''
                  · refine Or.inr ⟨rd, by simp, ?_, ?_⟩
                    · rw [show kv.2 = res by rw [h'']]; exact hp
                    · rw [h'']
                  · exact Or.inl h''.1
                · exact Or.inr ⟨rd', by simp [hrd'], hrest⟩

/-- Step 1 preserves full dict safety for an id that none of the
processed resources carries. -/
theorem phase1_safe (env : Env) (p : String) (x : String) :
    ∀ (tl : List RawResource) (d : PyDict) (rs : RunState),
    (∀ rd ∈ tl, ¬ rd.id = x) →
    (∀ kv ∈ d, ¬ kv.2.raw.id = x) →
    ∀ kv ∈ (phase1 env p tl d rs).1, ¬ kv.2.raw.id = x := by
  intro tl
  induction tl with
  | nil => intro d rs _ hd kv h; exact hd kv h
  | cons rd rest ih =>
      intro d rs hids hd kv h
      match herr : rs.err with
      | some er =>
          rw [phase1_of_err_some env p _ d rs (by simp [herr])] at h
          exact hd kv h
      | none =>
          match hp : Resource.ofRaw rd p with
          | none =>
              rw [phase1_cons_raise env p rd rest d rs herr hp] at h
              exact hd kv h
          | some res =>
              by_cases hoid : res.original_id = ""
              · rw [phase1_cons_del env p rd rest d rs herr res hp hoid] at h
                exact ih d _ (fun r hr => hids r (by simp [hr])) hd kv h
              · rw [phase1_cons_ins env p rd rest d rs herr res hp hoid] at h
                refine ih _ rs (fun r hr => hids r (by simp [hr])) ?_ kv h
                intro kv' hkv'
                rcases mem_dictInsert hkv' with h' | h'
                · rw [h']
                  have hraw : res.raw = rd := (ofRaw_inv hp).2
                  simp only [hraw]
                  exact hids rd (by simp)
                · exact hd kv' h'.1

/-- Step 2 never deletes, and when every dict value's target id differs
from `x`, no update it issues addresses `x`; the resulting dict stays
safe (step 2 only removes entries). -/
theorem phase2_tr_safe (env : Env) (p : String) (x : String) :
    ∀ (sl : List RawResource) (d : PyDict) (rs : RunState),
    (∀ kv ∈ d, ¬ kv.2.raw.id = x) →
    ∃ ext, (phase2 env p sl d rs).2.tr = rs.tr ++ ext ∧
      (∀ e ∈ ext, ¬ e.isResDelete ∧
        ∀ u b, e = Event.resourceUpdate u b → ¬ u.id = some x) ∧
      (∀ kv ∈ (phase2 env p sl d rs).1, ¬ kv.2.raw.id = x) := by
  intro sl
  induction sl with
  | nil => intro d rs hd; exact ⟨[], by simp [phase2], by simp, hd⟩
  | cons srd rest ih =>
      intro d rs hd
      match herr : rs.err with
      | some er =>
          refine ⟨[], by simp [phase2_of_err_some env p _ d rs (by simp [herr])], by simp, ?_⟩
          rw [phase2_of_err_some env p _ d rs (by simp [herr])]
          exact hd
      | none =>
          match hp : Resource.ofRaw srd p with
          | none =>
              refine ⟨[], ?_, by simp, ?_⟩
              · rw [phase2_cons_raise env p srd rest d rs herr hp]
                simp [raiseErr_tr]
              · rw [phase2_cons_raise env p srd rest d rs herr hp]
                exact hd
          | some s_res =>
              match hl : dictLookup d s_res.raw.id with
              | none =>
                  by_cases hup : s_res.raw.url_type = "upload"
                  · rw [phase2_cons_create_up env p srd rest d rs herr s_res hp hl hup]
                    obtain ⟨a, ha, hoa⟩ := emit3_tr env (.download s_res.create_filename)
                      (.resourceCreate s_res.for_upload true)
                      (.fileRemove s_res.create_filename) rs
                    obtain ⟨ext, hext, hall, hdict⟩ := ih d _ hd
                    refine ⟨a ++ ext, tr_ext_trans ha hext, ?_, hdict⟩
                    intro e he
                    rcases List.mem_append.mp he with h | h
                    · rcases hoa e h with h' | h' | h' <;> subst h' <;>
                        exact ⟨by simp [Event.isResDelete], by intro u b h''; cases h''⟩
                    · exact hall e h
                  · rw [phase2_cons_create_link env p srd rest d rs herr s_res hp hl hup]
                    obtain ⟨a, ha, hoa⟩ := emit_tr_ext env (.resourceCreate s_res.for_upload false) rs
                    obtain ⟨ext, hext, hall, hdict⟩ := ih d _ hd
                    refine ⟨a ++ ext, tr_ext_trans ha hext, ?_, hdict⟩
                    intro e he
                    rcases List.mem_append.mp he with h | h
                    · rw [hoa e h]
                      exact ⟨by simp [Event.isResDelete], by intro u b h''; cases h''⟩
                    · exact hall e h
              | some t_res =>
                  have hdr : ∀ kv ∈ dictRemove d s_res.raw.id, ¬ kv.2.raw.id = x :=
                    fun kv hkv => hd kv (mem_dictRemove hkv)
                  by_cases hsame : t_res.same_as_source s_res = true
                  · rw [phase2_cons_same env p srd rest d rs herr s_res hp t_res hl hsame]
                    exact ih _ rs hdr
                  · have hsafe : ¬ t_res.raw.id = x :=
                      hd (s_res.raw.id, t_res) (lookup_mem hl)
                    by_cases hup : s_res.raw.url_type = "upload"
                    · rw [phase2_cons_update_up env p srd rest d rs herr s_res hp t_res hl hsame hup]
                      obtain ⟨a, ha, hoa⟩ := emit3_tr env (.download s_res.create_filename)
                        (.resourceUpdate { s_res.for_upload with id := some t_res.raw.id } true)
                        (.fileRemove s_res.create_filename) rs
                      obtain ⟨ext, hext, hall, hdict⟩ := ih (dictRemove d s_res.raw.id) _ hdr
                      refine ⟨a ++ ext, tr_ext_trans ha hext, ?_, hdict⟩
                      intro e he
                      rcases List.mem_append.mp he with h | h
                      · rcases hoa e h with h' | h' | h' <;> subst h'
                        · exact ⟨by simp [Event.isResDelete], by intro u b h''; cases h''⟩
                        · refine ⟨by simp [Event.isResDelete], ?_⟩
                          intro u b h''
                          cases h''
                          intro hcon
                          simp only [Option.some.injEq] at hcon
                          exact hsafe hcon
                        · exact ⟨by simp [Event.isResDelete], by intro u b h''; cases h''⟩
                      · exact hall e h
                    · rw [phase2_cons_update_link env p srd rest d rs herr s_res hp t_res hl hsame hup]
                      obtain ⟨a, ha, hoa⟩ := emit_tr_ext env
                        (.resourceUpdate { s_res.for_upload with id := some t_res.raw.id } false) rs
                      obtain ⟨ext, hext, hall, hdict⟩ := ih (dictRemove d s_res.raw.id) _ hdr
                      refine ⟨a ++ ext, tr_ext_trans ha hext, ?_, hdict⟩
                      intro e he
                      rcases List.mem_append.mp he with h | h
                      · rw [hoa e h]
                        refine ⟨by simp [Event.isResDelete], ?_⟩
                        intro u b h''
                        cases h''
                        intro hcon
                        simp only [Option.some.injEq] at hcon
                        exact hsafe hcon
                      · exact hall e h

/-- Every event step 3 appends deletes the target id of one of the dict
values it walks. -/
theorem phase3_tr_strong (env : Env) :
    ∀ (vs : List Resource) (rs : RunState),
    ∃ ext, (phase3 env vs rs).tr = rs.tr ++ ext ∧
      ∀ e ∈ ext, ∃ v ∈ vs, e = Event.resourceDelete v.raw.id := by
  intro vs
  induction vs with
  | nil => intro rs; exact ⟨[], by simp [phase3]⟩
  | cons v rest ih =>
      intro rs
      simp only [phase3]
      obtain ⟨ext, hext, hall⟩ := ih (emit env (.resourceDelete v.raw.id) rs)
      obtain ⟨e0, he0, hon⟩ := emit_tr_ext env (.resourceDelete v.raw.id) rs
      refine ⟨e0 ++ ext, tr_ext_trans he0 hext, ?_⟩
      intro e he
      rcases List.mem_append.mp he with h | h
      · exact ⟨v, by simp, hon e h⟩
      · obtain ⟨v', hv', he'⟩ := hall e h
        exact ⟨v', by simp [hv'], he'⟩

/-- C9: when two target resources of one package embed the same
non-empty source id in their markers, only the last one takes part in
correspondence: the earlier duplicate is silently dropped from the dict
(`t_resources_by_oid[oid] = res` overwrites), so the sync pass never
deletes it and never updates it. -/
theorem claim_C9 (env : Env) (sl : List RawResource) (p : String) (rs : RunState)
    (A B C : List RawResource) (ti tj : RawResource) (o ri rj : String)
    (hpi : parse_hash ti.hash = some (o, ri))
    (hpj : parse_hash tj.hash = some (o, rj))
    (ho : ¬ o = "")
    (hnd : ((A ++ ti :: B ++ tj :: C).map RawResource.id).Nodup) :
    ∃ ext, (sync_package_resources env sl (A ++ ti :: B ++ tj :: C) p rs).tr
        = rs.tr ++ ext ∧
      Event.resourceDelete ti.id ∉ ext ∧
      ∀ u b, Event.resourceUpdate u b ∈ ext → ¬ u.id = some ti.id := by
  have hinj := List.inj_on_of_nodup_map hnd
  have hTnodup : (A ++ ti :: B ++ tj :: C).Nodup := List.Nodup.of_map _ hnd
  have hmem_ti : ti ∈ A ++ ti :: B ++ tj :: C :=
    List.mem_append_left _ (List.mem_append_right _ (List.mem_cons_self _ _))
  have hmem_tj : tj ∈ A ++ ti :: B ++ tj :: C :=
    List.mem_append_right _ (List.mem_cons_self _ _)
  have hsubA : ∀ rd ∈ A, rd ∈ A ++ ti :: B ++ tj :: C :=
    fun rd h => List.mem_append_left _ (List.mem_append_left _ h)
  have hsubB : ∀ rd ∈ B, rd ∈ A ++ ti :: B ++ tj :: C :=
    fun rd h => List.mem_append_left _ (List.mem_append_right _ (List.mem_cons_of_mem _ h))
  have hsubC : ∀ rd ∈ C, rd ∈ A ++ ti :: B ++ tj :: C :=
    fun rd h => List.mem_append_right _ (List.mem_cons_of_mem _ h)
  have hid_ti : ∀ rd ∈ A ++ ti :: B ++ tj :: C, rd.id = ti.id → rd = ti :=
    fun rd hrd h => hinj hrd hmem_ti h
  have hL : (A ++ ti :: B).Nodup := (List.nodup_append.mp hTnodup).1
  have hti_ninB : ti ∉ B := (List.nodup_cons.mp (List.nodup_append.mp hL).2.1).1
  have hti_ninA : ti ∉ A := fun h =>
    ((List.nodup_append.mp hL).2.2 h) (List.mem_cons_self _ _)
  have hti_nin' : ti ∉ tj :: C :=
    (List.nodup_append.mp hTnodup).2.2
      (List.mem_append_right _ (List.mem_cons_self _ _))
  have htij : ¬ tj = ti := fun h =>
    hti_nin' (by rw [← h]; exact List.mem_cons_self _ _)
  have hti_ninC : ti ∉ C := fun h => hti_nin' (List.mem_cons_of_mem _ h)
  -- shorthand for the phase-1 result
  have hdel_e1 : ∀ (ext1 : Trace),
      (∀ e ∈ ext1, ∃ rd ∈ A ++ ti :: B ++ tj :: C,
        e = Event.resourceDelete rd.id ∧ ∃ xx, parse_hash rd.hash = some ("", xx)) →
      Event.resourceDelete ti.id ∉ ext1 ∧
      ∀ u b, Event.resourceUpdate u b ∈ ext1 → ¬ u.id = some ti.id := by
    intro ext1 hshape
    constructor
    · intro hmem
      obtain ⟨rd, hrd, he, xx, hpx⟩ := hshape _ hmem
      have hide : rd.id = ti.id := by
        have := he
        injection this with h'
        exact h'.symm
      have hrdti : rd = ti := hid_ti rd hrd hide
      rw [hrdti, hpi] at hpx
      injection hpx with h'
      have h'' := congrArg Prod.fst h'
      simp only at h''
      exact ho h''
    · intro u b hmem
      obtain ⟨rd, _, he, _⟩ := hshape _ hmem
      cases he
  match h1e : (phase1 env p (A ++ ti :: B ++ tj :: C) [] rs).2.err with
  | some er =>
      obtain ⟨e1, he1, ha1⟩ := phase1_tr_strong env p (A ++ ti :: B ++ tj :: C) [] rs
      have hP2 := phase2_of_err_some env p sl
        (phase1 env p (A ++ ti :: B ++ tj :: C) [] rs).1
        (phase1 env p (A ++ ti :: B ++ tj :: C) [] rs).2 (by rw [h1e]; rfl)
      have hres : (sync_package_resources env sl (A ++ ti :: B ++ tj :: C) p rs).tr
          = rs.tr ++ e1 := by
        rw [sync_package_resources_def, hP2, phase3_of_err_some env _ _ (by rw [h1e]; rfl)]
        exact he1
      obtain ⟨hd, hu⟩ := hdel_e1 e1 ha1
      exact ⟨e1, hres, hd, hu⟩
  | none =>
      -- decompose phase 1 along the target list
      have hresi : Resource.ofRaw ti p =
          some { raw := ti, package_id := p, original_id := o, original_revision := ri } := by
        unfold Resource.ofRaw
        rw [hpi]
        rfl
      have hresj : Resource.ofRaw tj p =
          some { raw := tj, package_id := p, original_id := o, original_revision := rj } := by
        unfold Resource.ofRaw
        rw [hpj]
        rfl
      set resi : Resource :=
        { raw := ti, package_id := p, original_id := o, original_revision := ri } with hri
      set resj : Resource :=
        { raw := tj, package_id := p, original_id := o, original_revision := rj } with hrj
      set PA := phase1 env p A [] rs with hPA
      set PAB := phase1 env p (A ++ ti :: B) [] rs with hPAB
      have hApp : phase1 env p (A ++ ti :: B ++ tj :: C) [] rs
          = phase1 env p (tj :: C) PAB.1 PAB.2 :=
        phase1_append env p (A ++ ti :: B) (tj :: C) [] rs
      have hApp0 : PAB = phase1 env p (ti :: B) PA.1 PA.2 :=
        phase1_append env p A (ti :: B) [] rs
      have hAerr : PA.2.err = none := by
        match hA : PA.2.err with
        | none => rfl
        | some er =>
            exfalso
            have hm1 := phase1_err_mono env p (ti :: B) PA.1 PA.2 (by simp [hA])
            rw [← hApp0] at hm1
            have hm2 := phase1_err_mono env p (tj :: C) PAB.1 PAB.2 hm1
            rw [← hApp, h1e] at hm2
            simp at hm2
      have hchainAB : PAB = phase1 env p B (dictInsert PA.1 o resi) PA.2 := by
        rw [hApp0, phase1_cons_ins env p ti B PA.1 PA.2 hAerr resi hresi ho]
      set PB := phase1 env p B (dictInsert PA.1 o resi) PA.2 with hPB
      have hBerr : PB.2.err = none := by
        match hB : PB.2.err with
        | none => rfl
        | some er =>
            exfalso
            have hm1 := phase1_err_mono env p (tj :: C) PAB.1 PAB.2
              (by rw [hchainAB]; simp [hB])
            rw [← hApp, h1e] at hm1
            simp at hm1
      have hchain2 : phase1 env p (A ++ ti :: B ++ tj :: C) [] rs
          = phase1 env p C (dictInsert PB.1 o resj) PB.2 := by
        rw [hApp, hchainAB,
          phase1_cons_ins env p tj C PB.1 PB.2 hBerr resj hresj ho]
      -- the dict after inserting tj holds no value carrying ti's id
      have hsafe_j : ∀ kv ∈ dictInsert PB.1 o resj, ¬ kv.2.raw.id = ti.id := by
        intro kv hkv hxid
        rcases mem_dictInsert hkv with h' | h'
        · have : kv.2 = resj := by rw [h']
          rw [this] at hxid
          exact htij (hinj hmem_tj hmem_ti hxid)
        · rcases phase1_dict_mem env p B (dictInsert PA.1 o resi) PA.2 kv h'.1 with
            hseed | ⟨rd', hrdB, hofr, hkey⟩
          · rcases mem_dictInsert hseed with h'' | h''
            · exact h'.2 (by rw [h''])
            · rcases phase1_dict_mem env p A [] rs kv h''.1 with habs | ⟨rd', hrdA, hofr, hkey⟩
              · cases habs
              · have hraw : kv.2.raw = rd' := (ofRaw_inv hofr).2
                rw [hraw] at hxid
                exact hti_ninA (by rw [← hid_ti rd' (hsubA rd' hrdA) hxid]; exact hrdA)
          · have hraw : kv.2.raw = rd' := (ofRaw_inv hofr).2
            rw [hraw] at hxid
            exact hti_ninB (by rw [← hid_ti rd' (hsubB rd' hrdB) hxid]; exact hrdB)
      -- and processing C preserves that safety
      have hCids : ∀ rd ∈ C, ¬ rd.id = ti.id := by
        intro rd hrd h
        exact hti_ninC (by rw [← hid_ti rd (hsubC rd hrd) h]; exact hrd)
      have hsafe1 : ∀ kv ∈ (phase1 env p (A ++ ti :: B ++ tj :: C) [] rs).1,
          ¬ kv.2.raw.id = ti.id := by
        rw [hchain2]
        exact phase1_safe env p ti.id C (dictInsert PB.1 o resj) PB.2 hCids hsafe_j
      -- assemble the three phases
      obtain ⟨e1, he1, ha1⟩ := phase1_tr_strong env p (A ++ ti :: B ++ tj :: C) [] rs
      obtain ⟨e2, he2, ha2, hdict2⟩ := phase2_tr_safe env p ti.id sl
        (phase1 env p (A ++ ti :: B ++ tj :: C) [] rs).1
        (phase1 env p (A ++ ti :: B ++ tj :: C) [] rs).2 hsafe1
      obtain ⟨e3, he3, ha3⟩ := phase3_tr_strong env
        (dictValues (phase2 env p sl (phase1 env p (A ++ ti :: B ++ tj :: C) [] rs).1
          (phase1 env p (A ++ ti :: B ++ tj :: C) [] rs).2).1)
        (phase2 env p sl (phase1 env p (A ++ ti :: B ++ tj :: C) [] rs).1
          (phase1 env p (A ++ ti :: B ++ tj :: C) [] rs).2).2
      refine ⟨e1 ++ (e2 ++ e3), ?_, ?_, ?_⟩
      · rw [sync_package_resources_def, he3, he2, he1]
        simp [List.append_assoc]
      · intro hmem
        rcases List.mem_append.mp hmem with h | h
        · exact (hdel_e1 e1 ha1).1 h
        · rcases List.mem_append.mp h with h' | h'
          · exact (ha2 _ h').1 (by simp [Event.isResDelete])
          · obtain ⟨v, hv, he⟩ := ha3 _ h'
            obtain ⟨kv, hkv, hkve⟩ := List.mem_map.mp hv
            have hsafe := hdict2 kv hkv
            rw [hkve] at hsafe
            injection he with h''
            exact hsafe h''.symm
      · intro u b hmem hux
        rcases List.mem_append.mp hmem with h | h
        · exact (hdel_e1 e1 ha1).2 u b h hux
        · rcases List.mem_append.mp h with h' | h'
          · exact (ha2 _ h').2 u b rfl hux
          · obtain ⟨v, hv, he⟩ := ha3 _ h'
            cases he

/-- C9 witness instance: two target resources embed id `X`; with an
empty source list the earlier duplicate `t1` is neither deleted nor
updated (only the later `t2` is deleted). -/
theorem claim_C9_witness :
    ∃ ext, (sync_package_resources noFail []
        ([] ++ ScenRes.tDup1 :: [] ++ ScenRes.tDup2 :: []) "p" (initRS stEmpty)).tr
        = (initRS stEmpty).tr ++ ext ∧
      Event.resourceDelete ScenRes.tDup1.id ∉ ext ∧
      ∀ u b, Event.resourceUpdate u b ∈ ext → ¬ u.id = some ScenRes.tDup1.id :=
  claim_C9 noFail [] "p" (initRS stEmpty) [] [] [] ScenRes.tDup1 ScenRes.tDup2
    "X" "1" "2" (by decide) (by decide) (by decide) (by decide)

/-! ## String and sorting lemmas for the idempotence analysis (C7) -/

theorem dropWhile_head_false {α : Type} (p : α → Bool) :
    ∀ (l : List α) (a : α) (t : List α), l.dropWhile p = a :: t → p a = false := by
  intro l
  induction l with
  | nil => intro a t h; cases h
  | cons x xs ih =>
      intro a t h
      rw [List.dropWhile_cons] at h
      by_cases hx : p x
      · rw [if_pos hx] at h
        exact ih a t h
      · rw [if_neg hx] at h
        injection h with h1 _
        rw [← h1]
        exact Bool.eq_false_iff.mpr hx

theorem dropWhile_idem {α : Type} (p : α → Bool) (l : List α) :
    (l.dropWhile p).dropWhile p = l.dropWhile p := by
  match h : l.dropWhile p with
  | [] => rfl
  | a :: t =>
      rw [List.dropWhile_cons, dropWhile_head_false p l a t h]
      rfl

theorem dropWhile_nil_all {α : Type} (p : α → Bool) :
    ∀ (l : List α), l.dropWhile p = [] → ∀ a ∈ l, p a := by
  intro l
  induction l with
  | nil => intro _ a ha; cases ha
  | cons x xs ih =>
      intro h a ha
      rw [List.dropWhile_cons] at h
      by_cases hx : p x
      · rcases List.mem_cons.mp ha with h' | h'
        · rw [h']; exact hx
        · exact ih (by rw [if_pos hx] at h; exact h) a h'
      · rw [if_neg hx] at h
        cases h

theorem rstrip_nil_all (l : List Char) (h : rstripChars l = []) : ∀ a ∈ l, pyWS a := by
  unfold rstripChars at h
  have h' : l.reverse.dropWhile pyWS = [] := by
    have := congrArg List.reverse h
    simpa using this
  intro a ha
  exact dropWhile_nil_all pyWS l.reverse h' a (List.mem_reverse.mpr ha)

theorem rstrip_cons (x : Char) (xs : List Char) :
    rstripChars (x :: xs) =
      if (xs.reverse.dropWhile pyWS).isEmpty then
        (if pyWS x then [] else [x])
      else x :: rstripChars xs := by
  unfold rstripChars
  rw [show (x :: xs).reverse = xs.reverse ++ [x] from by simp]
  rw [List.dropWhile_append]
  by_cases he : (xs.reverse.dropWhile pyWS).isEmpty
  · rw [if_pos he, if_pos he]
    by_cases hx : pyWS x
    · rw [if_pos hx]
      simp [List.dropWhile_cons, hx]
    · rw [if_neg hx]
      simp [List.dropWhile_cons, hx]
  · rw [if_neg he, if_neg he]
    simp

theorem lstrip_rstrip_comm : ∀ (l : List Char),
    lstripChars (rstripChars l) = rstripChars (lstripChars l) := by
  intro l
  induction l with
  | nil => rfl
  | cons x xs ih =>
      by_cases hx : pyWS x
      · have hl : lstripChars (x :: xs) = lstripChars xs := by
          unfold lstripChars
          simp [List.dropWhile_cons, hx]
        rw [hl, rstrip_cons]
        by_cases he : (xs.reverse.dropWhile pyWS).isEmpty
        · rw [if_pos he]
          have hall : ∀ a ∈ xs, pyWS a := by
            intro a ha
            exact dropWhile_nil_all pyWS xs.reverse
              (by rwa [List.isEmpty_iff] at he) a (List.mem_reverse.mpr ha)
          have hxs : lstripChars xs = [] := by
            unfold lstripChars
            exact List.dropWhile_eq_nil_iff.mpr hall
          rw [hxs, if_pos hx]
          rfl
        · rw [if_neg he]
          unfold lstripChars
          rw [List.dropWhile_cons, if_pos hx]
          exact ih
      · have hl : lstripChars (x :: xs) = x :: xs := by
          unfold lstripChars
          simp [List.dropWhile_cons, hx]
        rw [hl, rstrip_cons]
        by_cases he : (xs.reverse.dropWhile pyWS).isEmpty
        · rw [if_pos he, if_neg hx]
          have : rstripChars (x :: xs) = [x] := by
            rw [rstrip_cons, if_pos he, if_neg hx]
          unfold lstripChars
          simp [List.dropWhile_cons, hx]
        · rw [if_neg he]
          unfold lstripChars
          rw [List.dropWhile_cons, if_neg hx]

theorem rstrip_idem (l : List Char) : rstripChars (rstripChars l) = rstripChars l := by
  unfold rstripChars
  rw [List.reverse_reverse, dropWhile_idem]

theorem lstrip_idem (l : List Char) : lstripChars (lstripChars l) = lstripChars l :=
  dropWhile_idem pyWS l

/-- Python `strip` is idempotent. -/
theorem pyStrip_idem (s : String) : pyStrip (pyStrip s) = pyStrip s := by
  unfold pyStrip
  have hdata : (String.mk (rstripChars (lstripChars s.data))).data
      = rstripChars (lstripChars s.data) := rfl
  rw [hdata]
  rw [lstrip_rstrip_comm]
  rw [show rstripChars (rstripChars (lstripChars (lstripChars s.data)))
      = rstripChars (lstripChars s.data) from by rw [lstrip_idem, rstrip_idem]]

/-- Looking a key up in a key-indexed map of that key list. -/
theorem lookup_keyed {β : Type} (f : String → β) :
    ∀ (keys : List String) (k : String), k ∈ keys →
    ((keys.map fun k' => (k', f k')).lookup k) = some (f k) := by
  intro keys
  induction keys with
  | nil => intro k hk; cases hk
  | cons k0 rest ih =>
      intro k hk
      by_cases hkk : k = k0
      · subst hkk
        simp [List.lookup]
      · rcases List.mem_cons.mp hk with h | h
        · exact absurd h hkk
        · simp only [List.map_cons, List.lookup]
          have hbeq : (k == k0) = false := by
            simp [hkk]
          rw [hbeq]
          exact ih k h

/-- Re-sorting a sorted list is the identity, so the normalizers are
idempotent on their own output. -/
theorem insertionSort_idem {α : Type} (r : α → α → Prop) [DecidableRel r]
    [IsTotal α r] [IsTrans α r] (l : List α) :
    List.insertionSort r (List.insertionSort r l) = List.insertionSort r l :=
  List.Sorted.insertionSort_eq (List.sorted_insertionSort r l)

/-! ## Canonical-form round trips through the stored target state -/

/-- Reading a stored organization back and normalizing it again yields
the stored canonical form. -/
theorem org_roundtrip (so : RawOrg) (img : String) :
    Organization.ofRaw (TargetOrg.toRaw ⟨Organization.ofRaw so, img⟩)
      = Organization.ofRaw so := by
  unfold Organization.ofRaw TargetOrg.toRaw
  simp only [Organization.mk.injEq]
  refine ⟨?_, insertionSort_idem extraLe so.extras⟩
  apply List.map_congr_left
  intro k hk
  unfold RawOrg.get
  dsimp only
  rw [lookup_keyed (fun k' => (List.lookup k' so.scalars).getD none) orgKeys k hk]
  rfl

/-- Reading a stored package back and normalizing it again yields the
stored canonical form; the stored resources do not enter the canonical
form. -/
theorem pkg_roundtrip (sp : RawPackage) (R : List RawResource) :
    PackageMetadata.ofRaw (TargetPackage.toRaw ⟨PackageMetadata.ofRaw sp, R⟩)
      = PackageMetadata.ofRaw sp := by
  unfold PackageMetadata.ofRaw TargetPackage.toRaw
  simp only [PackageMetadata.mk.injEq]
  refine ⟨?_, ?_, insertionSort_idem tagLe sp.tags, pyStrip_idem _⟩
  · apply List.map_congr_left
    intro k hk
    unfold RawPackage.get
    dsimp only
    rw [lookup_keyed (fun k' => Option.map pyStrip ((List.lookup k' sp.scalars).getD none))
      packageKeys k hk]
    simp only [Option.getD_some, Option.map_map]
    rw [show pyStrip ∘ pyStrip = pyStrip from funext pyStrip_idem]
  · have hproj : ((List.insertionSort pkgExtraLe
        (sp.extras.map fun e => ({ key := e.key, value := e.value } : PkgExtra))).map
          (fun e => ({ key := e.key, value := e.value, state := "active" } : RawExtra))).map
          (fun e => ({ key := e.key, value := e.value } : PkgExtra))
        = List.insertionSort pkgExtraLe
            (sp.extras.map fun e => ({ key := e.key, value := e.value } : PkgExtra)) := by
      rw [List.map_map]
      exact List.map_id'' (fun e => rfl) _
    rw [hproj]
    exact insertionSort_idem pkgExtraLe _

/-! ## Image-name round trip through the stored target state -/

theorem mem_dropUploadStamp {c : Char} {l : List Char}
    (h : c ∈ dropUploadStamp l) : c ∈ l := by
  unfold dropUploadStamp at h
  dsimp only at h
  split at h
  · split at h
    next r heq =>
      split at h
      · have h1 : c ∈ ('.' :: r) := List.mem_cons_of_mem _ (List.mem_of_mem_drop h)
        rw [← heq] at h1
        exact List.mem_of_mem_drop h1
      · exact h
    next => exact h
  · exact h

/-- An extracted image name contains no path separator. -/
theorem imageName_no_slash (u : String) :
    ∀ c ∈ (imageNameOf u).data, ¬ c = '/' := by
  intro c hc hcs
  unfold imageNameOf at hc
  have h1 : c ∈ (basenameOf u).data := mem_dropUploadStamp hc
  unfold basenameOf at h1
  have h2 : c ∈ u.data.reverse.takeWhile fun c => !(c = '/') := by
    simpa using List.mem_reverse.mp h1
  have h3 := List.mem_takeWhile_imp h2
  rw [hcs] at h3
  simp at h3

/-- Dropping the upload timestamp from a stamped name recovers it. -/
theorem dropStamp_cancel (X : List Char) :
    dropUploadStamp ('1' :: '.' :: '1' :: '2' :: '3' :: '4' :: '5' :: '6' :: X) = X := rfl

/-- Storing an uploaded image under a timestamped name and extracting
its `image_name` again yields the uploaded file name. -/
theorem imageName_roundtrip (n : String) (hn : ∀ c ∈ n.data, ¬ c = '/') :
    imageNameOf ("uploads/" ++ uploadStamp ++ n) = n := by
  have hpos1 : ∀ a ∈ n.data.reverse, (!(a = '/')) = true := by
    intro a ha
    have := hn a (List.mem_reverse.mp ha)
    simpa using this
  have hpos2 : ∀ a ∈ uploadStamp.data.reverse, (!(a = '/')) = true := by decide
  have hnil : List.takeWhile (fun c => !(c = '/')) ("uploads/" : String).data.reverse
      = [] := by decide
  have hbase : (basenameOf ("uploads/" ++ uploadStamp ++ n)).data
      = uploadStamp.data ++ n.data := by
    unfold basenameOf
    rw [show ("uploads/" ++ uploadStamp ++ n).data
        = ("uploads/".data ++ uploadStamp.data) ++ n.data from by simp]
    rw [List.reverse_append, List.reverse_append]
    rw [List.takeWhile_append_of_pos hpos1, List.takeWhile_append_of_pos hpos2, hnil]
    simp
  unfold imageNameOf
  rw [hbase]
  rfl

/-! ## Effect-level state lemmas -/

theorem emit_noFail (e : Event) (rs : RunState) (h : rs.err = none) :
    emit noFail e rs = ⟨applyEffect e rs.st, rs.tr ++ [e], none⟩ := by
  unfold emit noFail
  simp [h]

theorem find?_map_keyed {α β : Type} (g : String × α → String × β)
    (hg : ∀ p, (g p).1 = p.1) (k : String) :
    ∀ (l : List (String × α)),
    (l.map g).find? (fun p => p.1 = k) = (l.find? fun p => p.1 = k).map g := by
  intro l
  induction l with
  | nil => rfl
  | cons p rest ih =>
      by_cases hk : p.1 = k
      · simp [List.find?, hg, hk]
      · simp only [List.map_cons, List.find?]
        rw [show (decide ((g p).1 = k)) = false by simp [hg, hk],
            show (decide (p.1 = k)) = false by simp [hk]]
        exact ih

/-- The parsed original id of a raw resource. -/
def oidOf (rd : RawResource) : Option String :=
  (parse_hash rd.hash).map (·.1)

/-- A target resource scheduled for unconditional deletion in step 1. -/
def emptyMark (rd : RawResource) : Bool := oidOf rd = some ""

/-- All resource ids stored anywhere in the target instance. -/
def allIds (st : TargetState) : List String :=
  st.packages.flatMap fun p => p.2.resources.map RawResource.id

/-- Well-formedness of the stored target instance, as CKAN guarantees it:
organization and package names are unique keys, resource ids are globally
unique, and ids at or beyond the fresh-id counter are unused. -/
def stateWF (st : TargetState) : Prop :=
  (st.orgs.map (·.1)).Nodup ∧
  (st.packages.map (·.1)).Nodup ∧
  (allIds st).Nodup ∧
  ∀ n, st.nextId ≤ n → freshId n ∉ allIds st

theorem freshId_inj {m n : Nat} (h : freshId m = freshId n) : m = n := by
  unfold freshId at h
  have := congrArg (fun s => s.data.length) h
  simpa using this

/-- Organizations are untouched by package- and resource-level events. -/
theorem applyEffect_orgs (e : Event) (st : TargetState)
    (h : ∀ o n f, e ≠ .orgCreate o ∧ e ≠ .orgPatchMeta o ∧ e ≠ .orgPatchImage n f) :
    (applyEffect e st).orgs = st.orgs := by
  match e with
  | .orgCreate o => exact absurd rfl (h o "" "").1
  | .orgPatchMeta o => exact absurd rfl (h o "" "").2.1
  | .orgPatchImage n f => exact absurd rfl (h ⟨[], []⟩ n f).2.2
  | .packageCreate m => rfl
  | .packagePatch m => rfl
  | .packagePurge n => rfl
  | .resourceCreate u b => rfl
  | .resourceUpdate u b => rfl
  | .resourceDelete i => rfl
  | .download f => rfl
  | .fileRemove f => rfl

/-- Packages are untouched by organization-level events. -/
theorem applyEffect_org_packages (e : Event) (st : TargetState)
    (h : (∃ o, e = .orgCreate o) ∨ (∃ o, e = .orgPatchMeta o) ∨
         (∃ n f, e = .orgPatchImage n f) ∨ (∃ f, e = .download f) ∨
         (∃ f, e = .fileRemove f)) :
    (applyEffect e st).packages = st.packages ∧
    (applyEffect e st).nextId = st.nextId := by
  rcases h with ⟨o, rfl⟩ | ⟨o, rfl⟩ | ⟨n, f, rfl⟩ | ⟨f, rfl⟩ | ⟨f, rfl⟩ <;>
    exact ⟨rfl, rfl⟩

theorem getPackage_delete (st : TargetState) (rid : String) (q : String) :
    (applyEffect (.resourceDelete rid) st).getPackage q
      = (st.getPackage q).map fun tp =>
          { tp with resources := tp.resources.filter fun rd => !(rd.id = rid) } := by
  simp only [applyEffect, TargetState.getPackage]
  rw [find?_map_keyed
    (fun p => (p.1, TargetPackage.mk p.2.meta
      (p.2.resources.filter fun rd => !(rd.id = rid))))
    (fun p => rfl) q st.packages]
  rw [Option.map_map, Option.map_map]
  rfl

theorem getPackage_update (st : TargetState) (u : UploadDict) (q : String) :
    (applyEffect (.resourceUpdate u true) st).getPackage q
      = (st.getPackage q).map (fun tp =>
          { tp with resources := tp.resources.map fun rd =>
              if rd.id = u.id.getD "" then rawOfUpload u rd.id else rd }) ∧
    (applyEffect (.resourceUpdate u false) st).getPackage q
      = (st.getPackage q).map fun tp =>
          { tp with resources := tp.resources.map fun rd =>
              if rd.id = u.id.getD "" then rawOfUpload u rd.id else rd } := by
  constructor <;>
  · simp only [applyEffect, TargetState.getPackage]
    rw [find?_map_keyed
      (fun p => (p.1, TargetPackage.mk p.2.meta
        (p.2.resources.map fun rd =>
          if rd.id = u.id.getD "" then rawOfUpload u rd.id else rd)))
      (fun p => rfl) q st.packages]
    rw [Option.map_map, Option.map_map]
    rfl

theorem updateAt_find_ne {α : Type} (pkgs : List (String × α))
    (k q : String) (f : α → α) (h : ¬ q = k) :
    (updateAt pkgs k f).find? (fun p => p.1 = q) =
      pkgs.find? fun p => p.1 = q := by
  induction pkgs with
  | nil => rfl
  | cons p rest ih =>
      unfold updateAt
      simp only [List.map_cons, List.find?]
      by_cases hk : p.1 = k
      · simp only [if_pos hk]
        have hpq : (decide (p.1 = q)) = false := by
          simp only [decide_eq_false_iff_not]
          intro h'
          exact h (h'.symm.trans hk)
        simp only [hpq]
        exact ih
      · simp only [if_neg hk]
        by_cases hq : p.1 = q
        · simp only [show (decide (p.1 = q)) = true by simp [hq]]
        · simp only [show (decide (p.1 = q)) = false by simp [hq]]
          exact ih

theorem updateAt_find_eq {α : Type} (pkgs : List (String × α))
    (k : String) (f : α → α) :
    (updateAt pkgs k f).find? (fun p => p.1 = k) =
      (pkgs.find? fun p => p.1 = k).map fun p => (p.1, f p.2) := by
  induction pkgs with
  | nil => rfl
  | cons p rest ih =>
      unfold updateAt
      simp only [List.map_cons, List.find?]
      by_cases hk : p.1 = k
      · simp only [if_pos hk]
        simp only [show (decide (p.1 = k)) = true by simp [hk]]
        rfl
      · simp only [if_neg hk]
        simp only [show (decide (p.1 = k)) = false by simp [hk]]
        exact ih

/-! ## allIds bookkeeping -/

theorem flatMap_sublist {α β : Type} (f g : α → List β) :
    ∀ (l : List α), (∀ p ∈ l, (f p).Sublist (g p)) →
    (l.flatMap f).Sublist (l.flatMap g) := by
  intro l
  induction l with
  | nil => intro _; simp
  | cons x xs ih =>
      intro h
      simp only [List.flatMap_cons]
      exact (h x (by simp)).append (ih fun p hp => h p (by simp [hp]))

theorem allIds_of_map (st : TargetState)
    (gp : String × TargetPackage → String × TargetPackage)
    (h : ∀ p, ((gp p).2.resources.map RawResource.id)
      = p.2.resources.map RawResource.id) :
    allIds { st with packages := st.packages.map gp } = allIds st := by
  unfold allIds
  simp only
  induction st.packages with
  | nil => rfl
  | cons p rest ih =>
      simp only [List.map_cons, List.flatMap_cons]
      rw [h p, ih]

theorem allIds_update (st : TargetState) (u : UploadDict) (b : Bool) :
    allIds (applyEffect (.resourceUpdate u b) st) = allIds st := by
  have := allIds_of_map st
    (fun p => (p.1, TargetPackage.mk p.2.meta
      (p.2.resources.map fun rd =>
        if rd.id = u.id.getD "" then rawOfUpload u rd.id else rd)))
    (by
      intro p
      simp only [List.map_map]
      apply List.map_congr_left
      intro rd _
      by_cases hrd : rd.id = u.id.getD ""
      · simp [hrd, rawOfUpload]
      · simp [hrd])
  exact this

theorem allIds_delete_sublist (st : TargetState) (rid : String) :
    (allIds (applyEffect (.resourceDelete rid) st)).Sublist (allIds st) := by
  unfold allIds applyEffect
  simp only
  have : ∀ (l : List (String × TargetPackage)),
      ((l.map fun p => (p.1, TargetPackage.mk p.2.meta
          (p.2.resources.filter fun rd => !(rd.id = rid)))).flatMap
        fun p => p.2.resources.map RawResource.id).Sublist
        (l.flatMap fun p => p.2.resources.map RawResource.id) := by
    intro l
    induction l with
    | nil => simp
    | cons p rest ih =>
        simp only [List.map_cons, List.flatMap_cons]
        exact ((List.filter_sublist _).map _).append ih
  exact this st.packages

theorem allIds_patch (st : TargetState) (m : PackageMetadata) :
    allIds (applyEffect (.packagePatch m) st) = allIds st := by
  unfold allIds applyEffect
  simp only
  generalize (scalarGet m.scalars "name").getD "" = n
  induction st.packages with
  | nil => rfl
  | cons p rest ih =>
      unfold updateAt
      simp only [List.map_cons, List.flatMap_cons]
      unfold updateAt at ih
      rw [ih]
      by_cases hk : p.1 = n
      · simp [hk]
      · simp [hk]

theorem allIds_pkgCreate (st : TargetState) (m : PackageMetadata) :
    allIds (applyEffect (.packageCreate m) st) = allIds st := by
  unfold allIds applyEffect
  simp [List.flatMap_append]

theorem sublist_flatMap {α β : Type} (f : α → List β) :
    ∀ {l₁ l₂ : List α}, l₁.Sublist l₂ →
    (l₁.flatMap f).Sublist (l₂.flatMap f) := by
  intro l₁ l₂ h
  induction h with
  | slnil => simp
  | cons a h ih =>
      simp only [List.flatMap_cons]
      exact ih.trans (List.sublist_append_right _ _)
  | cons₂ a h ih =>
      simp only [List.flatMap_cons]
      exact List.Sublist.append (List.Sublist.refl _) ih

theorem allIds_purge_sublist (st : TargetState) (n : String) :
    (allIds (applyEffect (.packagePurge n) st)).Sublist (allIds st) := by
  unfold allIds applyEffect
  simp only
  exact sublist_flatMap _ (List.filter_sublist _)

theorem allIds_org (st : TargetState) (e : Event)
    (h : (∃ o, e = .orgCreate o) ∨ (∃ o, e = .orgPatchMeta o) ∨
         (∃ n f, e = .orgPatchImage n f) ∨ (∃ f, e = .download f) ∨
         (∃ f, e = .fileRemove f)) :
    allIds (applyEffect e st) = allIds st := by
  obtain ⟨hp, _⟩ := applyEffect_org_packages e st h
  unfold allIds
  rw [hp]

/-! ## Remaining getters and nextId bookkeeping -/

theorem updateAt_id_of_not_mem {α : Type} (l : List (String × α)) (k : String)
    (f : α → α) (h : ∀ p ∈ l, ¬ p.1 = k) : updateAt l k f = l := by
  unfold updateAt
  have hpt : ∀ p ∈ l, (if p.1 = k then (p.1, f p.2) else p) = p := by
    intro p hp
    rw [if_neg (h p hp)]
  rw [List.map_congr_left hpt, List.map_id']

theorem updateAt_keys {α : Type} (l : List (String × α)) (k : String) (f : α → α) :
    (updateAt l k f).map (·.1) = l.map (·.1) := by
  unfold updateAt
  rw [List.map_map]
  apply List.map_congr_left
  intro p _
  by_cases hk : p.1 = k
  · simp [hk]
  · simp [hk]

theorem getOrg_nonOrg (e : Event) (st : TargetState) (q : String)
    (h : ∀ o n f, e ≠ .orgCreate o ∧ e ≠ .orgPatchMeta o ∧ e ≠ .orgPatchImage n f) :
    (applyEffect e st).getOrg q = st.getOrg q := by
  unfold TargetState.getOrg
  rw [applyEffect_orgs e st h]

theorem nextId_applyEffect (e : Event) (st : TargetState)
    (h : ∀ u b, e ≠ .resourceCreate u b) :
    (applyEffect e st).nextId = st.nextId := by
  match e with
  | .orgCreate o => rfl
  | .orgPatchMeta o => rfl
  | .orgPatchImage n f => rfl
  | .packageCreate m => rfl
  | .packagePatch m => rfl
  | .packagePurge n => rfl
  | .resourceCreate u b => exact absurd rfl (h u b)
  | .resourceUpdate u b => rfl
  | .resourceDelete i => rfl
  | .download f => rfl
  | .fileRemove f => rfl

theorem getPackage_resCreate_eq (st : TargetState) (u : UploadDict) (b : Bool) :
    (applyEffect (.resourceCreate u b) st).getPackage (u.package_id.getD "")
      = (st.getPackage (u.package_id.getD "")).map fun tp =>
          { tp with resources := tp.resources ++ [rawOfUpload u (freshId st.nextId)] } := by
  simp only [applyEffect, TargetState.getPackage]
  rw [updateAt_find_eq]
  rw [Option.map_map, Option.map_map]
  rfl

theorem getPackage_resCreate_ne (st : TargetState) (u : UploadDict) (b : Bool)
    (q : String) (h : ¬ q = u.package_id.getD "") :
    (applyEffect (.resourceCreate u b) st).getPackage q = st.getPackage q := by
  simp only [applyEffect, TargetState.getPackage]
  rw [updateAt_find_ne _ _ _ _ h]

theorem getPackage_pkgCreate (st : TargetState) (m : PackageMetadata) (q : String) :
    (applyEffect (.packageCreate m) st).getPackage q
      = if st.getPackage q = none then
          (if q = (scalarGet m.scalars "name").getD "" then some ⟨m, []⟩ else none)
        else st.getPackage q := by
  simp only [applyEffect, TargetState.getPackage]
  rw [List.find?_append]
  match hf : st.packages.find? fun p => p.1 = q with
  | some p => simp [hf]
  | none =>
      simp only [hf, Option.or, Option.map_none']
      rw [if_pos trivial]
      by_cases hq : q = (scalarGet m.scalars "name").getD ""
      · rw [if_pos hq]
        simp [List.find?, hq.symm]
      · rw [if_neg hq]
        have : (decide (((scalarGet m.scalars "name").getD "" : String) = q)) = false := by
          simp only [decide_eq_false_iff_not]
          intro h'
          exact hq h'.symm
        simp [List.find?, this]

theorem getPackage_pkgPatch_eq (st : TargetState) (m : PackageMetadata) :
    (applyEffect (.packagePatch m) st).getPackage ((scalarGet m.scalars "name").getD "")
      = (st.getPackage ((scalarGet m.scalars "name").getD "")).map fun tp =>
          { tp with meta := m } := by
  simp only [applyEffect, TargetState.getPackage]
  rw [updateAt_find_eq]
  rw [Option.map_map, Option.map_map]
  rfl

theorem getPackage_pkgPatch_ne (st : TargetState) (m : PackageMetadata) (q : String)
    (h : ¬ q = (scalarGet m.scalars "name").getD "") :
    (applyEffect (.packagePatch m) st).getPackage q = st.getPackage q := by
  simp only [applyEffect, TargetState.getPackage]
  rw [updateAt_find_ne _ _ _ _ h]

theorem find?_filter_ne_key {α : Type} (n q : String) (h : ¬ q = n) :
    ∀ (l : List (String × α)),
    (l.filter fun p => !(p.1 = n)).find? (fun p => p.1 = q) =
      l.find? fun p => p.1 = q := by
  intro l
  induction l with
  | nil => rfl
  | cons p rest ih =>
      by_cases hn : p.1 = n
      · rw [List.filter_cons_of_neg (by simp [hn])]
        rw [ih]
        have : (decide (p.1 = q)) = false := by
          simp only [decide_eq_false_iff_not]
          intro h'
          exact h (h'.symm.trans hn)
        simp [List.find?, this]
      · rw [List.filter_cons_of_pos (by simp [hn])]
        simp only [List.find?]
        by_cases hq : p.1 = q
        · simp [hq]
        · rw [show (decide (p.1 = q)) = false by simp [hq]]
          exact ih

theorem getPackage_purge_eq (st : TargetState) (n : String) :
    (applyEffect (.packagePurge n) st).getPackage n = none := by
  simp only [applyEffect, TargetState.getPackage]
  have : (st.packages.filter fun p => !(p.1 = n)).find? (fun p => p.1 = n) = none := by
    rw [List.find?_eq_none]
    intro p hp
    have := List.of_mem_filter hp
    simpa using this
  rw [this]
  rfl

theorem getPackage_purge_ne (st : TargetState) (n q : String) (h : ¬ q = n) :
    (applyEffect (.packagePurge n) st).getPackage q = st.getPackage q := by
  simp only [applyEffect, TargetState.getPackage]
  rw [find?_filter_ne_key n q h]

/-! ## stateWF preservation -/

theorem updateAt_append_ids (pid : String) (newRes : RawResource) :
    ∀ (l : List (String × TargetPackage)), (l.map (·.1)).Nodup →
    (∃ l1 l2, (l.flatMap fun p => p.2.resources.map RawResource.id) = l1 ++ l2 ∧
      ((updateAt l pid fun t => { t with resources := t.resources ++ [newRes] }).flatMap
        fun p => p.2.resources.map RawResource.id) = l1 ++ newRes.id :: l2) ∨
    ((updateAt l pid fun t => { t with resources := t.resources ++ [newRes] }).flatMap
      fun p => p.2.resources.map RawResource.id)
      = l.flatMap fun p => p.2.resources.map RawResource.id := by
  intro l
  induction l with
  | nil => intro _; right; rfl
  | cons p rest ih =>
      intro hnn
      have hnn' : (rest.map (·.1)).Nodup := (List.nodup_cons.mp hnn).2
      rw [show updateAt (p :: rest) pid
          (fun t => { t with resources := t.resources ++ [newRes] })
          = (if p.1 = pid then (p.1, { p.2 with resources := p.2.resources ++ [newRes] }) else p)
            :: updateAt rest pid (fun t => { t with resources := t.resources ++ [newRes] })
        from rfl]
      simp only [List.flatMap_cons]
      by_cases hk : p.1 = pid
      · simp only [if_pos hk]
        have hrest : updateAt rest pid
            (fun t => { t with resources := t.resources ++ [newRes] }) = rest := by
          apply updateAt_id_of_not_mem
          intro q hq hqk
          have hp1 : p.1 ∉ rest.map (·.1) := (List.nodup_cons.mp hnn).1
          exact hp1 (by
            rw [hk, ← hqk]
            exact List.mem_map.mpr ⟨q, hq, rfl⟩)
        rw [hrest]
        left
        refine ⟨p.2.resources.map RawResource.id,
          rest.flatMap fun p => p.2.resources.map RawResource.id, rfl, ?_⟩
        simp
      · simp only [if_neg hk]
        rcases ih hnn' with ⟨l1, l2, h1, h2⟩ | h
        · left
          refine ⟨(p.2.resources.map RawResource.id) ++ l1, l2, ?_, ?_⟩
          · rw [h1, List.append_assoc]
          · rw [h2, List.append_assoc]
        · right
          rw [h]

theorem stateWF_resCreate (st : TargetState) (u : UploadDict) (b : Bool)
    (h : stateWF st) : stateWF (applyEffect (.resourceCreate u b) st) := by
  obtain ⟨ho, hp, hn, hf⟩ := h
  have horgs : (applyEffect (.resourceCreate u b) st).orgs = st.orgs := rfl
  have hkeys : ((applyEffect (.resourceCreate u b) st).packages.map (·.1))
      = st.packages.map (·.1) := by
    simp only [applyEffect]
    exact updateAt_keys _ _ _
  have hids := updateAt_append_ids (u.package_id.getD "") (rawOfUpload u (freshId st.nextId))
    st.packages hp
  have hnext : (applyEffect (.resourceCreate u b) st).nextId = st.nextId + 1 := rfl
  have hallEq : allIds (applyEffect (.resourceCreate u b) st)
      = (updateAt st.packages (u.package_id.getD "")
          fun t => { t with resources := t.resources ++ [rawOfUpload u (freshId st.nextId)] }).flatMap
        fun p => p.2.resources.map RawResource.id := rfl
  have hallOld : allIds st = st.packages.flatMap fun p => p.2.resources.map RawResource.id := rfl
  refine ⟨by rw [horgs]; exact ho, by rw [hkeys]; exact hp, ?_, ?_⟩
  · rcases hids with ⟨l1, l2, h1, h2⟩ | heq
    · rw [hallEq, h2]
      have hfresh : freshId st.nextId ∉ l1 ++ l2 := by
        rw [← h1, ← hallOld]
        exact hf st.nextId (Nat.le_refl _)
      have : (rawOfUpload u (freshId st.nextId)).id = freshId st.nextId := rfl
      rw [this]
      exact List.nodup_middle.mpr
        (List.nodup_cons.mpr ⟨hfresh, by rw [← h1, ← hallOld]; exact hn⟩)
    · rw [hallEq, heq, ← hallOld]
      exact hn
  · intro n hle
    rw [hnext] at hle
    rcases hids with ⟨l1, l2, h1, h2⟩ | heq
    · rw [hallEq, h2]
      intro hmem
      have : (rawOfUpload u (freshId st.nextId)).id = freshId st.nextId := rfl
      rw [this] at hmem
      rcases List.mem_append.mp hmem with h' | h'
      · exact hf n (by omega) (by rw [hallOld, h1]; exact List.mem_append_left _ h')
      · rcases List.mem_cons.mp h' with h'' | h''
        · have := freshId_inj h''
          omega
        · exact hf n (by omega) (by rw [hallOld, h1]; exact List.mem_append_right _ h'')
    · rw [hallEq, heq, ← hallOld]
      exact hf n (by omega)

theorem stateWF_delete (st : TargetState) (rid : String)
    (h : stateWF st) : stateWF (applyEffect (.resourceDelete rid) st) := by
  obtain ⟨ho, hp, hn, hf⟩ := h
  have hsub := allIds_delete_sublist st rid
  refine ⟨ho, ?_, hsub.nodup hn, ?_⟩
  · have : ((applyEffect (.resourceDelete rid) st).packages.map (·.1))
        = st.packages.map (·.1) := by
      simp only [applyEffect]
      rw [List.map_map]
      rfl
    rw [this]
    exact hp
  · intro n hle hmem
    exact hf n hle (hsub.mem hmem)

theorem stateWF_update (st : TargetState) (u : UploadDict) (b : Bool)
    (h : stateWF st) : stateWF (applyEffect (.resourceUpdate u b) st) := by
  obtain ⟨ho, hp, hn, hf⟩ := h
  have hids : allIds (applyEffect (.resourceUpdate u b) st) = allIds st :=
    allIds_update st u b
  refine ⟨ho, ?_, by rw [hids]; exact hn, ?_⟩
  · have : ((applyEffect (.resourceUpdate u b) st).packages.map (·.1))
        = st.packages.map (·.1) := by
      simp only [applyEffect]
      rw [List.map_map]
      rfl
    rw [this]
    exact hp
  · intro n hle
    rw [hids]
    exact hf n hle

theorem stateWF_pkgPatch (st : TargetState) (m : PackageMetadata)
    (h : stateWF st) : stateWF (applyEffect (.packagePatch m) st) := by
  obtain ⟨ho, hp, hn, hf⟩ := h
  have hids := allIds_patch st m
  refine ⟨ho, ?_, by rw [hids]; exact hn, ?_⟩
  · have : ((applyEffect (.packagePatch m) st).packages.map (·.1))
        = st.packages.map (·.1) := by
      simp only [applyEffect]
      exact updateAt_keys _ _ _
    rw [this]
    exact hp
  · intro n hle
    rw [hids]
    exact hf n hle

theorem stateWF_pkgCreate (st : TargetState) (m : PackageMetadata)
    (habs : st.getPackage ((scalarGet m.scalars "name").getD "") = none)
    (h : stateWF st) : stateWF (applyEffect (.packageCreate m) st) := by
  obtain ⟨ho, hp, hn, hf⟩ := h
  have hids := allIds_pkgCreate st m
  refine ⟨ho, ?_, by rw [hids]; exact hn, ?_⟩
  · have hmap : ((applyEffect (.packageCreate m) st).packages.map (·.1))
        = st.packages.map (·.1) ++ [(scalarGet m.scalars "name").getD ""] := by
      simp [applyEffect]
    rw [hmap]
    have habsent : (scalarGet m.scalars "name").getD "" ∉ st.packages.map (·.1) := by
      intro hmem
      obtain ⟨p, hpm, hpe⟩ := List.mem_map.mp hmem
      unfold TargetState.getPackage at habs
      rw [Option.map_eq_none'] at habs
      rw [List.find?_eq_none] at habs
      exact habs p hpm (by simp [hpe])
    simp [List.nodup_append, habsent, hp]
  · intro n hle
    rw [hids]
    exact hf n hle

theorem stateWF_purge (st : TargetState) (q : String)
    (h : stateWF st) : stateWF (applyEffect (.packagePurge q) st) := by
  obtain ⟨ho, hp, hn, hf⟩ := h
  have hsub := allIds_purge_sublist st q
  refine ⟨ho, ?_, hsub.nodup hn, ?_⟩
  · have : ((applyEffect (.packagePurge q) st).packages.map (·.1)).Sublist
        (st.packages.map (·.1)) := by
      simp only [applyEffect]
      exact (List.filter_sublist _).map _
    exact this.nodup hp
  · intro n hle hmem
    exact hf n hle (hsub.mem hmem)

theorem stateWF_orgCreate (st : TargetState) (o : Organization)
    (habs : st.getOrg ((scalarGet o.scalars "name").getD "") = none)
    (h : stateWF st) : stateWF (applyEffect (.orgCreate o) st) := by
  obtain ⟨ho, hp, hn, hf⟩ := h
  refine ⟨?_, hp, hn, hf⟩
  have hmap : ((applyEffect (.orgCreate o) st).orgs.map (·.1))
      = st.orgs.map (·.1) ++ [(scalarGet o.scalars "name").getD ""] := by
    simp [applyEffect]
  rw [hmap]
  have habsent : (scalarGet o.scalars "name").getD "" ∉ st.orgs.map (·.1) := by
    intro hmem
    obtain ⟨p, hpm, hpe⟩ := List.mem_map.mp hmem
    unfold TargetState.getOrg at habs
    rw [Option.map_eq_none'] at habs
    rw [List.find?_eq_none] at habs
    exact habs p hpm (by simp [hpe])
  simp [List.nodup_append, habsent, ho]

theorem stateWF_orgPatch (st : TargetState) (e : Event)
    (h : (∃ o, e = .orgPatchMeta o) ∨ ∃ n f, e = .orgPatchImage n f)
    (hwf : stateWF st) : stateWF (applyEffect e st) := by
  obtain ⟨ho, hp, hn, hf⟩ := hwf
  have hpk := applyEffect_org_packages e st (by
    rcases h with ⟨o, rfl⟩ | ⟨n, f, rfl⟩
    · exact Or.inr (Or.inl ⟨o, rfl⟩)
    · exact Or.inr (Or.inr (Or.inl ⟨n, f, rfl⟩)))
  have hids : allIds (applyEffect e st) = allIds st := by
    unfold allIds
    rw [hpk.1]
  refine ⟨?_, ?_, by rw [hids]; exact hn, ?_⟩
  · rcases h with ⟨o, rfl⟩ | ⟨n, f, rfl⟩
    · have : ((applyEffect (.orgPatchMeta o) st).orgs.map (·.1))
          = st.orgs.map (·.1) := by
        simp only [applyEffect]
        exact updateAt_keys _ _ _
      rw [this]
      exact ho
    · have : ((applyEffect (.orgPatchImage n f) st).orgs.map (·.1))
          = st.orgs.map (·.1) := by
        simp only [applyEffect]
        exact updateAt_keys _ _ _
      rw [this]
      exact ho
  · rw [hpk.1]
    exact hp
  · intro n' hle
    rw [hids]
    rw [hpk.2] at hle
    exact hf n' hle

theorem stateWF_file (st : TargetState) (e : Event)
    (h : (∃ f, e = .download f) ∨ ∃ f, e = .fileRemove f)
    (hwf : stateWF st) : stateWF (applyEffect e st) := by
  rcases h with ⟨f, rfl⟩ | ⟨f, rfl⟩ <;> exact hwf

/-! ## Marker parsing helpers for the idempotence analysis -/

/-- Splitting a freshly written marker `id:rev` at the first `:` recovers
the two parts when the id itself is free of `:`. -/
theorem splitOnce_marker (a b : String) (ha : ∀ c ∈ a.data, ¬ c = ':') :
    splitOnce (a ++ ":" ++ b) ':' = some (a, b) := by
  have hdata : (a ++ ":" ++ b).data = a.data ++ ':' :: b.data := by simp
  have hpos : ∀ c ∈ a.data, (!(c = ':')) = true := by
    intro c hc
    simpa using ha c hc
  have hcont : (a ++ ":" ++ b).data.contains ':' = true := by
    rw [hdata]
    have : (':' : Char) ∈ a.data ++ ':' :: b.data :=
      List.mem_append_right _ (List.mem_cons_self _ _)
    exact List.elem_eq_true_of_mem this
  unfold splitOnce
  rw [hdata] at hcont
  rw [hdata, if_pos hcont]
  have htake : (a.data ++ ':' :: b.data).takeWhile (fun c => !(c = ':')) = a.data := by
    rw [List.takeWhile_append_of_pos hpos]
    simp [List.takeWhile]
  have hdrop : (a.data ++ ':' :: b.data).dropWhile (fun c => !(c = ':')) = ':' :: b.data := by
    rw [List.dropWhile_append]
    have h1 : (a.data.dropWhile fun c => !(c = ':')) = [] := by
      rw [List.dropWhile_eq_nil_iff]
      exact fun c hc => hpos c hc
    simp [h1, List.dropWhile]
  rw [htake, hdrop]
  rfl

theorem parse_hash_marker (a b : String) (ha : ∀ c ∈ a.data, ¬ c = ':') :
    parse_hash (some (a ++ ":" ++ b)) = some (a, b) := by
  simp [parse_hash, splitOnce_marker a b ha]

theorem parse_hash_isSome (s : String) : ∃ pr, parse_hash (some s) = some pr := by
  cases hsp : splitOnce s ':' with
  | none => exact ⟨("", ""), by simp [parse_hash, hsp]⟩
  | some pr => exact ⟨pr, by simp [parse_hash, hsp]⟩

/-- The `Resource` value `Resource.__init__` builds when `parse_hash`
succeeds, written as a total function of the raw dict. -/
def mkRes (rd : RawResource) (pname : String) : Resource :=
  { raw := rd
    package_id := pname
    original_id := ((parse_hash rd.hash).map (·.1)).getD ""
    original_revision := ((parse_hash rd.hash).map (·.2)).getD "" }

theorem ofRaw_of_hash {rd : RawResource} (p : String) (h : rd.hash.isSome) :
    Resource.ofRaw rd p = some (mkRes rd p) := by
  obtain ⟨s, hs⟩ := Option.isSome_iff_exists.mp h
  obtain ⟨pr, hpr⟩ := parse_hash_isSome s
  unfold Resource.ofRaw mkRes
  rw [hs, hpr]
  rfl

theorem oidOf_isSome_hash {rd : RawResource} (h : (oidOf rd).isSome) :
    rd.hash.isSome := by
  unfold oidOf at h
  cases hh : rd.hash with
  | none => rw [hh] at h; simp [parse_hash] at h
  | some s => rfl

theorem mkRes_origId {rd : RawResource} {k : String} (p : String)
    (h : oidOf rd = some k) : (mkRes rd p).original_id = k := by
  unfold mkRes
  unfold oidOf at h
  rw [h]
  rfl

theorem mkRes_origRev {rd : RawResource} {k : String} (p : String)
    (h : (parse_hash rd.hash).map (·.2) = some k) :
    (mkRes rd p).original_revision = k := by
  unfold mkRes
  rw [h]
  rfl

theorem oidOf_origRev {rd : RawResource} {k : String} (h : oidOf rd = some k) :
    ∃ rv, (parse_hash rd.hash).map (·.2) = some rv := by
  unfold oidOf at h
  cases hp : parse_hash rd.hash with
  | none => rw [hp] at h; cases h
  | some pr => exact ⟨pr.2, rfl⟩

/-! ## Well-formedness of the source catalog and initial target -/

/-- A source resource list as CKAN serves it: ids present, non-empty,
free of the marker separator `:`, pairwise distinct, and a `hash` field
present on every entry. -/
def srcResWF (sl : List RawResource) : Prop :=
  (sl.map (·.id)).Nodup ∧
  ∀ s ∈ sl, ¬ s.id = "" ∧ (∀ c ∈ s.id.data, ¬ c = ':') ∧ s.hash.isSome

/-- A well-formed source catalog: organization and package names are
unique and match the entities' own `name` field, no listed package is in
state `deleted`, and every package's resource list is well-formed. -/
def srcWF (src : SourceCatalog) : Prop :=
  (src.orgs.map (·.1)).Nodup ∧
  (∀ p ∈ src.orgs, scalarGet (Organization.ofRaw p.2).scalars "name" = some p.1) ∧
  (src.packages.map (·.1)).Nodup ∧
  (∀ p ∈ src.packages, scalarGet (PackageMetadata.ofRaw p.2).scalars "name" = some p.1) ∧
  (∀ p ∈ src.packages, ¬ scalarGet (PackageMetadata.ofRaw p.2).scalars "state"
      = some "deleted") ∧
  ∀ p ∈ src.packages, srcResWF p.2.resources

/-- A well-formed stored resource list: hash fields present and the
non-empty markers pairwise distinct (so no duplicate-marker shadowing). -/
def tgtResWF (tl : List RawResource) : Prop :=
  (∀ rd ∈ tl, rd.hash.isSome) ∧
  (((tl.filter fun rd => !emptyMark rd).map oidOf).Nodup)

/-- A well-formed initial target instance. -/
def tgtWF (st : TargetState) : Prop :=
  stateWF st ∧ ∀ p ∈ st.packages, tgtResWF p.2.resources

/-! ## The synced relation between source and target -/

/-- A stored target resource carries the marker of a source resource:
same original id and a matching original revision. -/
def resMatch (s t : RawResource) : Prop :=
  oidOf t = some s.id ∧
  ((parse_hash t.hash).map (·.2) = some s.revision_id ∨
   (parse_hash t.hash).map (·.2) = some s.last_modified)

/-- A stored resource list is in sync with a source resource list: the
markers biject onto the source ids. -/
def resSynced (sl tl : List RawResource) : Prop :=
  (∀ t ∈ tl, ∃ s ∈ sl, resMatch s t) ∧
  (∀ s ∈ sl, ∃ t ∈ tl, resMatch s t) ∧
  ((tl.map oidOf).Nodup)

/-- The target organization of this name needs no call: canonical forms
and image names agree. -/
def orgSynced (src : SourceCatalog) (st : TargetState) (n : String) : Prop :=
  ∃ so tgo, src.getOrg n = some so ∧ st.getOrg n = some tgo ∧
    Organization.ofRaw so = Organization.ofRaw tgo.toRaw ∧
    imageNameOf so.image_display_url = imageNameOf tgo.toRaw.image_display_url

/-- The target package of this name needs no call: canonical metadata
agrees and the resources are in sync. -/
def pkgSynced (src : SourceCatalog) (st : TargetState) (n : String) : Prop :=
  ∃ sp tp, src.getPackage n = some sp ∧ st.getPackage n = some tp ∧
    PackageMetadata.ofRaw sp = PackageMetadata.ofRaw tp.toRaw ∧
    resSynced sp.resources tp.resources

/-- The target instance is fully in sync with the source catalog. -/
def synced (src : SourceCatalog) (st : TargetState) : Prop :=
  (∀ n ∈ src.orgNames, orgSynced src st n) ∧
  (∀ n ∈ src.packageNames, pkgSynced src st n) ∧
  ∀ n ∈ st.packageNames, n ∈ src.packageNames

theorem orgSynced_congr {src : SourceCatalog} {st st' : TargetState} {n : String}
    (h : st'.getOrg n = st.getOrg n) (hs : orgSynced src st n) :
    orgSynced src st' n := by
  obtain ⟨so, tgo, h1, h2, h3, h4⟩ := hs
  exact ⟨so, tgo, h1, by rw [h, h2], h3, h4⟩

theorem pkgSynced_congr {src : SourceCatalog} {st st' : TargetState} {n : String}
    (h : st'.getPackage n = st.getPackage n) (hs : pkgSynced src st n) :
    pkgSynced src st' n := by
  obtain ⟨sp, tp, h1, h2, h3, h4⟩ := hs
  exact ⟨sp, tp, h1, by rw [h, h2], h3, h4⟩

/-! ## Small list and dictionary lemmas -/

theorem nodup_getD_of_some {l : List (Option String)} (h : ∀ x ∈ l, x.isSome)
    (hn : l.Nodup) : (l.map fun o => o.getD "").Nodup := by
  induction l with
  | nil => exact List.nodup_nil
  | cons x xs ih =>
      obtain ⟨hx, hxs⟩ := List.nodup_cons.mp hn
      refine List.nodup_cons.mpr ⟨?_, ih (fun y hy => h y (List.mem_cons_of_mem _ hy)) hxs⟩
      intro hmem
      obtain ⟨o, ho, hoe⟩ := List.mem_map.mp hmem
      obtain ⟨a, ha⟩ := Option.isSome_iff_exists.mp (h x (List.mem_cons_self _ _))
      obtain ⟨b, hb⟩ := Option.isSome_iff_exists.mp (h o (List.mem_cons_of_mem _ ho))
      apply hx
      have hba : b = a := by
        have h' := hoe
        rw [ha, hb] at h'
        simpa using h'
      rw [ha, ← hba, ← hb]
      exact ho

theorem mem_flatMap_sublist {α β : Type} (f : α → List β) {a : α} :
    ∀ {l : List α}, a ∈ l → (f a).Sublist (l.flatMap f) := by
  intro l
  induction l with
  | nil => intro h; cases h
  | cons x xs ih =>
      intro h
      rcases List.mem_cons.mp h with rfl | h'
      · simp only [List.flatMap_cons]
        exact List.sublist_append_left _ _
      · simp only [List.flatMap_cons]
        exact (ih h').trans (List.sublist_append_right _ _)

theorem flatMap_nodup_disjoint {α β : Type} (f : α → List β) :
    ∀ (l : List α), (l.flatMap f).Nodup → ∀ a ∈ l, ∀ b ∈ l, ¬ a = b →
    ∀ x ∈ f a, x ∉ f b := by
  intro l
  induction l with
  | nil => intro _ a ha; cases ha
  | cons c rest ih =>
      intro hn a ha b hb hne x hxa hxb
      simp only [List.flatMap_cons] at hn
      have hdisj := (List.nodup_append.mp hn).2.2
      have hrest := (List.nodup_append.mp hn).2.1
      rcases List.mem_cons.mp ha with rfl | ha' <;>
        rcases List.mem_cons.mp hb with h | hb'
      · exact hne h.symm
      · exact hdisj hxa (List.mem_flatMap.mpr ⟨b, hb', hxb⟩)
      · rw [h] at hxb
        exact hdisj hxb (List.mem_flatMap.mpr ⟨a, ha', hxa⟩)
      · exact ih hrest a ha' b hb' hne x hxa hxb

theorem getPackage_mem {st : TargetState} {q : String} {tp : TargetPackage}
    (h : st.getPackage q = some tp) : (q, tp) ∈ st.packages := by
  unfold TargetState.getPackage at h
  cases hf : st.packages.find? fun p => p.1 = q with
  | none => rw [hf] at h; cases h
  | some kv =>
      rw [hf] at h
      simp only [Option.map_some', Option.some.injEq] at h
      have hm := List.mem_of_find?_eq_some hf
      have hk : kv.1 = q := by
        have := List.find?_some hf
        simpa using this
      rw [← h, ← hk]
      exact hm

theorem getOrg_mem {st : TargetState} {q : String} {tgo : TargetOrg}
    (h : st.getOrg q = some tgo) : (q, tgo) ∈ st.orgs := by
  unfold TargetState.getOrg at h
  cases hf : st.orgs.find? fun p => p.1 = q with
  | none => rw [hf] at h; cases h
  | some kv =>
      rw [hf] at h
      simp only [Option.map_some', Option.some.injEq] at h
      have hm := List.mem_of_find?_eq_some hf
      have hk : kv.1 = q := by
        have := List.find?_some hf
        simpa using this
      rw [← h, ← hk]
      exact hm

theorem resIds_nodup {st : TargetState} (hwf : stateWF st)
    {q : String} {tp : TargetPackage} (hq : st.getPackage q = some tp) :
    (tp.resources.map RawResource.id).Nodup := by
  have hm := getPackage_mem hq
  have hsub : (tp.resources.map RawResource.id).Sublist (allIds st) :=
    mem_flatMap_sublist (fun p => p.2.resources.map RawResource.id) hm
  exact hsub.nodup hwf.2.2.1

theorem resIds_disjoint {st : TargetState} (hwf : stateWF st)
    {p q : String} {tp tq : TargetPackage}
    (hp : st.getPackage p = some tp) (hq : st.getPackage q = some tq)
    (hne : ¬ q = p) :
    ∀ i ∈ tp.resources.map RawResource.id, i ∉ tq.resources.map RawResource.id := by
  have hmp := getPackage_mem hp
  have hmq := getPackage_mem hq
  have hab : ¬ ((p, tp) : String × TargetPackage) = (q, tq) := by
    intro h
    exact hne (congrArg Prod.fst h).symm
  exact flatMap_nodup_disjoint (fun r => r.2.resources.map RawResource.id)
    st.packages
    (show ((st.packages.flatMap fun r => r.2.resources.map RawResource.id)).Nodup
      from hwf.2.2.1)
    (p, tp) hmp (q, tq) hmq hab

theorem filter_id_ne {l : List RawResource} {i : String}
    (h : ∀ rd ∈ l, ¬ rd.id = i) : (l.filter fun rd => !(rd.id = i)) = l := by
  apply List.filter_eq_self.mpr
  intro rd hrd
  simpa using h rd hrd

theorem map_update_ne {l : List RawResource} {i : String} (u : UploadDict)
    (h : ∀ rd ∈ l, ¬ rd.id = i) :
    (l.map fun rd => if rd.id = i then rawOfUpload u rd.id else rd) = l := by
  rw [List.map_congr_left (fun rd hrd => if_neg (h rd hrd))]
  exact List.map_id' _

theorem dictLookup_none {d : PyDict} {k : String}
    (h : ∀ kv ∈ d, ¬ kv.1 = k) : dictLookup d k = none := by
  unfold dictLookup
  rw [List.find?_eq_none.mpr (by intro kv hkv; simpa using h kv hkv)]
  rfl

theorem dictLookup_key_of_none {d : PyDict} {k : String}
    (h : dictLookup d k = none) : ∀ kv ∈ d, ¬ kv.1 = k := by
  unfold dictLookup at h
  intro kv hkv hk
  cases hf : d.find? fun p => p.1 = k with
  | some v => rw [hf] at h; cases h
  | none =>
      have := List.find?_eq_none.mp hf kv hkv
      simp only [decide_eq_true_eq] at this
      exact this hk

theorem dictLookup_isSome {d : PyDict} {k : String} {kv : String × Resource}
    (hkv : kv ∈ d) (hk : kv.1 = k) : (dictLookup d k).isSome := by
  cases hf : dictLookup d k with
  | some v => rfl
  | none => exact absurd hk (dictLookup_key_of_none hf kv hkv)

theorem contains_iff_mem {l : List String} {a : String} :
    l.contains a = true ↔ a ∈ l := by
  simp [List.contains, List.elem_iff]

theorem foldl_fix {α : Type} (g : α → RunState → RunState) (rs : RunState) :
    ∀ (l : List α), (∀ n ∈ l, g n rs = rs) →
    l.foldl (fun rs n => g n rs) rs = rs := by
  intro l
  induction l with
  | nil => intro _; rfl
  | cons x xs ih =>
      intro h
      simp only [List.foldl_cons]
      rw [h x (List.mem_cons_self _ _)]
      exact ih fun n hn => h n (List.mem_cons_of_mem _ hn)

/-! ## getOrg after organization-level effects -/

theorem getOrg_orgCreate (st : TargetState) (o : Organization) (q : String) :
    (applyEffect (.orgCreate o) st).getOrg q
      = if st.getOrg q = none then
          (if q = (scalarGet o.scalars "name").getD "" then some ⟨o, ""⟩ else none)
        else st.getOrg q := by
  simp only [applyEffect, TargetState.getOrg]
  rw [List.find?_append]
  match hf : st.orgs.find? fun p => p.1 = q with
  | some p => simp [hf]
  | none =>
      simp only [hf, Option.or, Option.map_none']
      rw [if_pos trivial]
      by_cases hq : q = (scalarGet o.scalars "name").getD ""
      · rw [if_pos hq]
        simp [List.find?, hq.symm]
      · rw [if_neg hq]
        have : (decide (((scalarGet o.scalars "name").getD "" : String) = q)) = false := by
          simp only [decide_eq_false_iff_not]
          intro h'
          exact hq h'.symm
        simp [List.find?, this]

theorem getOrg_patchMeta_eq (st : TargetState) (o : Organization) :
    (applyEffect (.orgPatchMeta o) st).getOrg ((scalarGet o.scalars "name").getD "")
      = (st.getOrg ((scalarGet o.scalars "name").getD "")).map fun t =>
          { t with meta := o } := by
  simp only [applyEffect, TargetState.getOrg]
  rw [updateAt_find_eq]
  rw [Option.map_map, Option.map_map]
  rfl

theorem getOrg_patchMeta_ne (st : TargetState) (o : Organization) (q : String)
    (h : ¬ q = (scalarGet o.scalars "name").getD "") :
    (applyEffect (.orgPatchMeta o) st).getOrg q = st.getOrg q := by
  simp only [applyEffect, TargetState.getOrg]
  rw [updateAt_find_ne _ _ _ _ h]

theorem getOrg_patchImage_eq (st : TargetState) (n f : String) :
    (applyEffect (.orgPatchImage n f) st).getOrg n
      = (st.getOrg n).map fun t => { t with imageName := f } := by
  simp only [applyEffect, TargetState.getOrg]
  rw [updateAt_find_eq]
  rw [Option.map_map, Option.map_map]
  rfl

theorem getOrg_patchImage_ne (st : TargetState) (n f : String) (q : String)
    (h : ¬ q = n) :
    (applyEffect (.orgPatchImage n f) st).getOrg q = st.getOrg q := by
  simp only [applyEffect, TargetState.getOrg]
  rw [updateAt_find_ne _ _ _ _ h]

/-! ## Branch equations of sync_org -/

theorem sync_org_create (env : Env) (src : SourceCatalog) (n : String)
    (rs : RunState) (so : RawOrg) (herr : rs.err = none)
    (hs : src.getOrg n = some so) (ht : rs.st.getOrg n = none) :
    sync_org env src n rs =
      sync_image env n so.image_display_url
        (emit env (.orgCreate (Organization.ofRaw so)) rs) := by
  unfold sync_org
  simp [herr, hs, ht]

theorem sync_org_same (env : Env) (src : SourceCatalog) (n : String)
    (rs : RunState) (so : RawOrg) (tgo : TargetOrg) (herr : rs.err = none)
    (hs : src.getOrg n = some so) (ht : rs.st.getOrg n = some tgo)
    (hmeta : Organization.ofRaw so = Organization.ofRaw tgo.toRaw)
    (himg : imageNameOf so.image_display_url = imageNameOf tgo.toRaw.image_display_url) :
    sync_org env src n rs = rs := by
  unfold sync_org
  simp [herr, hs, ht, hmeta, himg]

theorem sync_org_meta_only (env : Env) (src : SourceCatalog) (n : String)
    (rs : RunState) (so : RawOrg) (tgo : TargetOrg) (herr : rs.err = none)
    (hs : src.getOrg n = some so) (ht : rs.st.getOrg n = some tgo)
    (hmeta : ¬ Organization.ofRaw so = Organization.ofRaw tgo.toRaw)
    (himg : imageNameOf so.image_display_url = imageNameOf tgo.toRaw.image_display_url) :
    sync_org env src n rs = emit env (.orgPatchMeta (Organization.ofRaw so)) rs := by
  unfold sync_org
  simp [herr, hs, ht, hmeta, himg]

theorem sync_org_image_only (env : Env) (src : SourceCatalog) (n : String)
    (rs : RunState) (so : RawOrg) (tgo : TargetOrg) (herr : rs.err = none)
    (hs : src.getOrg n = some so) (ht : rs.st.getOrg n = some tgo)
    (hmeta : Organization.ofRaw so = Organization.ofRaw tgo.toRaw)
    (himg : ¬ imageNameOf so.image_display_url
      = imageNameOf tgo.toRaw.image_display_url) :
    sync_org env src n rs = sync_image env n so.image_display_url rs := by
  unfold sync_org
  simp [herr, hs, ht, hmeta, himg]

theorem sync_org_meta_image (env : Env) (src : SourceCatalog) (n : String)
    (rs : RunState) (so : RawOrg) (tgo : TargetOrg) (herr : rs.err = none)
    (hs : src.getOrg n = some so) (ht : rs.st.getOrg n = some tgo)
    (hmeta : ¬ Organization.ofRaw so = Organization.ofRaw tgo.toRaw)
    (himg : ¬ imageNameOf so.image_display_url
      = imageNameOf tgo.toRaw.image_display_url) :
    sync_org env src n rs =
      sync_image env n so.image_display_url
        (emit env (.orgPatchMeta (Organization.ofRaw so)) rs) := by
  unfold sync_org
  simp [herr, hs, ht, hmeta, himg]

/-! ## Identity: a synced target receives no call at all -/

/-- The dict invariant that makes step 2 a pure sequence of pops: unique
keys, every entry the faithful marker of a unique source id, every source
id present. -/
def dictGood (sl : List RawResource) (d : PyDict) : Prop :=
  ((d.map (·.1)).Nodup) ∧
  (∀ kv ∈ d, ∃ s ∈ sl, kv.1 = s.id ∧ kv.2.original_id = s.id ∧
     (kv.2.original_revision = s.revision_id ∨
      kv.2.original_revision = s.last_modified)) ∧
  ∀ s ∈ sl, ∃ kv ∈ d, kv.1 = s.id

theorem dictInsert_append {d : PyDict} {k : String} {v : Resource}
    (h : ∀ kv ∈ d, ¬ kv.1 = k) : dictInsert d k v = d ++ [(k, v)] := by
  unfold dictInsert
  rw [if_neg]
  simp only [List.any_eq_true, decide_eq_true_eq, not_exists]
  intro kv hkv
  exact h kv hkv.1 hkv.2

/-- With all markers present, non-empty and fresh, step 1 deletes nothing
and appends the keyed resources to the dict in order. -/
theorem phase1_ident (env : Env) (pname : String) :
    ∀ (tl : List RawResource) (d : PyDict) (rs : RunState), rs.err = none →
    (∀ rd ∈ tl, ∃ k, oidOf rd = some k ∧ ¬ k = "") →
    (∀ rd ∈ tl, ∀ kv ∈ d, ¬ oidOf rd = some kv.1) →
    ((tl.map oidOf).Nodup) →
    phase1 env pname tl d rs
      = (d ++ tl.map fun rd => ((mkRes rd pname).original_id, mkRes rd pname), rs) := by
  intro tl
  induction tl with
  | nil => intro d rs herr _ _ _; simp [phase1]
  | cons rd rest ih =>
      intro d rs herr hk hfresh hnd
      obtain ⟨k, hkk, hke⟩ := hk rd (List.mem_cons_self _ _)
      have hhash : rd.hash.isSome := oidOf_isSome_hash (by rw [hkk]; rfl)
      have hres : Resource.ofRaw rd pname = some (mkRes rd pname) :=
        ofRaw_of_hash pname hhash
      have hoid : ¬ (mkRes rd pname).original_id = "" := by
        rw [mkRes_origId pname hkk]
        exact hke
      rw [phase1_cons_ins env pname rd rest d rs herr _ hres hoid]
      have hins : dictInsert d (mkRes rd pname).original_id (mkRes rd pname)
          = d ++ [((mkRes rd pname).original_id, mkRes rd pname)] := by
        apply dictInsert_append
        intro kv hkv hkeq
        exact hfresh rd (List.mem_cons_self _ _) kv hkv
          (by rw [hkk, hkeq, mkRes_origId pname hkk])
      rw [hins]
      have hnd' : ((rest.map oidOf).Nodup) := by
        have := hnd
        simp only [List.map_cons, List.nodup_cons] at this
        exact this.2
      have hhd : oidOf rd ∉ rest.map oidOf := by
        have := hnd
        simp only [List.map_cons, List.nodup_cons] at this
        exact this.1
      rw [ih (d ++ [((mkRes rd pname).original_id, mkRes rd pname)]) rs herr
        (fun rd' h' => hk rd' (List.mem_cons_of_mem _ h'))
        ?_ hnd']
      · rw [List.append_assoc]
        rfl
      · intro rd' hrd' kv hkv
        rcases List.mem_append.mp hkv with h' | h'
        · exact hfresh rd' (List.mem_cons_of_mem _ hrd') kv h'
        · have hkv1 : kv = ((mkRes rd pname).original_id, mkRes rd pname) := by
            simpa using h'
          intro hcon
          apply hhd
          have : oidOf rd' = some k := by
            rw [hcon, hkv1]
            rw [mkRes_origId pname hkk]
          rw [hkk, ← this]
          exact List.mem_map.mpr ⟨rd', hrd', rfl⟩

/-- With a good dict, step 2 pops every entry and emits nothing. -/
theorem phase2_noop (env : Env) (pname : String) :
    ∀ (sl : List RawResource) (d : PyDict) (rs : RunState), rs.err = none →
    ((sl.map (·.id)).Nodup) →
    (∀ s ∈ sl, s.hash.isSome) →
    dictGood sl d →
    phase2 env pname sl d rs = ([], rs) := by
  intro sl
  induction sl with
  | nil =>
      intro d rs herr _ _ hd
      have hdnil : d = [] := by
        cases d with
        | nil => rfl
        | cons kv rest =>
            obtain ⟨s, hs, _⟩ := hd.2.1 kv (List.mem_cons_self _ _)
            cases hs
      rw [hdnil]
      rfl
  | cons s rest ih =>
      intro d rs herr hnd hhash hd
      have hres : Resource.ofRaw s pname = some (mkRes s pname) :=
        ofRaw_of_hash pname (hhash s (List.mem_cons_self _ _))
      obtain ⟨kv, hkv, hkvk⟩ := hd.2.2 s (List.mem_cons_self _ _)
      have hsome : (dictLookup d ((mkRes s pname).raw.id)).isSome :=
        dictLookup_isSome hkv hkvk
      obtain ⟨t_res, ht⟩ := Option.isSome_iff_exists.mp hsome
      have htmem : (s.id, t_res) ∈ d := lookup_mem ht
      obtain ⟨s', hs', hk1, hk2, hk3⟩ := hd.2.1 (s.id, t_res) htmem
      have hndid : s.id ∉ rest.map (·.id) ∧ ((rest.map (·.id)).Nodup) := by
        have := hnd
        simp only [List.map_cons, List.nodup_cons] at this
        exact this
      have hk1' : s.id = s'.id := hk1
      have hss : s' = s := by
        rcases List.mem_cons.mp hs' with h | h'
        · exact h
        · exfalso
          apply hndid.1
          rw [hk1']
          exact List.mem_map.mpr ⟨s', h', rfl⟩
      have hsame : t_res.same_as_source (mkRes s pname) = true := by
        subst hss
        simp only [Resource.same_as_source, decide_eq_true_eq]
        exact ⟨hk2, hk3⟩
      rw [phase2_cons_same env pname s rest d rs herr _ hres t_res ht hsame]
      apply ih (dictRemove d s.id) rs herr hndid.2
        (fun x hx => hhash x (List.mem_cons_of_mem _ hx))
      refine ⟨?_, ?_, ?_⟩
      · exact (((List.filter_sublist _).map _).nodup) hd.1
      · intro kv' hkv'
        have hmem := mem_dictRemove hkv'
        have hkne : ¬ kv'.1 = s.id := by
          have := List.of_mem_filter hkv'
          simpa using this
        obtain ⟨s'', hs'', hx1, hx2, hx3⟩ := hd.2.1 kv' hmem
        rcases List.mem_cons.mp hs'' with h | h
        · exact absurd (by rw [hx1, h]) hkne
        · exact ⟨s'', h, hx1, hx2, hx3⟩
      · intro s'' hs''
        obtain ⟨kv', hkv', hkk'⟩ := hd.2.2 s'' (List.mem_cons_of_mem _ hs'')
        refine ⟨kv', List.mem_filter.mpr ⟨hkv', ?_⟩, hkk'⟩
        have : ¬ s''.id = s.id := by
          intro hcon
          apply hndid.1
          rw [← hcon]
          exact List.mem_map.mpr ⟨s'', hs'', rfl⟩
        simp [hkk', this]

/-- A synced resource list is reconciled without a single API call or
file operation. -/
theorem spr_noop (env : Env) (sl tl : List RawResource) (pname : String)
    (rs : RunState) (herr : rs.err = none)
    (hsrc : srcResWF sl) (hsy : resSynced sl tl) :
    sync_package_resources env sl tl pname rs = rs := by
  have hk : ∀ rd ∈ tl, ∃ k, oidOf rd = some k ∧ ¬ k = "" := by
    intro rd hrd
    obtain ⟨s, hs, hm⟩ := hsy.1 rd hrd
    exact ⟨s.id, hm.1, (hsrc.2 s hs).1⟩
  have h1 := phase1_ident env pname tl [] rs herr hk
    (by intro rd _ kv hkv; cases hkv) hsy.2.2
  rw [List.nil_append] at h1
  set D := tl.map fun rd => ((mkRes rd pname).original_id, mkRes rd pname) with hD
  have hgood : dictGood sl D := by
    refine ⟨?_, ?_, ?_⟩
    · have hkeys : D.map (·.1) = (tl.map oidOf).map fun o => o.getD "" := by
        rw [hD, List.map_map, List.map_map]
        rfl
      rw [hkeys]
      apply nodup_getD_of_some ?_ hsy.2.2
      intro x hx
      obtain ⟨rd, hrd, hrdx⟩ := List.mem_map.mp hx
      obtain ⟨kk, hkk, _⟩ := hk rd hrd
      rw [← hrdx, hkk]
      rfl
    · intro kv hkv
      obtain ⟨rd, hrd, hrdkv⟩ := List.mem_map.mp hkv
      obtain ⟨s, hs, hm⟩ := hsy.1 rd hrd
      obtain ⟨rv, hrv⟩ := oidOf_origRev hm.1
      refine ⟨s, hs, ?_, ?_, ?_⟩
      · rw [← hrdkv]
        exact mkRes_origId pname hm.1
      · rw [← hrdkv]
        exact mkRes_origId pname hm.1
      · rw [← hrdkv]
        have hrev := mkRes_origRev pname hrv
        simp only
        rcases hm.2 with h | h
        · left
          rw [hrev]
          rw [hrv] at h
          exact Option.some.inj h
        · right
          rw [hrev]
          rw [hrv] at h
          exact Option.some.inj h
    · intro s hs
      obtain ⟨t, ht, hm⟩ := hsy.2.1 s hs
      exact ⟨((mkRes t pname).original_id, mkRes t pname),
        List.mem_map.mpr ⟨t, ht, rfl⟩, mkRes_origId pname hm.1⟩
  have h2 := phase2_noop env pname sl D rs herr hsrc.1
    (fun s hs => (hsrc.2 s hs).2.2) hgood
  have e2 : phase2 env pname sl (phase1 env pname tl [] rs).1
      (phase1 env pname tl [] rs).2 = ([], rs) := by
    rw [h1]
    exact h2
  rw [sync_package_resources_def, e2]
  rfl

/-- A synced package is reconciled without a single call. -/
theorem sync_package_noop (env : Env) (src : SourceCatalog) (pname : String)
    (rs : RunState) (herr : rs.err = none)
    (hsrc : srcWF src) (hp : pkgSynced src rs.st pname) :
    sync_package env src pname rs = rs := by
  obtain ⟨sp, tp, h1, h2, h3, h4⟩ := hp
  have hmem : (pname, sp) ∈ src.packages := by
    unfold SourceCatalog.getPackage at h1
    cases hf : src.packages.find? fun p => p.1 = pname with
    | none => rw [hf] at h1; cases h1
    | some kv =>
        rw [hf] at h1
        simp only [Option.map_some', Option.some.injEq] at h1
        have hm := List.mem_of_find?_eq_some hf
        have hk : kv.1 = pname := by
          have := List.find?_some hf
          simpa using this
        rw [← h1, ← hk]
        exact hm
  have hres : srcResWF sp.resources := hsrc.2.2.2.2.2 (pname, sp) hmem
  rw [sync_package_equal env src pname rs sp tp herr h1 h2 h3]
  exact spr_noop env sp.resources tp.resources pname rs herr hres h4

/-- A synced organization is reconciled without a single call. -/
theorem sync_org_noop (env : Env) (src : SourceCatalog) (n : String)
    (rs : RunState) (herr : rs.err = none) (ho : orgSynced src rs.st n) :
    sync_org env src n rs = rs := by
  obtain ⟨so, tgo, h1, h2, h3, h4⟩ := ho
  exact sync_org_same env src n rs so tgo herr h1 h2 h3 h4

/-- On a fully synced target, one entire full-sync run is the identity:
no API call, no download, no file removal. -/
theorem sync_full_noop (env : Env) (src : SourceCatalog) (st : TargetState)
    (tr : Trace) (hsrc : srcWF src) (hsy : synced src st) :
    sync_full env src ⟨st, tr, none⟩ = ⟨st, tr, none⟩ := by
  unfold sync_full sync_orgs_and_packages
  have horgs : src.orgNames.foldl (fun rs n => sync_org env src n rs) ⟨st, tr, none⟩
      = ⟨st, tr, none⟩ := by
    apply foldl_fix
    intro n hn
    exact sync_org_noop env src n ⟨st, tr, none⟩ rfl (hsy.1 n hn)
  have hpkgs : src.packageNames.foldl (fun rs n => sync_package env src n rs)
      ⟨st, tr, none⟩ = ⟨st, tr, none⟩ := by
    apply foldl_fix
    intro n hn
    exact sync_package_noop env src n ⟨st, tr, none⟩ rfl hsrc (hsy.2.1 n hn)
  simp only [horgs, hpkgs]
  apply foldl_fix
  intro n hn
  rw [if_pos]
  exact contains_iff_mem.mpr (hsy.2.2 n hn)

/-! ## Establishment: what one successful full sync leaves behind -/

theorem oidOf_of_hash {rd : RawResource} (h : rd.hash.isSome) :
    ∃ k, oidOf rd = some k := by
  obtain ⟨s, hs⟩ := Option.isSome_iff_exists.mp h
  obtain ⟨pr, hpr⟩ := parse_hash_isSome s
  refine ⟨pr.1, ?_⟩
  unfold oidOf
  rw [hs, hpr]
  rfl

theorem filter_nonempty_self {l : List RawResource}
    (h : ∀ x ∈ l, ¬ emptyMark x = true) :
    (l.filter fun rd => !emptyMark rd) = l := by
  apply List.filter_eq_self.mpr
  intro a ha
  simp [h a ha]

/-- Deleting a resource stored under this package leaves every other
package untouched. -/
theorem getPackage_delete_untouched {st : TargetState} {pname : String}
    {tp : TargetPackage} (hwf : stateWF st) (hget : st.getPackage pname = some tp)
    {rid : String} (hrid : rid ∈ tp.resources.map RawResource.id) :
    ∀ q, ¬ q = pname →
    (applyEffect (.resourceDelete rid) st).getPackage q = st.getPackage q := by
  intro q hq
  rw [getPackage_delete]
  cases hqg : st.getPackage q with
  | none => rfl
  | some tq =>
      simp only [Option.map_some']
      have hdisj := resIds_disjoint hwf hget hqg hq
      have hfix : tq.resources.filter (fun rd => !(rd.id = rid)) = tq.resources := by
        apply filter_id_ne
        intro rd hrd hcon
        exact hdisj rid hrid (by rw [← hcon]; exact List.mem_map.mpr ⟨rd, hrd, rfl⟩)
      rw [hfix]

/-- Updating a resource stored under this package leaves every other
package untouched. -/
theorem getPackage_update_untouched {st : TargetState} {pname : String}
    {tp : TargetPackage} (hwf : stateWF st) (hget : st.getPackage pname = some tp)
    (u : UploadDict) (b : Bool) (hid : u.id.getD "" ∈ tp.resources.map RawResource.id) :
    ∀ q, ¬ q = pname →
    (applyEffect (.resourceUpdate u b) st).getPackage q = st.getPackage q := by
  intro q hq
  have hup := getPackage_update st u q
  have hb : (applyEffect (.resourceUpdate u b) st).getPackage q
      = (st.getPackage q).map fun tp =>
          { tp with resources := tp.resources.map fun rd =>
              if rd.id = u.id.getD "" then rawOfUpload u rd.id else rd } := by
    cases b
    · exact hup.2
    · exact hup.1
  rw [hb]
  cases hqg : st.getPackage q with
  | none => rfl
  | some tq =>
      simp only [Option.map_some']
      have hdisj := resIds_disjoint hwf hget hqg hq
      have hfix : (tq.resources.map fun rd =>
          if rd.id = u.id.getD "" then rawOfUpload u rd.id else rd) = tq.resources := by
        apply map_update_ne
        intro rd hrd hcon
        exact hdisj (u.id.getD "") hid (by rw [← hcon]; exact List.mem_map.mpr ⟨rd, hrd, rfl⟩)
      rw [hfix]

theorem packages_keys_delete (st : TargetState) (rid : String) :
    (applyEffect (.resourceDelete rid) st).packages.map (·.1)
      = st.packages.map (·.1) := by
  simp only [applyEffect]
  rw [List.map_map]
  rfl

theorem packages_keys_update (st : TargetState) (u : UploadDict) (b : Bool) :
    (applyEffect (.resourceUpdate u b) st).packages.map (·.1)
      = st.packages.map (·.1) := by
  simp only [applyEffect]
  rw [List.map_map]
  rfl

theorem packages_keys_resCreate (st : TargetState) (u : UploadDict) (b : Bool) :
    (applyEffect (.resourceCreate u b) st).packages.map (·.1)
      = st.packages.map (·.1) := by
  simp only [applyEffect]
  exact updateAt_keys _ _ _

/-- Step 1 on a stored target list: the empty-marked resources are
deleted from the state (and from nowhere else), the rest are keyed into
the dict in order. `K` is the already-processed kept prefix. -/
theorem phase1_establish (pname : String) (M : PackageMetadata) :
    ∀ (tl K : List RawResource) (st : TargetState) (tr : Trace),
    stateWF st →
    st.getPackage pname = some ⟨M, K ++ tl⟩ →
    (∀ rd ∈ tl, rd.hash.isSome) →
    (∀ rd ∈ K, ¬ emptyMark rd = true ∧ rd.hash.isSome) →
    ((((K ++ tl).filter fun rd => !emptyMark rd).map oidOf).Nodup) →
    ∃ st' ext,
      phase1 noFail pname tl
          (K.map fun rd => ((mkRes rd pname).original_id, mkRes rd pname))
          ⟨st, tr, none⟩
        = (((K ++ tl.filter fun rd => !emptyMark rd).map
            fun rd => ((mkRes rd pname).original_id, mkRes rd pname)),
           ⟨st', tr ++ ext, none⟩) ∧
      stateWF st' ∧
      st'.getPackage pname = some ⟨M, K ++ tl.filter fun rd => !emptyMark rd⟩ ∧
      (∀ q, ¬ q = pname → st'.getPackage q = st.getPackage q) ∧
      st'.orgs = st.orgs ∧ st'.nextId = st.nextId ∧
      st'.packages.map (·.1) = st.packages.map (·.1) := by
  intro tl
  induction tl with
  | nil =>
      intro K st tr hwf hget hhash hK hnd
      refine ⟨st, [], ?_, hwf, by simpa using hget, fun q _ => rfl, rfl, rfl, rfl⟩
      simp [phase1]
  | cons rd rest ih =>
      intro K st tr hwf hget hhash hK hnd
      have hh : rd.hash.isSome := hhash rd (List.mem_cons_self _ _)
      have hres : Resource.ofRaw rd pname = some (mkRes rd pname) :=
        ofRaw_of_hash pname hh
      have hRnd : ((K ++ rd :: rest).map RawResource.id).Nodup :=
        resIds_nodup hwf hget
      have hRnd' : (K.map RawResource.id ++ rd.id :: rest.map RawResource.id).Nodup := by
        simpa using hRnd
      have hmid := List.nodup_middle.mp hRnd'
      have hrdK : rd.id ∉ K.map RawResource.id := by
        intro h
        exact (List.nodup_cons.mp hmid).1 (List.mem_append_left _ h)
      have hrdrest : rd.id ∉ rest.map RawResource.id := by
        intro h
        exact (List.nodup_cons.mp hmid).1 (List.mem_append_right _ h)
      cases hem : emptyMark rd with
      | true =>
          have hemm : oidOf rd = some "" := by
            have := hem
            simp only [emptyMark, decide_eq_true_eq] at this
            exact this
          have hoid : (mkRes rd pname).original_id = "" := mkRes_origId pname hemm
          rw [phase1_cons_del noFail pname rd rest _ _ rfl _ hres hoid]
          rw [emit_noFail _ _ rfl]
          have hget₁ : (applyEffect (.resourceDelete rd.id) st).getPackage pname
              = some ⟨M, K ++ rest⟩ := by
            rw [getPackage_delete, hget]
            simp only [Option.map_some']
            have h1 : (K ++ rd :: rest).filter (fun x => !(x.id = rd.id))
                = K ++ rest := by
              rw [List.filter_append]
              rw [filter_id_ne (fun x hx hc =>
                hrdK (by rw [← hc]; exact List.mem_map.mpr ⟨x, hx, rfl⟩))]
              rw [List.filter_cons_of_neg (by simp)]
              rw [filter_id_ne (fun x hx hc =>
                hrdrest (by rw [← hc]; exact List.mem_map.mpr ⟨x, hx, rfl⟩))]
            rw [h1]
          have hfilter : (rd :: rest).filter (fun x => !emptyMark x)
              = rest.filter fun x => !emptyMark x := by
            rw [List.filter_cons_of_neg (by simp [hem])]
          have hnd₁ : (((K ++ rest).filter fun x => !emptyMark x).map oidOf).Nodup := by
            have : (K ++ rd :: rest).filter (fun x => !emptyMark x)
                = (K ++ rest).filter fun x => !emptyMark x := by
              rw [List.filter_append, List.filter_append, hfilter]
            rw [← this]
            exact hnd
          obtain ⟨st', ext, heq, hwf', hget', hq', ho', hn', hm'⟩ :=
            ih K (applyEffect (.resourceDelete rd.id) st) (tr ++ [.resourceDelete rd.id])
              (stateWF_delete st rd.id hwf) hget₁
              (fun x hx => hhash x (List.mem_cons_of_mem _ hx)) hK hnd₁
          refine ⟨st', .resourceDelete rd.id :: ext, ?_, hwf', ?_, ?_, ?_, ?_, ?_⟩
          · rw [heq]
            rw [hfilter]
            rw [List.append_assoc]
            rfl
          · rw [hget', hfilter]
          · intro q hq
            rw [hq' q hq]
            exact getPackage_delete_untouched hwf hget
              (by simp) q hq
          · rw [ho']
            rfl
          · rw [hn']
            rfl
          · rw [hm']
            exact packages_keys_delete st rd.id
      | false =>
          have hne : ¬ oidOf rd = some "" := by
            intro hcon
            rw [show emptyMark rd = true by simp [emptyMark, hcon]] at hem
            cases hem
          obtain ⟨k, hkk⟩ := oidOf_of_hash hh
          have hke : ¬ k = "" := fun hc => hne (by rw [hkk, hc])
          have hoid : ¬ (mkRes rd pname).original_id = "" := by
            rw [mkRes_origId pname hkk]
            exact hke
          rw [phase1_cons_ins noFail pname rd rest _ _ rfl _ hres hoid]
          have hKfix : K.filter (fun x => !emptyMark x) = K :=
            filter_nonempty_self fun x hx => (hK x hx).1
          have hfilsplit : (K ++ rd :: rest).filter (fun x => !emptyMark x)
              = K ++ rd :: rest.filter fun x => !emptyMark x := by
            rw [List.filter_append, hKfix, List.filter_cons_of_pos (by simp [hem])]
          have hndsplit : ((K.map oidOf)
              ++ oidOf rd :: (rest.filter fun x => !emptyMark x).map oidOf).Nodup := by
            have := hnd
            rw [hfilsplit] at this
            simpa using this
          have hins : dictInsert
              (K.map fun x => ((mkRes x pname).original_id, mkRes x pname))
              (mkRes rd pname).original_id (mkRes rd pname)
              = (K ++ [rd]).map fun x => ((mkRes x pname).original_id, mkRes x pname) := by
            rw [List.map_append]
            apply dictInsert_append
            intro kv hkv hkeq
            obtain ⟨x, hx, hxe⟩ := List.mem_map.mp hkv
            obtain ⟨k', hk'⟩ := oidOf_of_hash (hK x hx).2
            have hx1 : kv.1 = k' := by
              rw [← hxe]
              exact mkRes_origId pname hk'
            have hxrd : oidOf x = oidOf rd := by
              rw [hk', hkk]
              rw [hx1] at hkeq
              rw [hkeq, mkRes_origId pname hkk]
            exact (List.nodup_append.mp hndsplit).2.2
              (List.mem_map.mpr ⟨x, hx, rfl⟩)
              (by rw [hxrd]; exact List.mem_cons_self _ _)
          rw [hins]
          have hget₂ : st.getPackage pname = some ⟨M, (K ++ [rd]) ++ rest⟩ := by
            rw [hget]
            simp
          have hK₂ : ∀ x ∈ K ++ [rd], ¬ emptyMark x = true ∧ x.hash.isSome := by
            intro x hx
            rcases List.mem_append.mp hx with h | h
            · exact hK x h
            · have : x = rd := by simpa using h
              rw [this]
              exact ⟨by rw [hem]; simp, hh⟩
          have hnd₂ : ((((K ++ [rd]) ++ rest).filter fun x => !emptyMark x).map
              oidOf).Nodup := by
            have : ((K ++ [rd]) ++ rest) = K ++ rd :: rest := by simp
            rw [this]
            exact hnd
          obtain ⟨st', ext, heq, hwf', hget', hq', ho', hn', hm'⟩ :=
            ih (K ++ [rd]) st tr hwf hget₂
              (fun x hx => hhash x (List.mem_cons_of_mem _ hx)) hK₂ hnd₂
          have hlist : (K ++ [rd]) ++ rest.filter (fun x => !emptyMark x)
              = K ++ (rd :: rest).filter fun x => !emptyMark x := by
            rw [List.filter_cons_of_pos (by simp [hem])]
            simp
          refine ⟨st', ext, ?_, hwf', ?_, hq', ho', hn', hm'⟩
          · rw [heq, hlist]
          · rw [hget', hlist]

/-- The three events of an upload-typed create or update collapse into
one state effect and a three-event trace suffix. -/
theorem emit_up_chain (f : String) (e : Event) (st : TargetState) (tr : Trace) :
    emit noFail (.fileRemove f) (emit noFail e (emit noFail (.download f) ⟨st, tr, none⟩))
      = ⟨applyEffect e st, tr ++ [.download f, e, .fileRemove f], none⟩ := by
  have ha : emit noFail (.download f) ⟨st, tr, none⟩
      = ⟨st, tr ++ [Event.download f], none⟩ := by
    rw [emit_noFail _ _ rfl]
    rfl
  have hb : emit noFail e ⟨st, tr ++ [Event.download f], none⟩
      = ⟨applyEffect e st, (tr ++ [Event.download f]) ++ [e], none⟩ :=
    emit_noFail e _ rfl
  have hc : emit noFail (.fileRemove f)
      ⟨applyEffect e st, (tr ++ [Event.download f]) ++ [e], none⟩
      = ⟨applyEffect (.fileRemove f) (applyEffect e st),
         ((tr ++ [Event.download f]) ++ [e]) ++ [Event.fileRemove f], none⟩ :=
    emit_noFail _ _ rfl
  rw [ha, hb, hc]
  simp only [RunState.mk.injEq]
  refine ⟨rfl, by simp, trivial⟩

/-- A created or updated resource stores the freshly built marker, which
parses back to the source id and revision. -/
theorem rawOfUpload_marker (s : RawResource) (u : UploadDict) (rid : String)
    (hc : ∀ c ∈ s.id.data, ¬ c = ':')
    (hu : u.hash = s.id ++ ":" ++ s.revision_id) :
    oidOf (rawOfUpload u rid) = some s.id ∧
    (parse_hash (rawOfUpload u rid).hash).map (·.2) = some s.revision_id ∧
    (rawOfUpload u rid).id = rid ∧ (rawOfUpload u rid).hash.isSome := by
  have hh : (rawOfUpload u rid).hash = some (s.id ++ ":" ++ s.revision_id) := by
    simp [rawOfUpload, hu]
  refine ⟨?_, ?_, rfl, by rw [hh]; rfl⟩
  · unfold oidOf
    rw [hh, parse_hash_marker s.id s.revision_id hc]
    rfl
  · rw [hh, parse_hash_marker s.id s.revision_id hc]
    rfl

/-- A kept target resource (`same_as_source`) carries a matching marker. -/
theorem resMatch_of_same {s : RawResource} {t_res : Resource} {pname : String}
    (hmk : t_res = mkRes t_res.raw pname)
    (hoid : oidOf t_res.raw = some s.id)
    (hsame : t_res.same_as_source (mkRes s pname) = true) :
    resMatch s t_res.raw := by
  simp only [Resource.same_as_source, decide_eq_true_eq] at hsame
  obtain ⟨rv, hrv⟩ := oidOf_origRev hoid
  have hrev : t_res.original_revision = rv := by
    rw [hmk]
    exact mkRes_origRev pname hrv
  refine ⟨hoid, ?_⟩
  have h2 : t_res.original_revision = s.revision_id ∨
      t_res.original_revision = s.last_modified := hsame.2
  rcases h2 with h | h
  · left
    rw [hrv]
    exact congrArg some (by rw [← hrev]; exact h)
  · right
    rw [hrv]
    exact congrArg some (by rw [← hrev]; exact h)

/-- The invariant carried through step 2: the dict keys are exactly the
unmatched stored markers, every stored resource is either referenced by
the dict or matched by a processed source resource, and stored markers
stay pairwise distinct and non-empty. -/
structure P2Inv (pname : String) (P : List RawResource) (d : PyDict)
    (R : List RawResource) : Prop where
  dmk : ∀ kv ∈ d, kv.2 = mkRes kv.2.raw pname
  draw : ∀ kv ∈ d, kv.2.raw ∈ R
  doid : ∀ kv ∈ d, oidOf kv.2.raw = some kv.1 ∧ ¬ kv.1 = ""
  dkeys : ((d.map (·.1)).Nodup)
  dnotP : ∀ kv ∈ d, kv.1 ∉ P.map (·.id)
  part : ∀ rd ∈ R, (∃ kv ∈ d, rd = kv.2.raw) ∨ ∃ s ∈ P, resMatch s rd
  cover : ∀ s ∈ P, ∃ rd ∈ R, resMatch s rd
  roid : ((R.map oidOf).Nodup)
  rsome : ∀ rd ∈ R, ∃ k, oidOf rd = some k ∧ ¬ k = ""

/-- Step 2 on a well-formed source list: every source resource ends up
stored with a fresh faithful marker (created, updated, or kept), every
other package is untouched, and the run stays error-free. -/
theorem phase2_establish (pname : String) (M : PackageMetadata) :
    ∀ (slr P : List RawResource) (d : PyDict) (st : TargetState) (tr : Trace)
      (R : List RawResource),
    stateWF st →
    st.getPackage pname = some ⟨M, R⟩ →
    (((P ++ slr).map (·.id)).Nodup) →
    (∀ s ∈ P ++ slr, ¬ s.id = "" ∧ (∀ c ∈ s.id.data, ¬ c = ':') ∧ s.hash.isSome) →
    P2Inv pname P d R →
    ∃ st' ext d' R',
      phase2 noFail pname slr d ⟨st, tr, none⟩ = (d', ⟨st', tr ++ ext, none⟩) ∧
      stateWF st' ∧
      st'.getPackage pname = some ⟨M, R'⟩ ∧
      P2Inv pname (P ++ slr) d' R' ∧
      (∀ q, ¬ q = pname → st'.getPackage q = st.getPackage q) ∧
      st'.orgs = st.orgs ∧
      st'.packages.map (·.1) = st.packages.map (·.1) := by
  intro slr
  induction slr with
  | nil =>
      intro P d st tr R hwf hget hnd hsw hinv
      refine ⟨st, [], d, R, by simp [phase2], hwf, hget, ?_, fun q _ => rfl, rfl, rfl⟩
      rw [List.append_nil]
      exact hinv
  | cons s rest ih =>
      intro P d st tr R hwf hget hnd hsw hinv
      have hs := hsw s (by simp)
      have hres : Resource.ofRaw s pname = some (mkRes s pname) :=
        ofRaw_of_hash pname hs.2.2
      have hPs : (P ++ [s]) ++ rest = P ++ s :: rest := by simp
      have hnd' : (((P ++ [s]) ++ rest).map (·.id)).Nodup := by
        rw [hPs]
        exact hnd
      have hsw' : ∀ x ∈ (P ++ [s]) ++ rest,
          ¬ x.id = "" ∧ (∀ c ∈ x.id.data, ¬ c = ':') ∧ x.hash.isSome := by
        rw [hPs]
        exact hsw
      have hsid_notP : s.id ∉ P.map (·.id) := by
        have hnd0 : (P.map (·.id) ++ s.id :: rest.map (·.id)).Nodup := by
          have h1 : ((P ++ s :: rest).map fun x => x.id)
              = P.map (·.id) ++ s.id :: rest.map (·.id) := by simp
          rw [← h1]
          exact hnd
        intro hmem
        exact (List.nodup_cons.mp (List.nodup_middle.mp hnd0)).1
          (List.mem_append_left _ hmem)
      cases hlk : dictLookup d s.id with
      | none =>
          -- create path
          have hmark := rawOfUpload_marker s ((mkRes s pname).for_upload)
            (freshId st.nextId) hs.2.1 rfl
          have hmatch : resMatch s
              (rawOfUpload ((mkRes s pname).for_upload) (freshId st.nextId)) :=
            ⟨hmark.1, Or.inl hmark.2.1⟩
          obtain ⟨b, ext0, hstep⟩ : ∃ b ext0,
              phase2 noFail pname (s :: rest) d ⟨st, tr, none⟩
                = phase2 noFail pname rest d
                    ⟨applyEffect (.resourceCreate ((mkRes s pname).for_upload) b) st,
                     tr ++ ext0, none⟩ := by
            by_cases hupt : (mkRes s pname).raw.url_type = "upload"
            · refine ⟨true, [.download (mkRes s pname).create_filename,
                .resourceCreate (mkRes s pname).for_upload true,
                .fileRemove (mkRes s pname).create_filename], ?_⟩
              rw [phase2_cons_create_up noFail pname s rest d ⟨st, tr, none⟩
                rfl _ hres hlk hupt]
              rw [emit_up_chain]
            · refine ⟨false, [.resourceCreate (mkRes s pname).for_upload false], ?_⟩
              rw [phase2_cons_create_link noFail pname s rest d ⟨st, tr, none⟩
                rfl _ hres hlk hupt]
              rw [emit_noFail _ _ rfl]
          have hwf₁ : stateWF
              (applyEffect (.resourceCreate ((mkRes s pname).for_upload) b) st) :=
            stateWF_resCreate st _ b hwf
          have hget₁ : (applyEffect (.resourceCreate ((mkRes s pname).for_upload) b) st).getPackage
              pname = some ⟨M, R ++ [rawOfUpload ((mkRes s pname).for_upload)
                (freshId st.nextId)]⟩ := by
            have h := getPackage_resCreate_eq st ((mkRes s pname).for_upload) b
            rw [show ((mkRes s pname).for_upload).package_id.getD "" = pname from rfl] at h
            rw [h, hget]
            rfl
          have hnotR : ∀ rd ∈ R, ¬ oidOf rd = some s.id := by
            intro rd hrd hcon
            rcases hinv.part rd hrd with ⟨kv, hkv, hkveq⟩ | ⟨s', hs', hm⟩
            · have h1 := (hinv.doid kv hkv).1
              rw [← hkveq, hcon] at h1
              exact dictLookup_key_of_none hlk kv hkv (Option.some.inj h1).symm
            · have h1 : oidOf rd = some s'.id := hm.1
              rw [hcon] at h1
              have h2 : s.id = s'.id := Option.some.inj h1
              exact hsid_notP (by rw [h2]; exact List.mem_map.mpr ⟨s', hs', rfl⟩)
          have hinvNew : P2Inv pname (P ++ [s]) d
              (R ++ [rawOfUpload ((mkRes s pname).for_upload) (freshId st.nextId)]) := by
            refine ⟨hinv.dmk, ?_, hinv.doid, hinv.dkeys, ?_, ?_, ?_, ?_, ?_⟩
            · intro kv hkv
              exact List.mem_append_left _ (hinv.draw kv hkv)
            · intro kv hkv
              intro hmem
              rw [List.map_append] at hmem
              rcases List.mem_append.mp hmem with h | h
              · exact hinv.dnotP kv hkv h
              · have : kv.1 = s.id := by simpa using h
                exact dictLookup_key_of_none hlk kv hkv this
            · intro rd hrd
              rcases List.mem_append.mp hrd with h | h
              · rcases hinv.part rd h with ⟨kv, hkv, he⟩ | ⟨s', hs', hm⟩
                · exact Or.inl ⟨kv, hkv, he⟩
                · exact Or.inr ⟨s', List.mem_append_left _ hs', hm⟩
              · have heq : rd = rawOfUpload ((mkRes s pname).for_upload)
                    (freshId st.nextId) := by simpa using h
                exact Or.inr ⟨s, List.mem_append_right _ (by simp),
                  by rw [heq]; exact hmatch⟩
            · intro s' hs'
              rcases List.mem_append.mp hs' with h | h
              · obtain ⟨rd, hrd, hm⟩ := hinv.cover s' h
                exact ⟨rd, List.mem_append_left _ hrd, hm⟩
              · have heq : s' = s := by simpa using h
                subst heq
                exact ⟨_, List.mem_append_right _ (by simp), hmatch⟩
            · rw [List.map_append]
              refine List.Nodup.append hinv.roid (by simp) ?_
              intro x hx hx2
              have hx2' : x = oidOf (rawOfUpload ((mkRes s pname).for_upload)
                  (freshId st.nextId)) := by simpa using hx2
              obtain ⟨rd, hrd, hrdx⟩ := List.mem_map.mp hx
              apply hnotR rd hrd
              rw [hrdx, hx2', hmark.1]
            · intro rd hrd
              rcases List.mem_append.mp hrd with h | h
              · exact hinv.rsome rd h
              · have heq : rd = rawOfUpload ((mkRes s pname).for_upload)
                    (freshId st.nextId) := by simpa using h
                exact ⟨s.id, by rw [heq]; exact hmark.1, hs.1⟩
          obtain ⟨st', ext', d', R', heq, hwf', hget', hinv', hq', ho', hm'⟩ :=
            ih (P ++ [s]) d
              (applyEffect (.resourceCreate ((mkRes s pname).for_upload) b) st)
              (tr ++ ext0)
              (R ++ [rawOfUpload ((mkRes s pname).for_upload) (freshId st.nextId)])
              hwf₁ hget₁ hnd' hsw' hinvNew
          rw [hPs] at hinv'
          refine ⟨st', ext0 ++ ext', d', R', ?_, hwf', hget', hinv', ?_, ?_, ?_⟩
          · rw [hstep, heq, List.append_assoc]
          · intro q hq
            rw [hq' q hq]
            exact getPackage_resCreate_ne st _ b q hq
          · rw [ho']
            rfl
          · rw [hm']
            exact packages_keys_resCreate st _ b
      | some t_res =>
          have htmem : (s.id, t_res) ∈ d := lookup_mem hlk
          have htmk : t_res = mkRes t_res.raw pname := hinv.dmk _ htmem
          have htraw : t_res.raw ∈ R := hinv.draw _ htmem
          have htoid : oidOf t_res.raw = some s.id := (hinv.doid _ htmem).1
          have hkv_unique : ∀ kv ∈ d, kv.1 = s.id → kv = (s.id, t_res) := by
            intro kv hkv hk
            exact List.inj_on_of_nodup_map hinv.dkeys hkv htmem (by rw [hk])
          have hd₂mk : ∀ kv ∈ dictRemove d s.id, kv.2 = mkRes kv.2.raw pname :=
            fun kv hkv => hinv.dmk kv (mem_dictRemove hkv)
          have hd₂key : ∀ kv ∈ dictRemove d s.id, ¬ kv.1 = s.id := by
            intro kv hkv
            have := List.of_mem_filter hkv
            simpa using this
          have hd₂ne : ∀ kv ∈ dictRemove d s.id, ¬ kv.2.raw = t_res.raw := by
            intro kv hkv hcon
            apply hd₂key kv hkv
            have h1 := (hinv.doid kv (mem_dictRemove hkv)).1
            rw [hcon, htoid] at h1
            exact (Option.some.inj h1).symm
          have hd₂keys : (((dictRemove d s.id).map (·.1)).Nodup) :=
            ((List.filter_sublist _).map _).nodup hinv.dkeys
          have hd₂notP : ∀ kv ∈ dictRemove d s.id,
              kv.1 ∉ (P ++ [s]).map (·.id) := by
            intro kv hkv hmem
            rw [List.map_append] at hmem
            rcases List.mem_append.mp hmem with h | h
            · exact hinv.dnotP kv (mem_dictRemove hkv) h
            · exact hd₂key kv hkv (by simpa using h)
          by_cases hsame : t_res.same_as_source (mkRes s pname) = true
          · -- keep path
            have hmatch : resMatch s t_res.raw := resMatch_of_same htmk htoid hsame
            rw [phase2_cons_same noFail pname s rest d ⟨st, tr, none⟩
              rfl _ hres t_res hlk hsame]
            have hinvNew : P2Inv pname (P ++ [s]) (dictRemove d s.id) R := by
              refine ⟨hd₂mk, ?_, ?_, hd₂keys, hd₂notP, ?_, ?_, hinv.roid, hinv.rsome⟩
              · intro kv hkv
                exact hinv.draw kv (mem_dictRemove hkv)
              · intro kv hkv
                exact hinv.doid kv (mem_dictRemove hkv)
              · intro rd hrd
                rcases hinv.part rd hrd with ⟨kv, hkv, he⟩ | ⟨s', hs', hm⟩
                · by_cases hk : kv.1 = s.id
                  · have hkveq := hkv_unique kv hkv hk
                    have he' : rd = t_res.raw := by rw [he, hkveq]
                    exact Or.inr ⟨s, List.mem_append_right _ (by simp),
                      by rw [he']; exact hmatch⟩
                  · exact Or.inl ⟨kv, List.mem_filter.mpr ⟨hkv, by simp [hk]⟩, he⟩
                · exact Or.inr ⟨s', List.mem_append_left _ hs', hm⟩
              · intro s' hs'
                rcases List.mem_append.mp hs' with h | h
                · obtain ⟨rd, hrd, hm⟩ := hinv.cover s' h
                  exact ⟨rd, hrd, hm⟩
                · have heq : s' = s := by simpa using h
                  subst heq
                  exact ⟨t_res.raw, htraw, hmatch⟩
            obtain ⟨st', ext', d', R', heq, hwf', hget', hinv', hq', ho', hm'⟩ :=
              ih (P ++ [s]) (dictRemove d s.id) st tr R hwf hget hnd' hsw' hinvNew
            rw [hPs] at hinv'
            exact ⟨st', ext', d', R', heq, hwf', hget', hinv', hq', ho', hm'⟩
          · -- update path
            obtain ⟨u, b, ext0, hu, hstep⟩ : ∃ (u : UploadDict) (b : Bool) (ext0 : Trace),
                u = { (mkRes s pname).for_upload with id := some t_res.raw.id } ∧
                phase2 noFail pname (s :: rest) d ⟨st, tr, none⟩
                  = phase2 noFail pname rest (dictRemove d s.id)
                      ⟨applyEffect (.resourceUpdate u b) st, tr ++ ext0, none⟩ := by
              by_cases hupt : (mkRes s pname).raw.url_type = "upload"
              · refine ⟨_, true, [.download (mkRes s pname).create_filename,
                  .resourceUpdate
                    { (mkRes s pname).for_upload with id := some t_res.raw.id } true,
                  .fileRemove (mkRes s pname).create_filename], rfl, ?_⟩
                rw [phase2_cons_update_up noFail pname s rest d ⟨st, tr, none⟩
                  rfl _ hres t_res hlk hsame hupt]
                rw [emit_up_chain]
                rfl
              · refine ⟨_, false, [.resourceUpdate
                  { (mkRes s pname).for_upload with id := some t_res.raw.id } false],
                  rfl, ?_⟩
                rw [phase2_cons_update_link noFail pname s rest d ⟨st, tr, none⟩
                  rfl _ hres t_res hlk hsame hupt]
                rw [emit_noFail _ _ rfl]
                rfl
            have huid : u.id.getD "" = t_res.raw.id := by rw [hu]; rfl
            have huhash : u.hash = s.id ++ ":" ++ s.revision_id := by rw [hu]; rfl
            have hmark := rawOfUpload_marker s u t_res.raw.id hs.2.1 huhash
            have hmatchU : resMatch s (rawOfUpload u t_res.raw.id) :=
              ⟨hmark.1, Or.inl hmark.2.1⟩
            have hRid := resIds_nodup hwf hget
            have hgne : ∀ rd ∈ R, ¬ rd = t_res.raw →
                (if rd.id = u.id.getD "" then rawOfUpload u rd.id else rd) = rd := by
              intro rd hrd hne
              apply if_neg
              intro hc
              rw [huid] at hc
              exact hne (List.inj_on_of_nodup_map hRid hrd htraw hc)
            have hg_traw : (if t_res.raw.id = u.id.getD ""
                then rawOfUpload u t_res.raw.id else t_res.raw)
                = rawOfUpload u t_res.raw.id := if_pos huid.symm
            have hget₂ : (applyEffect (.resourceUpdate u b) st).getPackage pname
                = some ⟨M, R.map fun rd =>
                    if rd.id = u.id.getD "" then rawOfUpload u rd.id else rd⟩ := by
              have hub : (applyEffect (.resourceUpdate u b) st).getPackage pname
                  = (st.getPackage pname).map fun tp =>
                      { tp with resources := tp.resources.map fun rd =>
                          if rd.id = u.id.getD "" then rawOfUpload u rd.id else rd } := by
                cases b
                · exact (getPackage_update st u pname).2
                · exact (getPackage_update st u pname).1
              rw [hub, hget]
              rfl
            have hoidg : ∀ rd ∈ R,
                oidOf (if rd.id = u.id.getD "" then rawOfUpload u rd.id else rd)
                  = oidOf rd := by
              intro rd hrd
              by_cases hne : rd = t_res.raw
              · subst hne
                rw [hg_traw, hmark.1, htoid]
              · rw [hgne rd hrd hne]
            have hmapoid : ((R.map fun rd =>
                if rd.id = u.id.getD "" then rawOfUpload u rd.id else rd).map oidOf)
                  = R.map oidOf := by
              rw [List.map_map]
              exact List.map_congr_left fun rd hrd => hoidg rd hrd
            have hinvNew : P2Inv pname (P ++ [s]) (dictRemove d s.id)
                (R.map fun rd =>
                  if rd.id = u.id.getD "" then rawOfUpload u rd.id else rd) := by
              refine ⟨hd₂mk, ?_, ?_, hd₂keys, hd₂notP, ?_, ?_, ?_, ?_⟩
              · intro kv hkv
                have hraw := hinv.draw kv (mem_dictRemove hkv)
                exact List.mem_map.mpr
                  ⟨kv.2.raw, hraw, hgne kv.2.raw hraw (hd₂ne kv hkv)⟩
              · intro kv hkv
                exact hinv.doid kv (mem_dictRemove hkv)
              · intro rd' hrd'
                obtain ⟨rd, hrd, hge⟩ := List.mem_map.mp hrd'
                by_cases hne : rd = t_res.raw
                · subst hne
                  rw [hg_traw] at hge
                  exact Or.inr ⟨s, List.mem_append_right _ (by simp), hge ▸ hmatchU⟩
                · rw [hgne rd hrd hne] at hge
                  subst hge
                  rcases hinv.part rd hrd with ⟨kv, hkv, he⟩ | ⟨s', hs', hm⟩
                  · by_cases hk : kv.1 = s.id
                    · exact absurd (by rw [he, hkv_unique kv hkv hk]) hne
                    · exact Or.inl ⟨kv, List.mem_filter.mpr ⟨hkv, by simp [hk]⟩, he⟩
                  · exact Or.inr ⟨s', List.mem_append_left _ hs', hm⟩
              · intro s' hs'
                rcases List.mem_append.mp hs' with h | h
                · obtain ⟨rd, hrd, hm⟩ := hinv.cover s' h
                  have hne : ¬ rd = t_res.raw := by
                    intro hcon
                    have h1 : oidOf rd = some s'.id := hm.1
                    rw [hcon, htoid] at h1
                    apply hsid_notP
                    rw [Option.some.inj h1]
                    exact List.mem_map.mpr ⟨s', h, rfl⟩
                  exact ⟨rd, List.mem_map.mpr ⟨rd, hrd, hgne rd hrd hne⟩, hm⟩
                · have heq : s' = s := by simpa using h
                  subst heq
                  exact ⟨_, List.mem_map.mpr ⟨t_res.raw, htraw, hg_traw⟩, hmatchU⟩
              · rw [hmapoid]
                exact hinv.roid
              · intro rd' hrd'
                obtain ⟨rd, hrd, hge⟩ := List.mem_map.mp hrd'
                obtain ⟨k, hk, hke⟩ := hinv.rsome rd hrd
                exact ⟨k, by rw [← hge, hoidg rd hrd]; exact hk, hke⟩
            obtain ⟨st', ext', d', R', heq, hwf', hget', hinv', hq', ho', hm'⟩ :=
              ih (P ++ [s]) (dictRemove d s.id)
                (applyEffect (.resourceUpdate u b) st)
                (tr ++ ext0) _ (stateWF_update st u b hwf) hget₂ hnd' hsw' hinvNew
            rw [hPs] at hinv'
            refine ⟨st', ext0 ++ ext', d', R', ?_, hwf', hget', hinv', ?_, ?_, ?_⟩
            · rw [hstep, heq, List.append_assoc]
            · intro q hq
              rw [hq' q hq]
              exact getPackage_update_untouched hwf hget u b
                (by rw [huid]; exact List.mem_map.mpr ⟨t_res.raw, htraw, rfl⟩) q hq
            · rw [ho']
              rfl
            · rw [hm']
              exact packages_keys_update st u b

/-- Step 3: the leftover dict values are deleted from the stored list
(and from nowhere else). -/
theorem phase3_establish (pname : String) (M : PackageMetadata) :
    ∀ (vs : List Resource) (st : TargetState) (tr : Trace) (R : List RawResource),
    stateWF st →
    st.getPackage pname = some ⟨M, R⟩ →
    (∀ v ∈ vs, v.raw ∈ R) →
    (((vs.map fun v => v.raw.id).Nodup)) →
    ∃ st' ext,
      phase3 noFail vs ⟨st, tr, none⟩ = ⟨st', tr ++ ext, none⟩ ∧
      stateWF st' ∧
      st'.getPackage pname = some ⟨M, R.filter fun rd =>
        !(decide (rd.id ∈ vs.map fun v => v.raw.id))⟩ ∧
      (∀ q, ¬ q = pname → st'.getPackage q = st.getPackage q) ∧
      st'.orgs = st.orgs ∧
      st'.packages.map (·.1) = st.packages.map (·.1) := by
  intro vs
  induction vs with
  | nil =>
      intro st tr R hwf hget _ _
      refine ⟨st, [], by simp [phase3], hwf, ?_, fun q _ => rfl, rfl, rfl⟩
      rw [hget]
      have : (R.filter fun rd =>
          !(decide (rd.id ∈ ([] : List Resource).map fun v => v.raw.id))) = R := by
        apply List.filter_eq_self.mpr
        intro a _
        simp
      rw [this]
  | cons v rest ih =>
      intro st tr R hwf hget hvs hnd
      have hvids : v.raw.id ∉ rest.map fun x => x.raw.id := by
        have := hnd
        simp only [List.map_cons, List.nodup_cons] at this
        exact this.1
      have hnd' : ((rest.map fun x => x.raw.id).Nodup) := by
        have := hnd
        simp only [List.map_cons, List.nodup_cons] at this
        exact this.2
      have hstep : phase3 noFail (v :: rest) ⟨st, tr, none⟩
          = phase3 noFail rest ⟨applyEffect (.resourceDelete v.raw.id) st,
              tr ++ [.resourceDelete v.raw.id], none⟩ := by
        simp only [phase3]
        rw [emit_noFail _ _ rfl]
      have hget₁ : (applyEffect (.resourceDelete v.raw.id) st).getPackage pname
          = some ⟨M, R.filter fun rd => !(rd.id = v.raw.id)⟩ := by
        rw [getPackage_delete, hget]
        rfl
      have hvs₁ : ∀ x ∈ rest, x.raw ∈ R.filter fun rd => !(rd.id = v.raw.id) := by
        intro x hx
        refine List.mem_filter.mpr ⟨hvs x (List.mem_cons_of_mem _ hx), ?_⟩
        simp only [Bool.not_eq_eq_eq_not, Bool.not_true, decide_eq_false_iff_not]
        intro hcon
        exact hvids (by rw [← hcon]; exact List.mem_map.mpr ⟨x, hx, rfl⟩)
      obtain ⟨st', ext, heq, hwf', hget', hq', ho', hm'⟩ :=
        ih (applyEffect (.resourceDelete v.raw.id) st)
          (tr ++ [.resourceDelete v.raw.id]) _
          (stateWF_delete st v.raw.id hwf) hget₁ hvs₁ hnd'
      refine ⟨st', .resourceDelete v.raw.id :: ext, ?_, hwf', ?_, ?_, ?_, ?_⟩
      · rw [hstep, heq]
        rw [List.append_assoc]
        rfl
      · rw [hget']
        have hff : ((R.filter fun rd => !(rd.id = v.raw.id)).filter fun rd =>
            !(decide (rd.id ∈ rest.map fun x => x.raw.id)))
            = R.filter fun rd =>
                !(decide (rd.id ∈ (v :: rest).map fun x => x.raw.id)) := by
          rw [List.filter_filter]
          apply List.filter_congr
          intro a _
          by_cases h1 : a.id = v.raw.id <;>
            by_cases h2 : a.id ∈ rest.map fun x => x.raw.id <;>
              simp [h1, h2]
        rw [hff]
      · intro q hq
        rw [hq' q hq]
        exact getPackage_delete_untouched hwf hget
          (List.mem_map.mpr ⟨v.raw, hvs v (List.mem_cons_self _ _), rfl⟩) q hq
      · rw [ho']
        rfl
      · rw [hm']
        exact packages_keys_delete st v.raw.id

/-- Reconciling a well-formed stored list against a well-formed source
list succeeds and leaves the resources in sync, touching no other
package. -/
theorem spr_establish (pname : String) (M : PackageMetadata)
    (sl tl : List RawResource) (st : TargetState) (tr : Trace)
    (hwf : stateWF st)
    (hget : st.getPackage pname = some ⟨M, tl⟩)
    (hsl : srcResWF sl)
    (htl : tgtResWF tl) :
    ∃ st' ext R',
      sync_package_resources noFail sl tl pname ⟨st, tr, none⟩
        = ⟨st', tr ++ ext, none⟩ ∧
      stateWF st' ∧
      st'.getPackage pname = some ⟨M, R'⟩ ∧
      resSynced sl R' ∧
      (∀ q, ¬ q = pname → st'.getPackage q = st.getPackage q) ∧
      st'.orgs = st.orgs ∧
      st'.packages.map (·.1) = st.packages.map (·.1) := by
  obtain ⟨st₁, ext₁, heq₁, hwf₁, hget₁, hq₁, ho₁, hn₁, hm₁⟩ :=
    phase1_establish pname M tl [] st tr hwf (by rw [hget, List.nil_append]) htl.1
      (by intro rd h; cases h) (by simpa using htl.2)
  rw [show (List.map (fun rd => ((mkRes rd pname).original_id, mkRes rd pname))
      ([] : List RawResource)) = ([] : PyDict) from rfl] at heq₁
  rw [List.nil_append] at heq₁ hget₁
  have hFmem : ∀ rd ∈ tl.filter (fun x => !emptyMark x),
      rd ∈ tl ∧ emptyMark rd = false := by
    intro rd hrd
    refine ⟨List.mem_of_mem_filter hrd, ?_⟩
    have := List.of_mem_filter hrd
    simpa using this
  have hF : ∀ rd ∈ tl.filter (fun x => !emptyMark x),
      ∃ k, oidOf rd = some k ∧ ¬ k = "" := by
    intro rd hrd
    obtain ⟨hmem, hem⟩ := hFmem rd hrd
    obtain ⟨k, hk⟩ := oidOf_of_hash (htl.1 rd hmem)
    refine ⟨k, hk, ?_⟩
    intro hke
    rw [show emptyMark rd = true by simp [emptyMark]; rw [hk, hke]] at hem
    cases hem
  have hFnd : (((tl.filter fun x => !emptyMark x).map oidOf).Nodup) := htl.2
  have hinv₁ : P2Inv pname [] ((tl.filter fun x => !emptyMark x).map
      fun rd => ((mkRes rd pname).original_id, mkRes rd pname))
      (tl.filter fun x => !emptyMark x) := by
    refine ⟨?_, ?_, ?_, ?_, ?_, ?_, ?_, hFnd, hF⟩
    · intro kv hkv
      obtain ⟨rd, hrd, he⟩ := List.mem_map.mp hkv
      rw [← he]
      rfl
    · intro kv hkv
      obtain ⟨rd, hrd, he⟩ := List.mem_map.mp hkv
      rw [← he]
      exact hrd
    · intro kv hkv
      obtain ⟨rd, hrd, he⟩ := List.mem_map.mp hkv
      obtain ⟨k, hk, hke⟩ := hF rd hrd
      rw [← he]
      constructor
      · rw [mkRes_origId pname hk]
        exact hk
      · rw [mkRes_origId pname hk]
        exact hke
    · have hkeys : (((tl.filter fun x => !emptyMark x).map
          fun rd => ((mkRes rd pname).original_id, mkRes rd pname)).map (·.1))
          = ((tl.filter fun x => !emptyMark x).map oidOf).map fun o => o.getD "" := by
        rw [List.map_map, List.map_map]
        rfl
      rw [hkeys]
      apply nodup_getD_of_some ?_ hFnd
      intro x hx
      obtain ⟨rd, hrd, he⟩ := List.mem_map.mp hx
      obtain ⟨k, hk, _⟩ := hF rd hrd
      rw [← he, hk]
      rfl
    · intro kv _
      simp
    · intro rd hrd
      exact Or.inl ⟨((mkRes rd pname).original_id, mkRes rd pname),
        List.mem_map.mpr ⟨rd, hrd, rfl⟩, rfl⟩
    · intro s hs
      cases hs
  obtain ⟨st₂, ext₂, d₂, R₂, heq₂, hwf₂, hget₂, hinv₂, hq₂, ho₂, hm₂⟩ :=
    phase2_establish pname M sl []
      ((tl.filter fun x => !emptyMark x).map
        fun rd => ((mkRes rd pname).original_id, mkRes rd pname))
      st₁ (tr ++ ext₁) (tl.filter fun x => !emptyMark x)
      hwf₁ hget₁ (by rw [List.nil_append]; exact hsl.1)
      (by rw [List.nil_append]; exact hsl.2) hinv₁
  rw [List.nil_append] at hinv₂
  have hR₂id := resIds_nodup hwf₂ hget₂
  have hvsmem : ∀ x ∈ dictValues d₂, x.raw ∈ R₂ := by
    intro x hx
    obtain ⟨kv, hkv, he⟩ := List.mem_map.mp hx
    rw [← he]
    exact hinv₂.draw kv hkv
  have hvsnd : (((dictValues d₂).map fun x => x.raw.id).Nodup) := by
    unfold dictValues
    rw [List.map_map]
    apply List.Nodup.map_on ?_ (hinv₂.dkeys.of_map _)
    intro kv hkv kv' hkv' he
    have h1 : kv.2.raw = kv'.2.raw :=
      List.inj_on_of_nodup_map hR₂id (hinv₂.draw kv hkv) (hinv₂.draw kv' hkv') he
    have h2 := (hinv₂.doid kv hkv).1
    have h3 := (hinv₂.doid kv' hkv').1
    rw [h1, h3] at h2
    have hk : kv.1 = kv'.1 := (Option.some.inj h2).symm
    exact List.inj_on_of_nodup_map hinv₂.dkeys hkv hkv' hk
  obtain ⟨st₃, ext₃, heq₃, hwf₃, hget₃, hq₃, ho₃, hm₃⟩ :=
    phase3_establish pname M (dictValues d₂) st₂ ((tr ++ ext₁) ++ ext₂) R₂
      hwf₂ hget₂ hvsmem hvsnd
  have e1 : phase1 noFail pname tl [] ⟨st, tr, none⟩
      = ((tl.filter fun x => !emptyMark x).map
          (fun rd => ((mkRes rd pname).original_id, mkRes rd pname)),
         ⟨st₁, tr ++ ext₁, none⟩) := heq₁
  have e2 : phase2 noFail pname sl (phase1 noFail pname tl [] ⟨st, tr, none⟩).1
      (phase1 noFail pname tl [] ⟨st, tr, none⟩).2
      = (d₂, ⟨st₂, (tr ++ ext₁) ++ ext₂, none⟩) := by
    rw [e1]
    exact heq₂
  refine ⟨st₃, ext₁ ++ (ext₂ ++ ext₃),
    R₂.filter (fun rd => !(decide (rd.id ∈ (dictValues d₂).map fun v => v.raw.id))),
    ?_, hwf₃, hget₃, ?_, ?_, ?_, ?_⟩
  · rw [sync_package_resources_def, e2]
    rw [heq₃]
    simp [List.append_assoc]
  · refine ⟨?_, ?_, ?_⟩
    · intro t ht
      have htR := List.mem_of_mem_filter ht
      have htp := List.of_mem_filter ht
      simp only [Bool.not_eq_eq_eq_not, Bool.not_true, decide_eq_false_iff_not] at htp
      rcases hinv₂.part t htR with ⟨kv, hkv, he⟩ | ⟨s, hsm, hm⟩
      · exfalso
        apply htp
        refine List.mem_map.mpr ⟨kv.2, ?_, by rw [he]⟩
        exact List.mem_map.mpr ⟨kv, hkv, rfl⟩
      · exact ⟨s, hsm, hm⟩
    · intro s hsm
      obtain ⟨rd, hrd, hm⟩ := hinv₂.cover s hsm
      refine ⟨rd, List.mem_filter.mpr ⟨hrd, ?_⟩, hm⟩
      simp only [Bool.not_eq_eq_eq_not, Bool.not_true, decide_eq_false_iff_not]
      intro hcon
      obtain ⟨v, hv, hve⟩ := List.mem_map.mp hcon
      obtain ⟨kv, hkv, hkve⟩ := List.mem_map.mp hv
      have h1 : kv.2.raw = rd := by
        apply List.inj_on_of_nodup_map hR₂id (hinv₂.draw kv hkv) hrd
        rw [show kv.2.raw.id = v.raw.id by rw [hkve], hve]
      have h2 := (hinv₂.doid kv hkv).1
      rw [h1, hm.1] at h2
      apply hinv₂.dnotP kv hkv
      rw [(Option.some.inj h2).symm]
      exact List.mem_map.mpr ⟨s, hsm, rfl⟩
    · exact (((List.filter_sublist _).map _).nodup) hinv₂.roid
  · intro q hq
    rw [hq₃ q hq, hq₂ q hq, hq₁ q hq]
  · rw [ho₃, ho₂, ho₁]
  · rw [hm₃, hm₂, hm₁]

/-! ## Establishment at the organization level -/

theorem sync_image_def (env : Env) (n : String) (u : String) (rs : RunState) :
    sync_image env n u rs
      = emit env (.fileRemove (imageNameOf u))
          (emit env (.orgPatchImage n (imageNameOf u))
            (emit env (.download (imageNameOf u)) rs)) := rfl

/-- The canonical form read back from a stored organization ignores the
stored image name. -/
theorem orgOfRaw_toRaw_img (m : Organization) (i i' : String) :
    Organization.ofRaw (TargetOrg.toRaw ⟨m, i⟩)
      = Organization.ofRaw (TargetOrg.toRaw ⟨m, i'⟩) := rfl

/-- One `sync_org` call on a well-formed source organization leaves that
organization synced, touches no other organization and no package. -/
theorem sync_org_establish (src : SourceCatalog) (n : String) (so : RawOrg)
    (st : TargetState) (tr : Trace)
    (hwf : stateWF st)
    (hfind : src.getOrg n = some so)
    (hname : scalarGet (Organization.ofRaw so).scalars "name" = some n) :
    ∃ st' ext,
      sync_org noFail src n ⟨st, tr, none⟩ = ⟨st', tr ++ ext, none⟩ ∧
      stateWF st' ∧
      orgSynced src st' n ∧
      (∀ q, ¬ q = n → st'.getOrg q = st.getOrg q) ∧
      st'.packages = st.packages ∧ st'.nextId = st.nextId := by
  have hkey : (scalarGet (Organization.ofRaw so).scalars "name").getD "" = n := by
    rw [hname]
    rfl
  have hslash := imageName_no_slash so.image_display_url
  have himgrt : imageNameOf ("uploads/" ++ uploadStamp
      ++ imageNameOf so.image_display_url) = imageNameOf so.image_display_url :=
    imageName_roundtrip _ hslash
  cases ht : st.getOrg n with
  | none =>
      rw [sync_org_create noFail src n ⟨st, tr, none⟩ so rfl hfind ht]
      rw [show emit noFail (.orgCreate (Organization.ofRaw so)) ⟨st, tr, none⟩
          = ⟨applyEffect (.orgCreate (Organization.ofRaw so)) st,
             tr ++ [.orgCreate (Organization.ofRaw so)], none⟩
        from emit_noFail _ _ rfl]
      rw [sync_image_def, emit_up_chain]
      have habs : st.getOrg ((scalarGet (Organization.ofRaw so).scalars "name").getD "")
          = none := by
        rw [hkey]
        exact ht
      have hwf₁ := stateWF_orgCreate st (Organization.ofRaw so) habs hwf
      have hwf₂ := stateWF_orgPatch
        (applyEffect (.orgCreate (Organization.ofRaw so)) st)
        (.orgPatchImage n (imageNameOf so.image_display_url))
        (Or.inr ⟨n, _, rfl⟩) hwf₁
      have hget₁ : (applyEffect (.orgCreate (Organization.ofRaw so)) st).getOrg n
          = some ⟨Organization.ofRaw so, ""⟩ := by
        rw [getOrg_orgCreate, if_pos ht, if_pos hkey.symm]
      have hgetn : (applyEffect
          (.orgPatchImage n (imageNameOf so.image_display_url))
          (applyEffect (.orgCreate (Organization.ofRaw so)) st)).getOrg n
          = some ⟨Organization.ofRaw so, imageNameOf so.image_display_url⟩ := by
        rw [getOrg_patchImage_eq, hget₁]
        rfl
      refine ⟨_, _, by rw [List.append_assoc], hwf₂, ?_, ?_, ?_, ?_⟩
      · refine ⟨so, ⟨Organization.ofRaw so, imageNameOf so.image_display_url⟩,
          hfind, hgetn, (org_roundtrip so _).symm, ?_⟩
        rw [show (TargetOrg.toRaw ⟨Organization.ofRaw so,
            imageNameOf so.image_display_url⟩).image_display_url
          = "uploads/" ++ uploadStamp ++ imageNameOf so.image_display_url from rfl]
        rw [himgrt]
      · intro q hq
        rw [getOrg_patchImage_ne _ _ _ q hq, getOrg_orgCreate]
        cases hqg : st.getOrg q with
        | some tq => rw [if_neg (fun h => Option.noConfusion h)]
        | none =>
            rw [if_pos rfl, if_neg (by rw [hkey]; exact hq)]
      · rw [(applyEffect_org_packages _ _ (Or.inr (Or.inr (Or.inl ⟨_, _, rfl⟩)))).1,
            (applyEffect_org_packages _ _ (Or.inl ⟨_, rfl⟩)).1]
      · rw [(applyEffect_org_packages _ _ (Or.inr (Or.inr (Or.inl ⟨_, _, rfl⟩)))).2,
            (applyEffect_org_packages _ _ (Or.inl ⟨_, rfl⟩)).2]
  | some tgo =>
      by_cases hmeta : Organization.ofRaw so = Organization.ofRaw tgo.toRaw
      · by_cases himg : imageNameOf so.image_display_url
            = imageNameOf tgo.toRaw.image_display_url
        · rw [sync_org_same noFail src n ⟨st, tr, none⟩ so tgo rfl hfind ht hmeta himg]
          exact ⟨st, [], by rw [List.append_nil], hwf,
            ⟨so, tgo, hfind, ht, hmeta, himg⟩, fun q _ => rfl, rfl, rfl⟩
        · rw [sync_org_image_only noFail src n ⟨st, tr, none⟩ so tgo rfl hfind ht
            hmeta himg]
          rw [sync_image_def, emit_up_chain]
          have hwf₂ := stateWF_orgPatch st
            (.orgPatchImage n (imageNameOf so.image_display_url))
            (Or.inr ⟨n, _, rfl⟩) hwf
          have hgetn : (applyEffect
              (.orgPatchImage n (imageNameOf so.image_display_url)) st).getOrg n
              = some { tgo with imageName := imageNameOf so.image_display_url } := by
            rw [getOrg_patchImage_eq, ht]
            rfl
          refine ⟨_, _, rfl, hwf₂, ?_, ?_, ?_, ?_⟩
          · refine ⟨so, { tgo with imageName := imageNameOf so.image_display_url },
              hfind, hgetn, ?_, ?_⟩
            · rw [show Organization.ofRaw (TargetOrg.toRaw
                  { tgo with imageName := imageNameOf so.image_display_url })
                = Organization.ofRaw tgo.toRaw from rfl]
              exact hmeta
            · rw [show (TargetOrg.toRaw { tgo with
                  imageName := imageNameOf so.image_display_url }).image_display_url
                = "uploads/" ++ uploadStamp ++ imageNameOf so.image_display_url from rfl]
              rw [himgrt]
          · intro q hq
            exact getOrg_patchImage_ne _ _ _ q hq
          · exact (applyEffect_org_packages _ _ (Or.inr (Or.inr (Or.inl ⟨_, _, rfl⟩)))).1
          · exact (applyEffect_org_packages _ _ (Or.inr (Or.inr (Or.inl ⟨_, _, rfl⟩)))).2
      · by_cases himg : imageNameOf so.image_display_url
            = imageNameOf tgo.toRaw.image_display_url
        · rw [sync_org_meta_only noFail src n ⟨st, tr, none⟩ so tgo rfl hfind ht
            hmeta himg]
          rw [show emit noFail (.orgPatchMeta (Organization.ofRaw so)) ⟨st, tr, none⟩
              = ⟨applyEffect (.orgPatchMeta (Organization.ofRaw so)) st,
                 tr ++ [.orgPatchMeta (Organization.ofRaw so)], none⟩
            from emit_noFail _ _ rfl]
          have hwf₂ := stateWF_orgPatch st
            (.orgPatchMeta (Organization.ofRaw so)) (Or.inl ⟨_, rfl⟩) hwf
          have hgetn : (applyEffect (.orgPatchMeta (Organization.ofRaw so)) st).getOrg n
              = some { tgo with meta := Organization.ofRaw so } := by
            have h := getOrg_patchMeta_eq st (Organization.ofRaw so)
            rw [hkey] at h
            rw [h, ht]
            rfl
          refine ⟨_, _, rfl, hwf₂, ?_, ?_, ?_, ?_⟩
          · refine ⟨so, { tgo with meta := Organization.ofRaw so }, hfind, hgetn, ?_, ?_⟩
            · exact (org_roundtrip so tgo.imageName).symm
            · rw [show (TargetOrg.toRaw { tgo with
                  meta := Organization.ofRaw so }).image_display_url
                = tgo.toRaw.image_display_url from rfl]
              exact himg
          · intro q hq
            exact getOrg_patchMeta_ne _ _ q (by rw [hkey]; exact hq)
          · exact (applyEffect_org_packages _ _ (Or.inr (Or.inl ⟨_, rfl⟩))).1
          · exact (applyEffect_org_packages _ _ (Or.inr (Or.inl ⟨_, rfl⟩))).2
        · rw [sync_org_meta_image noFail src n ⟨st, tr, none⟩ so tgo rfl hfind ht
            hmeta himg]
          rw [show emit noFail (.orgPatchMeta (Organization.ofRaw so)) ⟨st, tr, none⟩
              = ⟨applyEffect (.orgPatchMeta (Organization.ofRaw so)) st,
                 tr ++ [.orgPatchMeta (Organization.ofRaw so)], none⟩
            from emit_noFail _ _ rfl]
          rw [sync_image_def, emit_up_chain]
          have hwf₁ := stateWF_orgPatch st
            (.orgPatchMeta (Organization.ofRaw so)) (Or.inl ⟨_, rfl⟩) hwf
          have hwf₂ := stateWF_orgPatch
            (applyEffect (.orgPatchMeta (Organization.ofRaw so)) st)
            (.orgPatchImage n (imageNameOf so.image_display_url))
            (Or.inr ⟨n, _, rfl⟩) hwf₁
          have hget₁ : (applyEffect (.orgPatchMeta (Organization.ofRaw so)) st).getOrg n
              = some { tgo with meta := Organization.ofRaw so } := by
            have h := getOrg_patchMeta_eq st (Organization.ofRaw so)
            rw [hkey] at h
            rw [h, ht]
            rfl
          have hgetn : (applyEffect
              (.orgPatchImage n (imageNameOf so.image_display_url))
              (applyEffect (.orgPatchMeta (Organization.ofRaw so)) st)).getOrg n
              = some ⟨Organization.ofRaw so, imageNameOf so.image_display_url⟩ := by
            rw [getOrg_patchImage_eq, hget₁]
            rfl
          refine ⟨_, _, by rw [List.append_assoc], hwf₂, ?_, ?_, ?_, ?_⟩
          · refine ⟨so, ⟨Organization.ofRaw so, imageNameOf so.image_display_url⟩,
              hfind, hgetn, (org_roundtrip so _).symm, ?_⟩
            rw [show (TargetOrg.toRaw ⟨Organization.ofRaw so,
                imageNameOf so.image_display_url⟩).image_display_url
              = "uploads/" ++ uploadStamp ++ imageNameOf so.image_display_url from rfl]
            rw [himgrt]
          · intro q hq
            rw [getOrg_patchImage_ne _ _ _ q hq]
            exact getOrg_patchMeta_ne _ _ q (by rw [hkey]; exact hq)
          · rw [(applyEffect_org_packages _ _ (Or.inr (Or.inr (Or.inl ⟨_, _, rfl⟩)))).1,
                (applyEffect_org_packages _ _ (Or.inr (Or.inl ⟨_, rfl⟩))).1]
          · rw [(applyEffect_org_packages _ _ (Or.inr (Or.inr (Or.inl ⟨_, _, rfl⟩)))).2,
                (applyEffect_org_packages _ _ (Or.inr (Or.inl ⟨_, rfl⟩))).2]

/-- The organization loop of a full sync: afterwards every processed
organization is synced; packages are untouched. -/
theorem orgs_phase (src : SourceCatalog) :
    ∀ (l : List String) (st : TargetState) (tr : Trace),
    stateWF st →
    l.Nodup →
    (∀ n ∈ l, ∃ so, src.getOrg n = some so ∧
      scalarGet (Organization.ofRaw so).scalars "name" = some n) →
    ∃ st' ext,
      l.foldl (fun rs n => sync_org noFail src n rs) ⟨st, tr, none⟩
        = ⟨st', tr ++ ext, none⟩ ∧
      stateWF st' ∧
      (∀ n ∈ l, orgSynced src st' n) ∧
      (∀ q, q ∉ l → st'.getOrg q = st.getOrg q) ∧
      st'.packages = st.packages ∧ st'.nextId = st.nextId := by
  intro l
  induction l with
  | nil =>
      intro st tr hwf _ _
      exact ⟨st, [], by simp, hwf, by simp, fun q _ => rfl, rfl, rfl⟩
  | cons n rest ih =>
      intro st tr hwf hnd hl
      obtain ⟨so, hfind, hname⟩ := hl n (by simp)
      obtain ⟨st₁, ext₁, heq₁, hwf₁, hsy₁, hq₁, hp₁, hn₁⟩ :=
        sync_org_establish src n so st tr hwf hfind hname
      obtain ⟨st₂, ext₂, heq₂, hwf₂, hsy₂, hq₂, hp₂, hn₂⟩ :=
        ih st₁ (tr ++ ext₁) hwf₁ ((List.nodup_cons.mp hnd).2)
          fun m hm => hl m (List.mem_cons_of_mem _ hm)
      refine ⟨st₂, ext₁ ++ ext₂, ?_, hwf₂, ?_, ?_, ?_, ?_⟩
      · simp only [List.foldl_cons]
        rw [heq₁, heq₂, List.append_assoc]
      · intro m hm
        rcases List.mem_cons.mp hm with rfl | hm'
        · exact orgSynced_congr (hq₂ m (List.nodup_cons.mp hnd).1) hsy₁
        · exact hsy₂ m hm'
      · intro q hq
        rw [hq₂ q fun h => hq (List.mem_cons_of_mem _ h),
            hq₁ q fun h => hq (by rw [h]; exact List.mem_cons_self _ _)]
      · rw [hp₂, hp₁]
      · rw [hn₂, hn₁]

/-! ## Establishment at the package level -/

/-- The canonical form read back from a stored package ignores the
stored resource list. -/
theorem pkgOfRaw_toRaw_res (m : PackageMetadata) (R R' : List RawResource) :
    PackageMetadata.ofRaw (TargetPackage.toRaw ⟨m, R⟩)
      = PackageMetadata.ofRaw (TargetPackage.toRaw ⟨m, R'⟩) := rfl

theorem getPackage_congr {st₁ st₂ : TargetState}
    (h : st₁.packages = st₂.packages) (n : String) :
    st₁.getPackage n = st₂.getPackage n := by
  unfold TargetState.getPackage
  rw [h]

theorem getOrg_congr {st₁ st₂ : TargetState}
    (h : st₁.orgs = st₂.orgs) (n : String) :
    st₁.getOrg n = st₂.getOrg n := by
  unfold TargetState.getOrg
  rw [h]

theorem getOrg_exists {src : SourceCatalog} {n : String} (h : n ∈ src.orgNames) :
    ∃ so, src.getOrg n = some so ∧ (n, so) ∈ src.orgs := by
  unfold SourceCatalog.getOrg
  cases hf : src.orgs.find? fun p => p.1 = n with
  | none =>
      exfalso
      obtain ⟨p, hp, hpe⟩ := List.mem_map.mp h
      have := List.find?_eq_none.mp hf p hp
      simp only [decide_eq_true_eq] at this
      exact this hpe
  | some kv =>
      have hm := List.mem_of_find?_eq_some hf
      have hk : kv.1 = n := by
        have := List.find?_some hf
        simpa using this
      refine ⟨kv.2, rfl, ?_⟩
      rw [← hk]
      exact hm

theorem getPackage_exists {src : SourceCatalog} {n : String}
    (h : n ∈ src.packageNames) :
    ∃ sp, src.getPackage n = some sp ∧ (n, sp) ∈ src.packages := by
  unfold SourceCatalog.getPackage
  cases hf : src.packages.find? fun p => p.1 = n with
  | none =>
      exfalso
      obtain ⟨p, hp, hpe⟩ := List.mem_map.mp h
      have := List.find?_eq_none.mp hf p hp
      simp only [decide_eq_true_eq] at this
      exact this hpe
  | some kv =>
      have hm := List.mem_of_find?_eq_some hf
      have hk : kv.1 = n := by
        have := List.find?_some hf
        simpa using this
      refine ⟨kv.2, rfl, ?_⟩
      rw [← hk]
      exact hm

/-- One `sync_package` call on a well-formed, non-deleted source package
leaves that package synced, touches no other package and no
organization, and adds at most the package's own name. -/
theorem sync_package_establish (src : SourceCatalog) (pname : String)
    (sp : RawPackage) (st : TargetState) (tr : Trace)
    (hwf : stateWF st)
    (hfind : src.getPackage pname = some sp)
    (hname : scalarGet (PackageMetadata.ofRaw sp).scalars "name" = some pname)
    (hstate : ¬ scalarGet (PackageMetadata.ofRaw sp).scalars "state" = some "deleted")
    (hres : srcResWF sp.resources)
    (htl : ∀ tp, st.getPackage pname = some tp → tgtResWF tp.resources) :
    ∃ st' ext,
      sync_package noFail src pname ⟨st, tr, none⟩ = ⟨st', tr ++ ext, none⟩ ∧
      stateWF st' ∧
      pkgSynced src st' pname ∧
      (∀ q, ¬ q = pname → st'.getPackage q = st.getPackage q) ∧
      st'.orgs = st.orgs ∧
      ∀ q, q ∈ st'.packages.map (·.1) → q ∈ st.packages.map (·.1) ∨ q = pname := by
  have hkey : (scalarGet (PackageMetadata.ofRaw sp).scalars "name").getD "" = pname := by
    rw [hname]
    rfl
  cases ht : st.getPackage pname with
  | none =>
      rw [sync_package_create noFail src pname ⟨st, tr, none⟩ sp rfl hfind ht]
      rw [show emit noFail (.packageCreate (PackageMetadata.ofRaw sp)) ⟨st, tr, none⟩
          = ⟨applyEffect (.packageCreate (PackageMetadata.ofRaw sp)) st,
             tr ++ [.packageCreate (PackageMetadata.ofRaw sp)], none⟩
        from emit_noFail _ _ rfl]
      have habs : st.getPackage
          ((scalarGet (PackageMetadata.ofRaw sp).scalars "name").getD "") = none := by
        rw [hkey]
        exact ht
      have hwf₁ := stateWF_pkgCreate st (PackageMetadata.ofRaw sp) habs hwf
      have hget₁ : (applyEffect (.packageCreate (PackageMetadata.ofRaw sp)) st).getPackage
          pname = some ⟨PackageMetadata.ofRaw sp, []⟩ := by
        rw [getPackage_pkgCreate, if_pos ht, if_pos hkey.symm]
      obtain ⟨st₂, ext₂, R', heq₂, hwf₂, hget₂, hrsync, hq₂, ho₂, hm₂⟩ :=
        spr_establish pname (PackageMetadata.ofRaw sp) sp.resources []
          (applyEffect (.packageCreate (PackageMetadata.ofRaw sp)) st)
          (tr ++ [.packageCreate (PackageMetadata.ofRaw sp)])
          hwf₁ hget₁ hres ⟨(by intro rd h; cases h), by simp⟩
      refine ⟨st₂, .packageCreate (PackageMetadata.ofRaw sp) :: ext₂, ?_, hwf₂,
        ?_, ?_, ?_, ?_⟩
      · rw [heq₂, List.append_assoc]
        rfl
      · exact ⟨sp, ⟨PackageMetadata.ofRaw sp, R'⟩, hfind, hget₂,
          (pkg_roundtrip sp R').symm, hrsync⟩
      · intro q hq
        rw [hq₂ q hq, getPackage_pkgCreate]
        cases hqg : st.getPackage q with
        | some tq => rw [if_neg (fun h => Option.noConfusion h)]
        | none => rw [if_pos rfl, if_neg (by rw [hkey]; exact hq)]
      · rw [ho₂]
        rfl
      · intro q hq
        rw [hm₂] at hq
        have : (applyEffect (.packageCreate (PackageMetadata.ofRaw sp)) st).packages.map
            (·.1) = st.packages.map (·.1)
              ++ [(scalarGet (PackageMetadata.ofRaw sp).scalars "name").getD ""] := by
          simp [applyEffect]
        rw [this, hkey] at hq
        rcases List.mem_append.mp hq with h | h
        · exact Or.inl h
        · exact Or.inr (by simpa using h)
  | some tp =>
      have htres : tgtResWF tp.resources := htl tp ht
      by_cases hmeta : PackageMetadata.ofRaw sp = PackageMetadata.ofRaw tp.toRaw
      · rw [sync_package_equal noFail src pname ⟨st, tr, none⟩ sp tp rfl hfind ht hmeta]
        obtain ⟨st₂, ext₂, R', heq₂, hwf₂, hget₂, hrsync, hq₂, ho₂, hm₂⟩ :=
          spr_establish pname tp.meta sp.resources tp.resources st tr
            hwf ht hres htres
        refine ⟨st₂, ext₂, heq₂, hwf₂, ?_, hq₂, ho₂, ?_⟩
        · refine ⟨sp, ⟨tp.meta, R'⟩, hfind, hget₂, ?_, hrsync⟩
          exact hmeta.trans (pkgOfRaw_toRaw_res tp.meta tp.resources R')
        · intro q hq
          rw [hm₂] at hq
          exact Or.inl hq
      · rw [sync_package_patch noFail src pname ⟨st, tr, none⟩ sp tp rfl hfind ht
          hmeta hstate]
        rw [show emit noFail (.packagePatch (PackageMetadata.ofRaw sp)) ⟨st, tr, none⟩
            = ⟨applyEffect (.packagePatch (PackageMetadata.ofRaw sp)) st,
               tr ++ [.packagePatch (PackageMetadata.ofRaw sp)], none⟩
          from emit_noFail _ _ rfl]
        have hwf₁ := stateWF_pkgPatch st (PackageMetadata.ofRaw sp) hwf
        have hget₁ : (applyEffect (.packagePatch (PackageMetadata.ofRaw sp)) st).getPackage
            pname = some ⟨PackageMetadata.ofRaw sp, tp.resources⟩ := by
          have h := getPackage_pkgPatch_eq st (PackageMetadata.ofRaw sp)
          rw [hkey] at h
          rw [h, ht]
          rfl
        obtain ⟨st₂, ext₂, R', heq₂, hwf₂, hget₂, hrsync, hq₂, ho₂, hm₂⟩ :=
          spr_establish pname (PackageMetadata.ofRaw sp) sp.resources tp.resources
            (applyEffect (.packagePatch (PackageMetadata.ofRaw sp)) st)
            (tr ++ [.packagePatch (PackageMetadata.ofRaw sp)])
            hwf₁ hget₁ hres htres
        refine ⟨st₂, .packagePatch (PackageMetadata.ofRaw sp) :: ext₂, ?_, hwf₂,
          ?_, ?_, ?_, ?_⟩
        · rw [heq₂, List.append_assoc]
          rfl
        · exact ⟨sp, ⟨PackageMetadata.ofRaw sp, R'⟩, hfind, hget₂,
            (pkg_roundtrip sp R').symm, hrsync⟩
        · intro q hq
          rw [hq₂ q hq]
          exact getPackage_pkgPatch_ne st _ q (by rw [hkey]; exact hq)
        · rw [ho₂]
          rfl
        · intro q hq
          rw [hm₂] at hq
          have : (applyEffect (.packagePatch (PackageMetadata.ofRaw sp)) st).packages.map
              (·.1) = st.packages.map (·.1) := by
            simp only [applyEffect]
            exact updateAt_keys _ _ _
          rw [this] at hq
          exact Or.inl hq

/-- The package loop of a full sync: afterwards every processed package
is synced; organizations are untouched; only processed names are added. -/
theorem pkgs_phase (src : SourceCatalog) (st₀ : TargetState)
    (htl₀ : ∀ p ∈ st₀.packages, tgtResWF p.2.resources) :
    ∀ (l : List String) (st : TargetState) (tr : Trace),
    stateWF st →
    l.Nodup →
    (∀ n ∈ l, ∃ sp, src.getPackage n = some sp ∧
      scalarGet (PackageMetadata.ofRaw sp).scalars "name" = some n ∧
      ¬ scalarGet (PackageMetadata.ofRaw sp).scalars "state" = some "deleted" ∧
      srcResWF sp.resources) →
    (∀ n ∈ l, st.getPackage n = st₀.getPackage n) →
    ∃ st' ext,
      l.foldl (fun rs n => sync_package noFail src n rs) ⟨st, tr, none⟩
        = ⟨st', tr ++ ext, none⟩ ∧
      stateWF st' ∧
      (∀ n ∈ l, pkgSynced src st' n) ∧
      (∀ q, q ∉ l → st'.getPackage q = st.getPackage q) ∧
      st'.orgs = st.orgs ∧
      ∀ q, q ∈ st'.packages.map (·.1) → q ∈ st.packages.map (·.1) ∨ q ∈ l := by
  intro l
  induction l with
  | nil =>
      intro st tr hwf _ _ _
      exact ⟨st, [], by simp, hwf, by simp, fun q _ => rfl, rfl, fun q hq => Or.inl hq⟩
  | cons n rest ih =>
      intro st tr hwf hnd hl hrem
      obtain ⟨sp, hfind, hname, hstate, hres⟩ := hl n (by simp)
      have htl : ∀ tp, st.getPackage n = some tp → tgtResWF tp.resources := by
        intro tp htp
        rw [hrem n (by simp)] at htp
        exact htl₀ (n, tp) (getPackage_mem htp)
      obtain ⟨st₁, ext₁, heq₁, hwf₁, hsy₁, hq₁, ho₁, hm₁⟩ :=
        sync_package_establish src n sp st tr hwf hfind hname hstate hres htl
      have hnrest : n ∉ rest := (List.nodup_cons.mp hnd).1
      obtain ⟨st₂, ext₂, heq₂, hwf₂, hsy₂, hq₂, ho₂, hm₂⟩ :=
        ih st₁ (tr ++ ext₁) hwf₁ ((List.nodup_cons.mp hnd).2)
          (fun m hm => hl m (List.mem_cons_of_mem _ hm))
          (by
            intro m hm
            rw [hq₁ m (fun h => hnrest (h ▸ hm))]
            exact hrem m (List.mem_cons_of_mem _ hm))
      refine ⟨st₂, ext₁ ++ ext₂, ?_, hwf₂, ?_, ?_, ?_, ?_⟩
      · simp only [List.foldl_cons]
        rw [heq₁, heq₂, List.append_assoc]
      · intro m hm
        rcases List.mem_cons.mp hm with rfl | hm'
        · exact pkgSynced_congr (hq₂ m hnrest) hsy₁
        · exact hsy₂ m hm'
      · intro q hq
        rw [hq₂ q fun h => hq (List.mem_cons_of_mem _ h),
            hq₁ q fun h => hq (by rw [h]; exact List.mem_cons_self _ _)]
      · rw [ho₂, ho₁]
      · intro q hq
        rcases hm₂ q hq with h | h
        · rcases hm₁ q h with h' | h'
          · exact Or.inl h'
          · exact Or.inr (by rw [h']; exact List.mem_cons_self _ _)
        · exact Or.inr (List.mem_cons_of_mem _ h)

/-- The final purge loop of a full sync: synced packages survive, and
every name of the processed list that the source does not list is gone
afterwards. -/
theorem purge_phase (src : SourceCatalog) :
    ∀ (l : List String) (st : TargetState) (tr : Trace),
    stateWF st →
    (∀ n ∈ src.packageNames, pkgSynced src st n) →
    ∃ st' ext,
      l.foldl (fun rs n => if src.packageNames.contains n then rs
        else emit noFail (.packagePurge n) rs) ⟨st, tr, none⟩
        = ⟨st', tr ++ ext, none⟩ ∧
      stateWF st' ∧
      (∀ n ∈ src.packageNames, pkgSynced src st' n) ∧
      (∀ q, q ∈ st'.packageNames → q ∈ st.packageNames) ∧
      (∀ q ∈ l, q ∉ src.packageNames → q ∉ st'.packageNames) ∧
      st'.orgs = st.orgs := by
  intro l
  induction l with
  | nil =>
      intro st tr hwf hsyn
      exact ⟨st, [], by simp, hwf, hsyn, fun q hq => hq,
        (by intro q hq; cases hq), rfl⟩
  | cons n rest ih =>
      intro st tr hwf hsyn
      by_cases hc : src.packageNames.contains n = true
      · obtain ⟨st', ext, heq, hwf', hsyn', hsub', hgone', ho'⟩ := ih st tr hwf hsyn
        refine ⟨st', ext, ?_, hwf', hsyn', hsub', ?_, ho'⟩
        · simp only [List.foldl_cons]
          rw [if_pos hc]
          exact heq
        · intro q hq hqs
          rcases List.mem_cons.mp hq with rfl | hq'
          · exact absurd (contains_iff_mem.mp hc) hqs
          · exact hgone' q hq' hqs
      · have hns : n ∉ src.packageNames := fun h => hc (contains_iff_mem.mpr h)
        have hstep : (if src.packageNames.contains n
            then (⟨st, tr, none⟩ : RunState)
            else emit noFail (.packagePurge n) ⟨st, tr, none⟩)
            = ⟨applyEffect (.packagePurge n) st, tr ++ [.packagePurge n], none⟩ := by
          rw [if_neg hc]
          exact emit_noFail _ _ rfl
        have hwf₁ := stateWF_purge st n hwf
        have hsyn₁ : ∀ m ∈ src.packageNames,
            pkgSynced src (applyEffect (.packagePurge n) st) m := by
          intro m hm
          refine pkgSynced_congr ?_ (hsyn m hm)
          exact getPackage_purge_ne st n m (fun h => hns (h ▸ hm))
        have hsub₁ : ((applyEffect (.packagePurge n) st).packageNames).Sublist
            st.packageNames := by
          unfold TargetState.packageNames
          simp only [applyEffect]
          exact (List.filter_sublist _).map _
        have hngone : n ∉ (applyEffect (.packagePurge n) st).packageNames := by
          intro hmem
          obtain ⟨p, hp, hpe⟩ := List.mem_map.mp hmem
          have := List.of_mem_filter hp
          rw [hpe] at this
          simp at this
        obtain ⟨st', ext, heq, hwf', hsyn', hsub', hgone', ho'⟩ :=
          ih (applyEffect (.packagePurge n) st) (tr ++ [.packagePurge n]) hwf₁ hsyn₁
        refine ⟨st', .packagePurge n :: ext, ?_, hwf', hsyn', ?_, ?_, ?_⟩
        · simp only [List.foldl_cons]
          rw [hstep, heq, List.append_assoc]
          rfl
        · intro q hq
          exact hsub₁.mem (hsub' q hq)
        · intro q hq hqs
          rcases List.mem_cons.mp hq with rfl | hq'
          · intro hmem
            exact hngone (hsub' q hmem)
          · exact hgone' q hq' hqs
        · rw [ho']
          rfl

theorem sync_orgs_and_packages_def (env : Env) (src : SourceCatalog)
    (orgs packages : List String) (rs : RunState) :
    sync_orgs_and_packages env src orgs packages rs
      = packages.foldl (fun rs n => sync_package env src n rs)
          (orgs.foldl (fun rs n => sync_org env src n rs) rs) := rfl

theorem sync_full_def (env : Env) (src : SourceCatalog) (rs : RunState) :
    sync_full env src rs
      = ((sync_orgs_and_packages env src src.orgNames src.packageNames rs).st.packageNames).foldl
          (fun rs n => if src.packageNames.contains n then rs
            else emit env (.packagePurge n) rs)
          (sync_orgs_and_packages env src src.orgNames src.packageNames rs) := rfl

/-- A full sync from a well-formed initial target over a well-formed
source runs to completion without an error and leaves the target fully
synced. -/
theorem sync_full_establish (src : SourceCatalog) (st : TargetState)
    (hsrc : srcWF src) (ht : tgtWF st) :
    ∃ st' ext,
      sync_full noFail src (initRS st) = ⟨st', ext, none⟩ ∧
      synced src st' := by
  obtain ⟨st₁, ext₁, heq₁, hwf₁, hsy₁, _hq₁, hp₁, _hn₁⟩ :=
    orgs_phase src src.orgNames st [] ht.1 (hsrc.1) (by
      intro n hn
      obtain ⟨so, hfind, hmem⟩ := getOrg_exists hn
      exact ⟨so, hfind, hsrc.2.1 (n, so) hmem⟩)
  obtain ⟨st₂, ext₂, heq₂, hwf₂, hsy₂, _hq₂, ho₂, hm₂⟩ :=
    pkgs_phase src st ht.2 src.packageNames st₁ ([] ++ ext₁) hwf₁ hsrc.2.2.1
      (by
        intro n hn
        obtain ⟨sp, hfind, hmem⟩ := getPackage_exists hn
        exact ⟨sp, hfind, hsrc.2.2.2.1 (n, sp) hmem,
          hsrc.2.2.2.2.1 (n, sp) hmem, hsrc.2.2.2.2.2 (n, sp) hmem⟩)
      (fun n _ => getPackage_congr hp₁ n)
  obtain ⟨st₃, ext₃, heq₃, hwf₃, hsy₃, hsub₃, hgone₃, ho₃⟩ :=
    purge_phase src st₂.packageNames st₂ (([] ++ ext₁) ++ ext₂) hwf₂ hsy₂
  refine ⟨st₃, (([] ++ ext₁) ++ ext₂) ++ ext₃, ?_, ?_, ?_, ?_⟩
  · rw [sync_full_def, sync_orgs_and_packages_def]
    rw [show initRS st = (⟨st, [], none⟩ : RunState) from rfl]
    rw [heq₁, heq₂]
    exact heq₃
  · intro n hn
    refine orgSynced_congr ?_ (hsy₁ n hn)
    exact getOrg_congr (by rw [ho₃, ho₂]) n
  · exact hsy₃
  · intro n hn
    by_cases hns : n ∈ src.packageNames
    · exact hns
    · exact absurd hn (hgone₃ n (hsub₃ n hn) hns)

/-! ## C7: idempotence of a successful full sync -/

namespace ScenC7

/-- A source package with no resources, canonical-named `pkg`. -/
def spC : RawPackage :=
  { scalars := [("name", some "pkg")]
    extras := []
    tags := []
    organization_name := ""
    resources := [] }

def srcC : SourceCatalog := { orgs := [], packages := [("pkg", spC)] }

/-- An initial target whose stored package matches the source
canonically but carries two resources with duplicate embedded source id
`X` (markers `X:1` and `X:2`). -/
def stC : TargetState :=
  { orgs := []
    packages := [("pkg", { meta := PackageMetadata.ofRaw spC
                           resources := [ScenRes.tDup1, ScenRes.tDup2] })]
    nextId := 0 }

/-- A well-formed one-org, one-package, one-resource source catalog. -/
def so1 : RawOrg :=
  { scalars := [("name", some "org1"), ("title", some "Org One")]
    extras := []
    image_display_url := "https://src/uploads/logo.png" }

def sres1 : RawResource :=
  { baseRes with id := "r1", revision_id := "5", hash := some "" }

def sp1 : RawPackage :=
  { scalars := [("name", some "pkg1"), ("title", some "Package One")]
    extras := []
    tags := []
    organization_name := "org1"
    resources := [sres1] }

def srcW : SourceCatalog := { orgs := [("org1", so1)], packages := [("pkg1", sp1)] }

end ScenC7

/-- C7 counterexample: the claim as stated (a successful full sync
followed by an identical full sync issues zero writes on the second run)
is false without well-formedness of the initial target.  Here two stored
resources of the matching package `pkg` both embed the source id `X`:
the first run's by-id dict keeps only the later one, deletes it, and the
second run then deletes the leftover duplicate — a write on run two even
though run one completed successfully. -/
theorem counterexample_C7 :
    (sync_full noFail ScenC7.srcC (initRS ScenC7.stC)).err = none ∧
    ((sync_full noFail ScenC7.srcC
        (initRS (sync_full noFail ScenC7.srcC (initRS ScenC7.stC)).st)).tr.filter
      Event.isWrite) ≠ [] := by decide

/-- C7 (amended): under well-formedness of the source catalog (unique
organization and package names matching the entities' own `name` field,
no listed package in state `deleted`, resource ids non-empty, free of
`:` and pairwise distinct, hash fields present) and of the initial
target (unique names, globally unique resource ids, hash fields present,
per-package non-empty markers pairwise distinct), a full sync with all
calls succeeding completes without an uncaught exception, and a second
full sync against the unchanged source — under any failure environment —
is the identity on the run state: it issues zero API writes, downloads
or file removals. -/
theorem claim_C7 (src : SourceCatalog) (st : TargetState)
    (hsrc : srcWF src) (ht : tgtWF st) :
    (sync_full noFail src (initRS st)).err = none ∧
    ∀ (env₂ : Env) (tr₂ : Trace),
      sync_full env₂ src ⟨(sync_full noFail src (initRS st)).st, tr₂, none⟩
        = ⟨(sync_full noFail src (initRS st)).st, tr₂, none⟩ := by
  obtain ⟨st', ext, heq, hsy⟩ := sync_full_establish src st hsrc ht
  rw [heq]
  exact ⟨rfl, fun env₂ tr₂ => sync_full_noop env₂ src st' tr₂ hsrc hsy⟩

/-- C7 witness instance: a fresh target synced from a one-organization,
one-package source; the first run errors nowhere and the second run is
the identity. -/
theorem claim_C7_witness :
    (sync_full noFail ScenC7.srcW (initRS stEmpty)).err = none ∧
    ∀ (env₂ : Env) (tr₂ : Trace),
      sync_full env₂ ScenC7.srcW
          ⟨(sync_full noFail ScenC7.srcW (initRS stEmpty)).st, tr₂, none⟩
        = ⟨(sync_full noFail ScenC7.srcW (initRS stEmpty)).st, tr₂, none⟩ :=
  claim_C7 ScenC7.srcW stEmpty
    ⟨by decide, by decide, by decide, by decide, by decide, by
      intro p hp
      have hp1 : p = ("pkg1", ScenC7.sp1) := by
        simpa [ScenC7.srcW] using hp
      rw [hp1]
      exact ⟨by decide, by decide⟩⟩
    ⟨⟨by decide, by decide, by decide, fun n _ => List.not_mem_nil _⟩,
      fun p hp => absurd hp (List.not_mem_nil p)⟩

end CkanSync
